import Mathlib

/-!
# holaspmv: CSR matrices, their binary codec, COO→CSR conversion and SpMV

A shallow embedding of `source/CSR.cpp`.

Modelling conventions
* `std::unique_ptr<X[]>` buffers are lists; the length of the list is the allocated
  length of the buffer.  Every indexed read or write outside the allocated length is
  undefined behaviour and is reported as `Outcome.ub`.
* `size_t` and `uint64_t` are 64 bits wide, `unsigned int` is 32 bits wide.  Values are
  natural numbers; arithmetic that can leave the machine range is reduced explicitly.
* The element type `T` (`float` or `double` in the explicit instantiations) is abstract:
  the kernels use only `0`, `+` and `*` on it, in the order the source applies them, and
  no algebraic law is assumed unless a theorem says so.
* `std::make_unique<X[]>(n)` value-initialises, so a fresh buffer holds `n` zeros.
  Allocation itself is assumed to succeed.
* Reference parameters: `spmv` takes its output and its input vector by reference.  A
  caller may pass two different objects (`spmv`) or the same object twice (`spmvSelf`);
  `spmvCall` covers both.
-/

namespace Hola

/-! ## Outcomes -/

/-- Result of running a routine: normal return, a thrown exception, or undefined
behaviour (an access outside an allocated buffer). -/
inductive Outcome (ε α : Type) where
  | ok (a : α)
  | throw (e : ε)
  | ub
  deriving DecidableEq, Repr

/-! ## Data model (`include/CSR.h`, `include/DenseVector.h`, `include/COO.h`) -/

/-- Modelled from the spec: the declaration of `CSR<T>` (header not part of the sources
at hand): shape fields and three owned arrays (§3). -/
structure CSR (T : Type) where
  rows : Nat
  cols : Nat
  nnz : Nat
  data : List T
  col_ids : List Nat
  row_offsets : List Nat
  deriving DecidableEq, Repr

/-- Modelled from the spec: the declaration of `DenseVector<T>`: a logical `size` and an
owned buffer `data` (§3).  The capacity is `data.length`. -/
structure DenseVector (T : Type) where
  size : Nat
  data : List T
  deriving DecidableEq, Repr

/-- Modelled from the spec: the declaration of `COO<T>`: shape fields and three parallel
sequences (§3). -/
structure COO (T : Type) where
  rows : Nat
  cols : Nat
  nnz : Nat
  data : List T
  row_ids : List Nat
  col_ids : List Nat
  deriving DecidableEq, Repr

/-- The invariants of a CSR matrix listed in §3 of the specification. -/
structure CSR.Valid {T : Type} (m : CSR T) : Prop where
  data_length : m.data.length = m.nnz
  col_ids_length : m.col_ids.length = m.nnz
  row_offsets_length : m.row_offsets.length = m.rows + 1
  col_bound : ∀ c ∈ m.col_ids, c < m.cols
  monotone : m.row_offsets.Pairwise (fun a b => a ≤ b)
  first : m.row_offsets[0]? = some 0
  last : m.row_offsets[m.rows]? = some m.nnz

/-- The invariant of a dense vector in §3: the buffer holds at least `size` elements. -/
def DenseVector.Valid {T : Type} (v : DenseVector T) : Prop :=
  v.size ≤ v.data.length

instance {T : Type} (v : DenseVector T) : Decidable v.Valid :=
  inferInstanceAs (Decidable (v.size ≤ v.data.length))

/-! ## Buffer primitives -/

/-- Checked write `buf[i] = x`. -/
def writeAt {α : Type} (buf : List α) (i : Nat) (x : α) : Option (List α) :=
  if i < buf.length then some (buf.set i x) else none

/-- Checked `std::fill(&buf[0], &buf[0] + n, x)`. -/
def fillN {α : Type} (buf : List α) (n : Nat) (x : α) : Option (List α) :=
  if n ≤ buf.length then some (List.replicate n x ++ buf.drop n) else none

/-! ## `spmv` -/

/-- Exceptions thrown by `spmv`. -/
inductive SpmvError where
  | dimensionsMismatch
  deriving DecidableEq, Repr

section Spmv
variable {T : Type} [Zero T] [Add T] [Mul T]


/-- The inner loop of the non-transposed branch,
`for (unsigned o = lo; o < hi; ++o) val += m.data[o] * v.data[m.col_ids[o]];`
run for `n = hi - lo` iterations starting at `o`.  The counter never wraps because
`o < hi` and `hi` is itself an `unsigned int`. -/
def rowLoop (m : CSR T) (v : DenseVector T) : Nat → Nat → T → Option T
  | 0, _, val => some val
  | n + 1, o, val =>
    match m.data[o]?, m.col_ids[o]? with
    | some a, some c =>
      match v.data[c]? with
      | some x => rowLoop m v n (o + 1) (val + a * x)
      | none => none
    | _, _ => none

/-- The outer loop of the non-transposed branch, `n` remaining rows starting at row `i`. -/
def rowsLoop (m : CSR T) (v : DenseVector T) : Nat → Nat → List T → Option (List T)
  | 0, _, out => some out
  | n + 1, i, out =>
    match m.row_offsets[i]?, m.row_offsets[i + 1]? with
    | some lo, some hi =>
      match rowLoop m v (hi - lo) lo 0 with
      | some val =>
        match writeAt out i val with
        | some out1 => rowsLoop m v n (i + 1) out1
        | none => none
      | none => none
    | _, _ => none

/-- The inner loop of the transposed branch,
`for (unsigned o = lo; o < hi; ++o) res.data[m.col_ids[o]] += m.data[o] * v.data[i];`
run for `n = hi - lo` iterations starting at `o`. -/
def scatterLoop (m : CSR T) (v : DenseVector T) (i : Nat) : Nat → Nat → List T → Option (List T)
  | 0, _, out => some out
  | n + 1, o, out =>
    match m.col_ids[o]?, m.data[o]?, v.data[i]? with
    | some c, some a, some x =>
      match out[c]? with
      | some y => scatterLoop m v i n (o + 1) (out.set c (y + a * x))
      | none => none
    | _, _, _ => none

/-- The outer loop of the transposed branch, `n` remaining rows starting at row `i`. -/
def scatterRows (m : CSR T) (v : DenseVector T) : Nat → Nat → List T → Option (List T)
  | 0, _, out => some out
  | n + 1, i, out =>
    match m.row_offsets[i]?, m.row_offsets[i + 1]? with
    | some lo, some hi =>
      match scatterLoop m v i (hi - lo) lo out with
      | some out1 => scatterRows m v n (i + 1) out1
      | none => none
    | _, _ => none


/-- The function `spmv(res, m, v, transpose)` called with `res` and `v` bound to two
different vector objects, so that no write to `res` changes `v` (the call with one object
bound to both parameters is `spmvSelf`).  The result carries the state of `res`: after a
normal return in `ok`, at the point of the throw in `throw`. -/
def spmv (res : DenseVector T) (m : CSR T) (v : DenseVector T) (transpose : Bool) :
    Outcome (SpmvError × DenseVector T) (DenseVector T) :=
  if transpose && v.size != m.rows then
    .throw (.dimensionsMismatch, res)
  else if !transpose && v.size != m.cols then
    .throw (.dimensionsMismatch, res)
  else
    let outsize := if transpose then m.cols else m.rows
    let buf := if res.size < outsize then List.replicate outsize 0 else res.data
    if transpose then
      match fillN buf m.cols 0 with
      | some buf0 =>
        match scatterRows m v m.rows 0 buf0 with
        | some out => .ok { size := outsize, data := out }
        | none => .ub
      | none => .ub
    else
      match rowsLoop m v m.rows 0 buf with
      | some out => .ok { size := outsize, data := out }
      | none => .ub

/-- The outer loop of the non-transposed branch when `res` and `v` are one object with
buffer `buf`: the inner loop of row `i` reads `v.data[m.col_ids[o]]` from the buffer as
the rows before `i` left it, and `res.data[i] = val` then writes into the same buffer.
`size` is the object's `size` field, which the loops never read. -/
def rowsLoopSelf (m : CSR T) (size : Nat) : Nat → Nat → List T → Option (List T)
  | 0, _, buf => some buf
  | n + 1, i, buf =>
    match m.row_offsets[i]?, m.row_offsets[i + 1]? with
    | some lo, some hi =>
      match rowLoop m { size := size, data := buf } (hi - lo) lo 0 with
      | some val =>
        match writeAt buf i val with
        | some buf1 => rowsLoopSelf m size n (i + 1) buf1
        | none => none
      | none => none
    | _, _ => none

/-- The inner loop of the transposed branch when `res` and `v` are one object with buffer
`buf`: `res.data[m.col_ids[o]] += m.data[o] * v.data[i]` reads `v.data[i]` from the
buffer in its current state at every iteration and writes into the same buffer. -/
def scatterLoopSelf (m : CSR T) (i : Nat) : Nat → Nat → List T → Option (List T)
  | 0, _, buf => some buf
  | n + 1, o, buf =>
    match m.col_ids[o]?, m.data[o]?, buf[i]? with
    | some c, some a, some x =>
      match buf[c]? with
      | some y => scatterLoopSelf m i n (o + 1) (buf.set c (y + a * x))
      | none => none
    | _, _, _ => none

/-- The outer loop of the transposed branch when `res` and `v` are one object. -/
def scatterRowsSelf (m : CSR T) : Nat → Nat → List T → Option (List T)
  | 0, _, buf => some buf
  | n + 1, i, buf =>
    match m.row_offsets[i]?, m.row_offsets[i + 1]? with
    | some lo, some hi =>
      match scatterLoopSelf m i (hi - lo) lo buf with
      | some buf1 => scatterRowsSelf m n (i + 1) buf1
      | none => none
    | _, _ => none

/-- The call `spmv(x, m, x, transpose)`: `res` and `v` are references and here both are
bound to the object `x`.  The two checks read `x.size`; the resize step replaces the
buffer that `v.data` also names by zeros and overwrites the size; the fill and the loops
then read and write that one buffer.  The result carries the state of `x`. -/
def spmvSelf (x : DenseVector T) (m : CSR T) (transpose : Bool) :
    Outcome (SpmvError × DenseVector T) (DenseVector T) :=
  if transpose && x.size != m.rows then
    .throw (.dimensionsMismatch, x)
  else if !transpose && x.size != m.cols then
    .throw (.dimensionsMismatch, x)
  else
    let outsize := if transpose then m.cols else m.rows
    let buf := if x.size < outsize then List.replicate outsize 0 else x.data
    if transpose then
      match fillN buf m.cols 0 with
      | some buf0 =>
        match scatterRowsSelf m m.rows 0 buf0 with
        | some out => .ok { size := outsize, data := out }
        | none => .ub
      | none => .ub
    else
      match rowsLoopSelf m outsize m.rows 0 buf with
      | some out => .ok { size := outsize, data := out }
      | none => .ub

/-- The two ways a caller can bind the reference parameters `res` and `v` of `spmv`: to
two different vector objects, or to one object.  Different `DenseVector` objects own
different buffers (`std::unique_ptr`), and so do a vector and the matrix (§3), so there
is no other overlap. -/
inductive VectorArgs (T : Type) where
  | distinct (res v : DenseVector T)
  | same (x : DenseVector T)

/-- A call of `spmv` with its vector arguments bound as `args` says. -/
def spmvCall (args : VectorArgs T) (m : CSR T) (transpose : Bool) :
    Outcome (SpmvError × DenseVector T) (DenseVector T) :=
  match args with
  | .distinct res v => spmv res m v transpose
  | .same x => spmvSelf x m transpose

/-- Row sum in the words of §4.4: the left-to-right sum, from `0`, over the stored
entries `e` of row `r`, of `values[e] * input[col_ids[e]]`. -/
def rowSumSpec (m : CSR T) (v : DenseVector T) (r : Nat) : T :=
  (List.range' (m.row_offsets.getD r 0) (m.row_offsets.getD (r + 1) 0 - m.row_offsets.getD r 0)).foldl
    (fun acc e => acc + m.data.getD e 0 * v.data.getD (m.col_ids.getD e 0) 0) 0

/-- Column sum in the words of §4.4 for the transposed product: from `0`, over rows `r`
ascending and inside a row over its stored entries `e` in order, add
`values[e] * input[r]` whenever `col_ids[e] = c`. -/
def colSumSpec (m : CSR T) (v : DenseVector T) (c : Nat) : T :=
  (List.range m.rows).foldl
    (fun acc r =>
      (List.range' (m.row_offsets.getD r 0)
          (m.row_offsets.getD (r + 1) 0 - m.row_offsets.getD r 0)).foldl
        (fun acc e =>
          if m.col_ids.getD e 0 = c then acc + m.data.getD e 0 * v.data.getD r 0 else acc)
        acc)
    0

end Spmv

/-! ## Binary codec (`loadCSR`, `storeCSR`)

Bytes are natural numbers below 256.  Multi-byte integers are laid out least significant
byte first, the native order of the hosts the sources target; nothing below depends on
that choice beyond writer and reader agreeing.
-/

/-- The `k` low-order bytes of `x`, least significant first: the object representation
of a `k`-byte unsigned integer. -/
def leBytes : Nat → Nat → List Nat
  | 0, _ => []
  | k + 1, x => x % 256 :: leBytes k (x / 256)

/-- The unsigned integer whose object representation is `bs`. -/
def leVal : List Nat → Nat
  | [] => 0
  | b :: bs => b + 256 * leVal bs

/-- Object representation of the element type `T`: `sizeof(T)` and the bytes that
`reinterpret_cast<char*>` exposes.  Reading back the bytes of a value yields the value. -/
class ObjRepr (T : Type) where
  size : Nat
  toBytes : T → List Nat
  ofBytes : List Nat → T
  toBytes_length : ∀ x, (toBytes x).length = size
  ofBytes_toBytes : ∀ x, ofBytes (toBytes x) = x

/-- The constant `CSRIOHeader::Magic`: 'H','o','l','a',1,'C','S','R',1. -/
def Magic : List Nat := [72, 111, 108, 97, 1, 67, 83, 82, 1]

/-- The record `CSRIOHeader`. -/
structure CSRIOHeader where
  magic : List Nat
  typesize : Nat
  num_rows : Nat
  num_columns : Nat
  num_non_zeroes : Nat
  deriving DecidableEq, Repr

/-- The constructor `CSRIOHeader(const CSR<T>& mat)`; `w` is `sizeof(T)`. -/
def CSRIOHeader.ofCSR {T : Type} (w : Nat) (mat : CSR T) : CSRIOHeader :=
  { magic := (List.range Magic.length).map (fun i => Magic.getD i 0)
    typesize := w
    num_rows := mat.rows
    num_columns := mat.cols
    num_non_zeroes := mat.nnz }

/-- The method `CSRIOHeader::checkMagic`. -/
def CSRIOHeader.checkMagic (h : CSRIOHeader) : Bool :=
  (List.range Magic.length).all (fun i => h.magic.getD i 0 == Magic.getD i 0)

/-- The value of `sizeof(CSRIOHeader)` when the compiler inserts `pad` bytes between
`magic[9]` and the first 8-byte field (7 under natural 8-byte alignment). -/
def sizeofHeader (pad : Nat) : Nat := Magic.length + pad + 8 + 8 + 8 + 8

/-- The object representation of a header; `padBytes` are the (indeterminate) contents
of the padding. -/
def CSRIOHeader.toBytes (padBytes : List Nat) (h : CSRIOHeader) : List Nat :=
  h.magic ++ padBytes ++ leBytes 8 h.typesize ++ leBytes 8 h.num_rows
    ++ leBytes 8 h.num_columns ++ leBytes 8 h.num_non_zeroes

/-- The header whose object representation is `bs`, with `pad` padding bytes. -/
def CSRIOHeader.ofBytes (pad : Nat) (bs : List Nat) : CSRIOHeader :=
  { magic := bs.take Magic.length
    typesize := leVal ((bs.drop (Magic.length + pad)).take 8)
    num_rows := leVal ((bs.drop (Magic.length + pad + 8)).take 8)
    num_columns := leVal ((bs.drop (Magic.length + pad + 16)).take 8)
    num_non_zeroes := leVal ((bs.drop (Magic.length + pad + 24)).take 8) }

/-- State of a `std::ifstream`: the bytes not yet consumed and the value of `good()`. -/
structure IStream where
  rest : List Nat
  good : Bool
  deriving DecidableEq, Repr

/-- The call `fstream.read(p, count)`: the bytes stored through `p` and the new stream
state.  Nothing is extracted from a stream that is not good; a short read stores what
is left and clears `good()`. -/
def IStream.read (s : IStream) (count : Nat) : List Nat × IStream :=
  if !s.good then ([], s)
  else if count ≤ s.rest.length then
    (s.rest.take count, { rest := s.rest.drop count, good := true })
  else (s.rest, { rest := [], good := false })

/-- The elements whose object representations are laid out back to back in `bs`:
`n` elements of `w` bytes each. -/
def decodeArray {α : Type} (w : Nat) (dec : List Nat → α) : Nat → List Nat → List α
  | 0, _ => []
  | n + 1, bs => dec (bs.take w) :: decodeArray w dec n (bs.drop w)

/-- The call `fstream.read(reinterpret_cast<char*>(&arr[0]), count)` on a typed array:
the leading bytes of the array's storage are overwritten by what the stream delivers.
`none` when more bytes would be stored than the array holds. -/
def readArray {α : Type} (w : Nat) (enc : α → List Nat) (dec : List Nat → α)
    (arr : List α) (s : IStream) (count : Nat) : Option (List α × IStream) :=
  let buf := arr.flatMap enc
  let got := (s.read count).1
  if got.length ≤ buf.length then
    some (decodeArray w dec arr.length (got ++ buf.drop got.length), (s.read count).2)
  else none

/-- The call `fstream.write(reinterpret_cast<char*>(&arr[0]), count)` on a typed array:
the first `count` bytes of the array's storage.  `none` when the array is shorter. -/
def writeArray {α : Type} (enc : α → List Nat) (arr : List α) (count : Nat) :
    Option (List Nat) :=
  let buf := arr.flatMap enc
  if count ≤ buf.length then some (buf.take count) else none

/-- The method `CSR<T>::alloc(r, c, n)`.  `r + 1` is computed in `size_t`. -/
def CSR.alloc {T : Type} [Zero T] (r c n : Nat) : CSR T :=
  { rows := r
    cols := c
    nnz := n
    data := List.replicate n 0
    col_ids := List.replicate n 0
    row_offsets := List.replicate ((r + 1) % 2 ^ 64) 0 }

/-- Exceptions thrown by the codec. -/
inductive IOError where
  | couldNotOpen
  | couldNotReadHeader
  | notACSRMatrix
  | typeMismatch
  | couldNotReadData
  deriving DecidableEq, Repr

/-- The function `loadCSR<T>(file)`.  `file` is the content of the named file, `none`
when it cannot be opened.  Byte counts are computed in `size_t`. -/
def loadCSR {T : Type} [Zero T] [ObjRepr T] (pad : Nat) (file : Option (List Nat)) :
    Outcome IOError (CSR T) :=
  match file with
  | none => .throw .couldNotOpen
  | some bytes =>
    let s0 : IStream := { rest := bytes, good := true }
    let hdr := s0.read (sizeofHeader pad)
    if !hdr.2.good then .throw .couldNotReadHeader
    else
      let header := CSRIOHeader.ofBytes pad hdr.1
      if !header.checkMagic then .throw .notACSRMatrix
      else if header.typesize != ObjRepr.size T then .throw .typeMismatch
      else
        let res : CSR T :=
          CSR.alloc header.num_rows header.num_columns header.num_non_zeroes
        match readArray (ObjRepr.size T) ObjRepr.toBytes ObjRepr.ofBytes res.data hdr.2
            (res.nnz * ObjRepr.size T % 2 ^ 64) with
        | none => .ub
        | some (data, s1) =>
          match readArray 4 (leBytes 4) leVal res.col_ids s1 (res.nnz * 4 % 2 ^ 64) with
          | none => .ub
          | some (col_ids, s2) =>
            match readArray 4 (leBytes 4) leVal res.row_offsets s2
                ((res.rows + 1) % 2 ^ 64 * 4 % 2 ^ 64) with
            | none => .ub
            | some (row_offsets, s3) =>
              if !s3.good then .throw .couldNotReadData
              else .ok { res with data := data, col_ids := col_ids, row_offsets := row_offsets }

/-- The function `storeCSR(mat, file)`: the bytes written to the file.  `isOpen` tells
whether the file could be opened for writing. -/
def storeCSR {T : Type} [ObjRepr T] (padBytes : List Nat) (mat : CSR T) (isOpen : Bool) :
    Outcome IOError (List Nat) :=
  if !isOpen then .throw .couldNotOpen
  else
    let header := CSRIOHeader.ofCSR (ObjRepr.size T) mat
    match writeArray ObjRepr.toBytes mat.data (mat.nnz * ObjRepr.size T % 2 ^ 64),
      writeArray (leBytes 4) mat.col_ids (mat.nnz * 4 % 2 ^ 64),
      writeArray (leBytes 4) mat.row_offsets ((mat.rows + 1) % 2 ^ 64 * 4 % 2 ^ 64) with
    | some d, some c, some r => .ok (header.toBytes padBytes ++ d ++ c ++ r)
    | _, _, _ => .ub

/-- What the machine types of an in-memory `CSR<T>` (element size `w`) guarantee:
`sizeof(T)` and the counts are `size_t`, the indices are `unsigned int`, and the byte
sizes of the three arrays fit `size_t`. -/
structure CSR.Representable {T : Type} (w : Nat) (m : CSR T) : Prop where
  elem_size : w < 2 ^ 64
  col_ids_u32 : ∀ c ∈ m.col_ids, c < 2 ^ 32
  row_offsets_u32 : ∀ o ∈ m.row_offsets, o < 2 ^ 32
  cols_size_t : m.cols < 2 ^ 64
  data_bytes : m.data.length * w < 2 ^ 64
  col_ids_bytes : m.col_ids.length * 4 < 2 ^ 64
  row_offsets_bytes : m.row_offsets.length * 4 < 2 ^ 64

/-- Bit pattern of a 32-bit element (`float`). -/
abbrev Word32 := Fin (2 ^ 32)

instance : ObjRepr Word32 where
  size := 4
  toBytes x := leBytes 4 x.val
  ofBytes bs := ⟨leVal bs % 2 ^ 32, Nat.mod_lt _ (by decide)⟩
  toBytes_length _ := rfl
  ofBytes_toBytes x := by
    apply Fin.ext
    have := x.isLt
    simp only [leBytes, leVal]
    omega

/-! ## `convert` -/

/-- The local record `Entry` of `convert`. -/
structure Entry (T : Type) where
  r : Nat
  c : Nat
  v : T
  deriving DecidableEq, Repr

/-- The comparison `Entry::operator<`. -/
def Entry.lt {T : Type} (a b : Entry T) : Bool :=
  if a.r != b.r then decide (a.r < b.r) else decide (a.c < b.c)

/-- The order `std::sort` leaves a range in: no element compares less than an earlier
one. -/
def Entry.le {T : Type} (a b : Entry T) : Prop := Entry.lt b a = false

instance {T : Type} : DecidableRel (Entry.le (T := T)) :=
  fun a b => inferInstanceAs (Decidable (Entry.lt b a = false))

/-- The contract of `std::sort` (a library routine, not part of the sources): the result
is a rearrangement of the input that is ordered by `operator<`.  The order of
equivalent elements is not specified. -/
def IsStdSort {T : Type} (sort : List (Entry T) → List (Entry T)) : Prop :=
  ∀ l, (sort l).Perm l ∧ (sort l).Pairwise Entry.le

/-- One admissible `std::sort`: insertion sort. -/
def insertionStdSort {T : Type} (l : List (Entry T)) : List (Entry T) :=
  List.insertionSort Entry.le l

/-- The loop `for (i < coo.nnz) entries.push_back(Entry{row_ids[i], col_ids[i], data[i]})`,
`n` remaining iterations from index `i`. -/
def gatherLoop {T : Type} (coo : COO T) : Nat → Nat → List (Entry T) → Option (List (Entry T))
  | 0, _, entries => some entries
  | n + 1, i, entries =>
    match coo.row_ids[i]?, coo.col_ids[i]?, coo.data[i]? with
    | some r, some c, some v => gatherLoop coo n (i + 1) (entries ++ [⟨r, c, v⟩])
    | _, _, _ => none

/-- The loop that copies the sorted entries into `res` and counts the entries of each
row in `res.row_offsets` (32-bit increments), `n` remaining iterations from index `i`. -/
def copyLoop {T : Type} (entries : List (Entry T)) : Nat → Nat → CSR T → Option (CSR T)
  | 0, _, res => some res
  | n + 1, i, res =>
    match entries[i]? with
    | some e =>
      match writeAt res.data i e.v, writeAt res.col_ids i e.c, res.row_offsets[e.r]? with
      | some d, some c, some k =>
        copyLoop entries n (i + 1)
          { res with data := d, col_ids := c,
                     row_offsets := res.row_offsets.set e.r ((k + 1) % 2 ^ 32) }
      | _, _, _ => none
    | none => none

/-- The loop that turns the per-row counts into offsets (32-bit additions), `n`
remaining iterations from row `i` with running offset `off`; returns the final `off`
and the array. -/
def prefixLoop : Nat → Nat → Nat → List Nat → Option (Nat × List Nat)
  | 0, _, off, ro => some (off, ro)
  | n + 1, i, off, ro =>
    match ro[i]? with
    | some k => prefixLoop n (i + 1) ((off + k) % 2 ^ 32) (ro.set i off)
    | none => none

/-- The function `convert(res, coo)`; `sort` is the `std::sort` in use.  The previous
content of `res` is discarded by `alloc`, so only the new value is returned. -/
def convert {T : Type} [Zero T] (sort : List (Entry T) → List (Entry T)) (coo : COO T) :
    Outcome Empty (CSR T) :=
  match gatherLoop coo coo.nnz 0 [] with
  | none => .ub
  | some entries0 =>
    let entries := sort entries0
    let res0 : CSR T := CSR.alloc coo.rows coo.cols coo.nnz
    match fillN res0.row_offsets 0 0 with
    | none => .ub
    | some ro0 =>
      match copyLoop entries coo.nnz 0 { res0 with row_offsets := ro0 } with
      | none => .ub
      | some res1 =>
        match prefixLoop coo.rows 0 0 res1.row_offsets with
        | none => .ub
        | some (off, ro) =>
          match writeAt ro coo.rows off with
          | none => .ub
          | some ro1 => .ok { res1 with row_offsets := ro1 }

/-- The §3 shape of a COO matrix: three parallel sequences of length `nnz`. -/
structure COO.WellFormed {T : Type} (coo : COO T) : Prop where
  data_length : coo.data.length = coo.nnz
  row_ids_length : coo.row_ids.length = coo.nnz
  col_ids_length : coo.col_ids.length = coo.nnz

/-- The triplets of a COO matrix, in input order. -/
def COO.triplets {T : Type} (coo : COO T) : List (Entry T) :=
  (coo.row_ids.zip (coo.col_ids.zip coo.data)).map (fun t => ⟨t.1, t.2.1, t.2.2⟩)

/-! ## Instrumented `convert` and the dot product -/

/-- The copy loop of `convert` with every 32-bit increment checked: as `copyLoop`, but
`none` also when `++res.row_offsets[r]` would leave the range of `unsigned int`. -/
def copyLoopNoWrap {T : Type} (entries : List (Entry T)) : Nat → Nat → CSR T → Option (CSR T)
  | 0, _, res => some res
  | n + 1, i, res =>
    match entries[i]? with
    | some e =>
      match writeAt res.data i e.v, writeAt res.col_ids i e.c, res.row_offsets[e.r]? with
      | some d, some c, some k =>
        if k + 1 < 2 ^ 32 then
          copyLoopNoWrap entries n (i + 1)
            { res with data := d, col_ids := c, row_offsets := res.row_offsets.set e.r (k + 1) }
        else none
      | _, _, _ => none
    | none => none

/-- The prefix-sum loop of `convert` with every 32-bit addition checked: as `prefixLoop`,
but `none` also when `off + res.row_offsets[i]` would leave the range of `unsigned int`. -/
def prefixLoopNoWrap : Nat → Nat → Nat → List Nat → Option (Nat × List Nat)
  | 0, _, off, ro => some (off, ro)
  | n + 1, i, off, ro =>
    match ro[i]? with
    | some k => if off + k < 2 ^ 32 then prefixLoopNoWrap n (i + 1) (off + k) (ro.set i off) else none
    | none => none

/-- The function `convert` run with the checked loops: `ub` stands for an access outside
an array or a 32-bit addition that wraps. -/
def convertNoWrap {T : Type} [Zero T] (sort : List (Entry T) → List (Entry T)) (coo : COO T) :
    Outcome Empty (CSR T) :=
  match gatherLoop coo coo.nnz 0 [] with
  | none => .ub
  | some entries0 =>
    let entries := sort entries0
    let res0 : CSR T := CSR.alloc coo.rows coo.cols coo.nnz
    match fillN res0.row_offsets 0 0 with
    | none => .ub
    | some ro0 =>
      match copyLoopNoWrap entries coo.nnz 0 { res0 with row_offsets := ro0 } with
      | none => .ub
      | some res1 =>
        match prefixLoopNoWrap coo.rows 0 0 res1.row_offsets with
        | none => .ub
        | some (off, ro) =>
          match writeAt ro coo.rows off with
          | none => .ub
          | some ro1 => .ok { res1 with row_offsets := ro1 }

/-- The dot product of the first `n` elements of two buffers, summed left to right. -/
def dot {T : Type} [Zero T] [Add T] [Mul T] (a b : List T) (n : Nat) : T :=
  (List.range n).foldl (fun acc i => acc + a.getD i 0 * b.getD i 0) 0

/-! ## Sample inputs -/

/-- The matrix `[[1,0,2],[0,3,0]]` of §8. -/
def exA : CSR Int := ⟨2, 3, 3, [1, 2, 3], [0, 2, 1], [0, 2, 3]⟩

/-- The §8 matrix with its values seen as 32-bit patterns. -/
def exW : CSR Word32 := ⟨2, 3, 3, [1, 2, 3], [0, 2, 1], [0, 2, 3]⟩

/-- Seven zero bytes of padding between `magic` and `typesize`. -/
def pad7 : List Nat := [0, 0, 0, 0, 0, 0, 0]

/-- A 48-byte stream whose magic is wrong in its first byte. -/
def badMagicFile : List Nat :=
  [73, 111, 108, 97, 1, 67, 83, 82, 1, 0, 0, 0, 0, 0, 0, 0,
   4, 0, 0, 0, 0, 0, 0, 0, 0, 0, 0, 0, 0, 0, 0, 0,
   0, 0, 0, 0, 0, 0, 0, 0, 0, 0, 0, 0, 0, 0, 0, 0]

/-- A 48-byte stream with the right magic whose element-size field is 8. -/
def doubleFile : List Nat :=
  [72, 111, 108, 97, 1, 67, 83, 82, 1, 0, 0, 0, 0, 0, 0, 0,
   8, 0, 0, 0, 0, 0, 0, 0, 0, 0, 0, 0, 0, 0, 0, 0,
   0, 0, 0, 0, 0, 0, 0, 0, 0, 0, 0, 0, 0, 0, 0, 0]

/-- A 48-byte stream that is a header and nothing else: right magic, element size 4,
`num_rows = 2^64 - 1` (eight bytes `FF`), `num_columns = 0`, `num_non_zeroes = 0`. -/
def headerOnlyFile : List Nat :=
  [72, 111, 108, 97, 1, 67, 83, 82, 1, 0, 0, 0, 0, 0, 0, 0,
   4, 0, 0, 0, 0, 0, 0, 0, 255, 255, 255, 255, 255, 255, 255, 255,
   0, 0, 0, 0, 0, 0, 0, 0, 0, 0, 0, 0, 0, 0, 0, 0]

/-- The same header-only stream for a compiler that packs the header record into 41
bytes (no padding). -/
def headerOnlyFilePacked : List Nat :=
  [72, 111, 108, 97, 1, 67, 83, 82, 1,
   4, 0, 0, 0, 0, 0, 0, 0, 255, 255, 255, 255, 255, 255, 255, 255,
   0, 0, 0, 0, 0, 0, 0, 0, 0, 0, 0, 0, 0, 0, 0, 0]

/-- A COO matrix with no triplet and the largest row count a `size_t` holds. -/
def maxRowsCOO : COO Int := ⟨2 ^ 64 - 1, 0, 0, [], [], []⟩

/-- The 1×1 COO matrix made of `n` copies of the triplet `(0, 0, 0)`. -/
def sameCOO (n : Nat) : COO Int :=
  ⟨1, 1, n, List.replicate n 0, List.replicate n 0, List.replicate n 0⟩

/-- A 3×6 COO matrix given in sorted order: triplets `(0,0)` and `(0,5)` in row 0, `n`
triplets `(1,0)` in row 1 and two triplets `(2,0)` in row 2; all values are `0`. -/
def wrapCOO (n : Nat) : COO Int :=
  ⟨3, 6, n + 4, 0 :: 0 :: (List.replicate n 0 ++ [0, 0]),
    0 :: 0 :: (List.replicate n 1 ++ [2, 2]),
    0 :: 5 :: (List.replicate n 0 ++ [0, 0])⟩

/-- The §8 matrix `[[1,0,2],[0,3,0]]` over any semiring of elements. -/
def exAOver (T : Type) [Semiring T] : CSR T := ⟨2, 3, 3, [1, 2, 3], [0, 2, 1], [0, 2, 3]⟩

/-- The 2×2 matrix without stored entries. -/
def exEmpty : CSR Int := ⟨2, 2, 0, [], [], [0, 0, 0]⟩

/-- The 0×3 matrix. -/
def exNoRows : CSR Int := ⟨0, 3, 0, [], [], [0]⟩

/-- The 2×2 matrix `[[1,1],[1,0]]`. -/
def exSq : CSR Int := ⟨2, 2, 3, [1, 1, 1], [0, 1, 0], [0, 2, 3]⟩

/-- The 2×1 matrix `[[1],[1]]`. -/
def exTall : CSR Int := ⟨2, 1, 2, [1, 1], [0, 0], [0, 1, 2]⟩

/-- A well-formed 1×1 COO matrix whose only triplet has row id 3. -/
def exBadRowCOO : COO Int := ⟨1, 1, 1, [5], [3], [0]⟩

/-- The 1×1 COO matrix made of `n` copies of the triplet `(0, 0, 1)`. -/
def onesCOO (n : Nat) : COO Int :=
  ⟨1, 1, n, List.replicate n 1, List.replicate n 0, List.replicate n 0⟩

/-- The §8 matrix as COO triplets in row-major order. -/
def exCOO1 : COO Int := ⟨2, 3, 3, [1, 2, 3], [0, 0, 1], [0, 2, 1]⟩

/-- The same triplets as `exCOO1` in another order. -/
def exCOO2 : COO Int := ⟨2, 3, 3, [3, 2, 1], [1, 0, 0], [1, 2, 0]⟩

/-- A COO matrix with a duplicate position and unordered triplets. -/
def exCOO : COO Int := ⟨3, 4, 5, [10, 20, 30, 40, 50], [2, 0, 2, 0, 2], [1, 3, 0, 1, 1]⟩

/-! ## Facts about `spmv` -/

section SpmvFacts
variable {T : Type}

theorem getD_of_getElem? {α : Type} {l : List α} {i : Nat} {x : α} (d : α)
    (h : l[i]? = some x) : l.getD i d = x := by
  simp [List.getD_eq_getElem?_getD, h]

theorem writeAt_of_lt {α : Type} {buf : List α} {i : Nat} (x : α) (h : i < buf.length) :
    writeAt buf i x = some (buf.set i x) := by
  simp [writeAt, h]

/-- Entries of a valid matrix's offset array are ordered. -/
theorem CSR.Valid.offsets_le {m : CSR T} (hm : m.Valid) {i j a b : Nat} (hij : i ≤ j)
    (ha : m.row_offsets[i]? = some a) (hb : m.row_offsets[j]? = some b) : a ≤ b := by
  rcases Nat.eq_or_lt_of_le hij with h | h
  · subst h
    rw [ha] at hb
    exact le_of_eq (Option.some.inj hb)
  · obtain ⟨hi, rfl⟩ := List.getElem?_eq_some_iff.mp ha
    obtain ⟨hj, rfl⟩ := List.getElem?_eq_some_iff.mp hb
    exact List.pairwise_iff_getElem.mp hm.monotone i j hi hj h

/-- Every offset of a valid matrix is at most `nnz`. -/
theorem CSR.Valid.offset_le_nnz {m : CSR T} (hm : m.Valid) {i a : Nat}
    (ha : m.row_offsets[i]? = some a) : a ≤ m.nnz := by
  have hi : i < m.row_offsets.length := (List.getElem?_eq_some_iff.mp ha).1
  have : i ≤ m.rows := by have := hm.row_offsets_length; omega
  exact hm.offsets_le this ha hm.last

theorem CSR.Valid.offset_some {m : CSR T} (hm : m.Valid) {i : Nat} (hi : i ≤ m.rows) :
    ∃ a, m.row_offsets[i]? = some a := by
  have : i < m.row_offsets.length := by have := hm.row_offsets_length; omega
  exact ⟨_, List.getElem?_eq_getElem this⟩

theorem fillN_spec (buf : List T) (n : Nat) (x : T) (h : n ≤ buf.length) :
    ∃ buf0, fillN buf n x = some buf0 ∧ buf0.length = buf.length ∧
      ∀ c, c < n → buf0[c]? = some x := by
  refine ⟨List.replicate n x ++ buf.drop n, by simp [fillN, h], by simp; omega, ?_⟩
  intro c hc
  rw [List.getElem?_append_left (by simpa using hc)]
  simp [List.getElem?_replicate, hc]

/-- The buffer `spmv` works on after its resize step holds at least `outsize` slots. -/
theorem resize_length [Zero T] (res : DenseVector T) (hres : res.Valid) (outsize : Nat) :
    outsize ≤ (if res.size < outsize then List.replicate outsize (0 : T) else res.data).length := by
  have : res.size ≤ res.data.length := hres
  split
  · simp
  · omega

variable [Zero T] [Add T] [Mul T]

/-- The inner loop of the non-transposed branch is the left fold over the offsets it
visits, provided the offsets and the gathered columns are in range. -/
theorem rowLoop_eq (m : CSR T) (v : DenseVector T)
    (hlen : m.col_ids.length = m.data.length) (hcol : ∀ c ∈ m.col_ids, c < v.data.length) :
    ∀ (n o : Nat) (val : T), o + n ≤ m.data.length →
      rowLoop m v n o val = some ((List.range' o n).foldl
        (fun acc e => acc + m.data.getD e 0 * v.data.getD (m.col_ids.getD e 0) 0) val) := by
  intro n
  induction n with
  | zero => intro o val _; simp [rowLoop]
  | succ n ih =>
    intro o val h
    have ho : o < m.data.length := by omega
    have hoc : o < m.col_ids.length := by omega
    have hc : m.col_ids[o] < v.data.length := hcol _ (List.getElem_mem hoc)
    have e1 : m.data[o]? = some m.data[o] := List.getElem?_eq_getElem ho
    have e2 : m.col_ids[o]? = some m.col_ids[o] := List.getElem?_eq_getElem hoc
    have e3 : v.data[m.col_ids[o]]? = some v.data[m.col_ids[o]] := List.getElem?_eq_getElem hc
    rw [rowLoop, e1, e2]
    simp only [e3]
    rw [ih (o + 1) _ (by omega), List.range'_succ, List.foldl_cons,
      getD_of_getElem? 0 e1, getD_of_getElem? 0 e2, getD_of_getElem? 0 e3]

/-- The outer loop of the non-transposed branch writes the row sums of rows `i .. i+n-1`
and leaves every other slot of the buffer alone. -/
theorem rowsLoop_spec (m : CSR T) (v : DenseVector T) (hm : m.Valid)
    (hcol : ∀ c ∈ m.col_ids, c < v.data.length) :
    ∀ (n i : Nat) (out : List T), i + n ≤ m.rows → m.rows ≤ out.length →
      ∃ out1, rowsLoop m v n i out = some out1 ∧ out1.length = out.length ∧
        (∀ r, r < i → out1[r]? = out[r]?) ∧
        (∀ r, i ≤ r → r < i + n → out1[r]? = some (rowSumSpec m v r)) := by
  intro n
  induction n with
  | zero =>
    intro i out _ _
    exact ⟨out, by simp [rowsLoop], rfl, fun _ _ => rfl, fun r h1 h2 => by omega⟩
  | succ n ih =>
    intro i out h hout
    obtain ⟨lo, hlo⟩ := hm.offset_some (show i ≤ m.rows by omega)
    obtain ⟨hi, hhi⟩ := hm.offset_some (show i + 1 ≤ m.rows by omega)
    have hle : lo ≤ hi := hm.offsets_le (Nat.le_succ i) hlo hhi
    have hnnz : hi ≤ m.nnz := hm.offset_le_nnz hhi
    have hrow := rowLoop_eq m v (hm.col_ids_length.trans hm.data_length.symm) hcol (hi - lo) lo 0
      (by have := hm.data_length; omega)
    have hw := writeAt_of_lt (rowSumSpec m v i) (show i < out.length by omega)
    have hsum : (List.range' lo (hi - lo)).foldl
        (fun acc e => acc + m.data.getD e 0 * v.data.getD (m.col_ids.getD e 0) 0) 0
        = rowSumSpec m v i := by
      unfold rowSumSpec
      rw [getD_of_getElem? 0 hlo, getD_of_getElem? 0 hhi]
    rw [hsum] at hrow
    obtain ⟨out1, h1, h2, h3, h4⟩ := ih (i + 1) (out.set i (rowSumSpec m v i)) (by omega)
      (by simpa using hout)
    refine ⟨out1, ?_, ?_, ?_, ?_⟩
    · rw [rowsLoop, hlo, hhi]
      simp only [hrow, hw, h1]
    · simpa using h2
    · intro r hr
      rw [h3 r (by omega), List.getElem?_set_ne (by omega)]
    · intro r hr1 hr2
      rcases Nat.eq_or_lt_of_le hr1 with h5 | h5
      · subst h5
        rw [h3 i (by omega), List.getElem?_set_eq_of_lt _ (by omega)]
      · exact h4 r (by omega) (by omega)

/-- The inner loop of the transposed branch folds, at every output slot `c`, the
contributions of the visited entries whose column is `c`. -/
theorem scatterLoop_spec (m : CSR T) (v : DenseVector T) (i : Nat)
    (hlen : m.col_ids.length = m.data.length) (hi : i < v.data.length) :
    ∀ (n o : Nat) (out : List T), o + n ≤ m.data.length →
      (∀ c ∈ m.col_ids, c < out.length) →
      ∃ out1, scatterLoop m v i n o out = some out1 ∧ out1.length = out.length ∧
        ∀ c y, out[c]? = some y → out1[c]? = some ((List.range' o n).foldl
          (fun acc e =>
            if m.col_ids.getD e 0 = c then acc + m.data.getD e 0 * v.data.getD i 0 else acc) y) := by
  intro n
  induction n with
  | zero =>
    intro o out _ _
    exact ⟨out, by simp [scatterLoop], rfl, fun c y h => by simpa using h⟩
  | succ n ih =>
    intro o out h hcol
    have ho : o < m.data.length := by omega
    have hoc : o < m.col_ids.length := by omega
    have hc : m.col_ids[o] < out.length := hcol _ (List.getElem_mem hoc)
    have e1 : m.data[o]? = some m.data[o] := List.getElem?_eq_getElem ho
    have e2 : m.col_ids[o]? = some m.col_ids[o] := List.getElem?_eq_getElem hoc
    have e3 : v.data[i]? = some v.data[i] := List.getElem?_eq_getElem hi
    have e4 : out[m.col_ids[o]]? = some out[m.col_ids[o]] := List.getElem?_eq_getElem hc
    obtain ⟨out1, h1, h2, h3⟩ := ih (o + 1)
      (out.set m.col_ids[o] (out[m.col_ids[o]] + m.data[o] * v.data[i])) (by omega)
      (by simpa using hcol)
    refine ⟨out1, ?_, by simpa using h2, ?_⟩
    · rw [scatterLoop, e1, e2, e3]
      simp only [e4, h1]
    · intro c y hy
      have hx := getD_of_getElem? (0 : T) e3
      rw [List.range'_succ, List.foldl_cons, getD_of_getElem? 0 e1, getD_of_getElem? 0 e2]
      simp only [hx] at h3 ⊢
      by_cases hcc : m.col_ids[o] = c
      · subst hcc
        rw [e4] at hy
        have hy1 : out[m.col_ids[o]] = y := Option.some.inj hy
        rw [if_pos rfl, ← hy1]
        exact h3 _ _ (List.getElem?_set_eq_of_lt _ hc)
      · rw [if_neg hcc]
        exact h3 _ _ (by rw [List.getElem?_set_ne hcc]; exact hy)

/-- The outer loop of the transposed branch folds the per-row contributions of rows
`i .. i+n-1` into every output slot. -/
theorem scatterRows_spec (m : CSR T) (v : DenseVector T) (hm : m.Valid)
    (hv : m.rows ≤ v.data.length) :
    ∀ (n i : Nat) (out : List T), i + n ≤ m.rows → m.cols ≤ out.length →
      ∃ out1, scatterRows m v n i out = some out1 ∧ out1.length = out.length ∧
        ∀ c y, out[c]? = some y → out1[c]? = some ((List.range' i n).foldl
          (fun acc r =>
            (List.range' (m.row_offsets.getD r 0)
                (m.row_offsets.getD (r + 1) 0 - m.row_offsets.getD r 0)).foldl
              (fun acc e =>
                if m.col_ids.getD e 0 = c then acc + m.data.getD e 0 * v.data.getD r 0 else acc)
              acc) y) := by
  intro n
  induction n with
  | zero =>
    intro i out _ _
    exact ⟨out, by simp [scatterRows], rfl, fun c y h => by simpa using h⟩
  | succ n ih =>
    intro i out h hout
    obtain ⟨lo, hlo⟩ := hm.offset_some (show i ≤ m.rows by omega)
    obtain ⟨hi, hhi⟩ := hm.offset_some (show i + 1 ≤ m.rows by omega)
    have hle : lo ≤ hi := hm.offsets_le (Nat.le_succ i) hlo hhi
    have hnnz : hi ≤ m.nnz := hm.offset_le_nnz hhi
    obtain ⟨out1, h1, h2, h3⟩ := scatterLoop_spec m v i
      (hm.col_ids_length.trans hm.data_length.symm) (show i < v.data.length by omega)
      (hi - lo) lo out (by have := hm.data_length; omega)
      (fun c hc => lt_of_lt_of_le (hm.col_bound c hc) hout)
    obtain ⟨out2, k1, k2, k3⟩ := ih (i + 1) out1 (by omega) (by omega)
    refine ⟨out2, ?_, by omega, ?_⟩
    · rw [scatterRows, hlo, hhi]
      simp only [h1, k1]
    · intro c y hy
      rw [List.range'_succ, List.foldl_cons, getD_of_getElem? 0 hlo, getD_of_getElem? 0 hhi]
      exact k3 _ _ (h3 _ _ hy)

/-- C1. Non-transposed `spmv`: for a matrix satisfying the §3 invariants, an input vector
of size `m.cols` and any output vector that is a different object from the input vector
(all vectors being §3 dense vectors, whose buffers hold at least `size` elements), the
call returns normally, sets `res.size` to `m.rows` and leaves in `res.data[r]`, for every
row `r < m.rows`, the left-to-right sum from `0` over the stored entries of the row of
`m.data[e] * v.data[m.col_ids[e]]`, whatever `res` held before. -/
theorem spmv_nontransposed (res : DenseVector T) (m : CSR T) (v : DenseVector T)
    (hm : m.Valid) (hv : v.Valid) (hres : res.Valid) (hsize : v.size = m.cols) :
    ∃ out, spmvCall (.distinct res v) m false = .ok out ∧ out.size = m.rows ∧
      ∀ r, r < m.rows → out.data[r]? = some (rowSumSpec m v r) := by
  show ∃ out, spmv res m v false = .ok out ∧ out.size = m.rows ∧
      ∀ r, r < m.rows → out.data[r]? = some (rowSumSpec m v r)
  have hv1 : v.size ≤ v.data.length := hv
  obtain ⟨out, h1, _, _, h4⟩ := rowsLoop_spec m v hm
    (fun c hc => by have := hm.col_bound c hc; omega) m.rows 0
    (if res.size < m.rows then List.replicate m.rows (0 : T) else res.data) (by omega)
    (resize_length res hres m.rows)
  refine ⟨⟨m.rows, out⟩, ?_, rfl, fun r hr => h4 r (Nat.zero_le r) (by omega)⟩
  simp [spmv, hsize, h1]

/-- C2. Transposed `spmv`: for a matrix satisfying the §3 invariants, an input vector of
size `m.rows` and any output vector that is a different object from the input vector (all
vectors being §3 dense vectors), the call returns normally, sets `res.size` to `m.cols`
and leaves in `res.data[c]`, for every column `c < m.cols`, the sum from `0`, over rows
ascending and inside each row over its entries in stored order, of `m.data[e] * v.data[r]`
restricted to the entries with `m.col_ids[e] = c`, whatever `res` held before. -/
theorem spmv_transposed (res : DenseVector T) (m : CSR T) (v : DenseVector T)
    (hm : m.Valid) (hv : v.Valid) (hres : res.Valid) (hsize : v.size = m.rows) :
    ∃ out, spmvCall (.distinct res v) m true = .ok out ∧ out.size = m.cols ∧
      ∀ c, c < m.cols → out.data[c]? = some (colSumSpec m v c) := by
  show ∃ out, spmv res m v true = .ok out ∧ out.size = m.cols ∧
      ∀ c, c < m.cols → out.data[c]? = some (colSumSpec m v c)
  have hv1 : v.size ≤ v.data.length := hv
  obtain ⟨buf0, f1, f2, f3⟩ := fillN_spec
    (if res.size < m.cols then List.replicate m.cols (0 : T) else res.data) m.cols 0
    (resize_length res hres m.cols)
  obtain ⟨out, h1, _, h3⟩ := scatterRows_spec m v hm (by omega) m.rows 0 buf0 (by omega)
    (by rw [f2]; exact resize_length res hres m.cols)
  refine ⟨⟨m.cols, out⟩, ?_, rfl, fun c hc => ?_⟩
  · simp [spmv, hsize, f1, h1]
  · rw [h3 c 0 (f3 c hc), colSumSpec, List.range_eq_range']

theorem exA_valid : exA.Valid :=
  ⟨rfl, rfl, rfl, by decide, by decide, rfl, rfl⟩

/-- Witness for C1: the theorem applied to the §8 matrix, input `[1,1,1]` and a separate
output vector holding stale data. -/
theorem spmv_nontransposed_witness :
    (DenseVector.Valid (⟨3, [1, 1, 1]⟩ : DenseVector Int) ∧
      DenseVector.Valid (⟨1, [7, 7]⟩ : DenseVector Int)) ∧
    ∃ out, spmvCall (.distinct ⟨1, [7, 7]⟩ ⟨3, [1, 1, 1]⟩) exA false = .ok out ∧
      out.size = exA.rows ∧
      ∀ r, r < exA.rows → out.data[r]? = some (rowSumSpec exA ⟨3, [1, 1, 1]⟩ r) :=
  ⟨by decide, spmv_nontransposed ⟨1, [7, 7]⟩ exA ⟨3, [1, 1, 1]⟩ exA_valid (by decide)
    (by decide) rfl⟩

theorem exSq_valid : exSq.Valid :=
  ⟨rfl, rfl, rfl, by decide, by decide, rfl, rfl⟩

/-- Counterexample to C1 as stated.  The claim ranges over every output vector, and the
caller may pass the input vector itself: `spmv(x, M, x, false)` with `x = [1, 2]` and
`M = [[1, 1], [1, 0]]`.  All conditions of the claim hold.  Row 0 stores `1 + 2 = 3` into
`x[0]` before row 1 reads `x[0]`, so the call leaves `[3, 3]`, although the sum of row 1
over the input is `1`; nor is `[3, 3]` the product of `M` with the vector as the call
left it, whose row 0 sums to `6`. -/
theorem spmv_nontransposed_counterexample :
    exSq.Valid ∧ DenseVector.Valid (⟨2, [1, 2]⟩ : DenseVector Int) ∧
      (DenseVector.mk 2 [1, (2 : Int)]).size = exSq.cols ∧
      spmvCall (.same ⟨2, [1, 2]⟩) exSq false = .ok ⟨2, [3, 3]⟩ ∧
      rowSumSpec exSq ⟨2, [1, 2]⟩ 1 = 1 ∧
      rowSumSpec exSq ⟨2, [3, 3]⟩ 0 = 6 :=
  ⟨exSq_valid, by decide, rfl, by decide, by decide, by decide⟩

/-- Witness for C2: the theorem applied to the §8 matrix, input `[1,1]` and a separate
output vector holding stale data. -/
theorem spmv_transposed_witness :
    (DenseVector.Valid (⟨2, [1, 1]⟩ : DenseVector Int) ∧
      DenseVector.Valid (⟨3, [7, 7, 7, 7]⟩ : DenseVector Int)) ∧
    ∃ out, spmvCall (.distinct ⟨3, [7, 7, 7, 7]⟩ ⟨2, [1, 1]⟩) exA true = .ok out ∧
      out.size = exA.cols ∧
      ∀ c, c < exA.cols → out.data[c]? = some (colSumSpec exA ⟨2, [1, 1]⟩ c) :=
  ⟨by decide, spmv_transposed ⟨3, [7, 7, 7, 7]⟩ exA ⟨2, [1, 1]⟩ exA_valid (by decide)
    (by decide) rfl⟩

/-- Counterexample to C2 as stated.  The caller may pass the input vector itself as the
output: `spmv(x, A, x, true)` with the §8 matrix `A` and `x = [1, 1]`.  All conditions of
the claim hold.  The resize step replaces the buffer of `x` by three zeros and the fill
zeroes it, so every product reads `0` and the call leaves `[0, 0, 0]`, although the
column sums over the input are `1`, `3` and `2`.  On the tall matrix `[[1], [1]]` with
`x = [1, 1]` nothing is reallocated and the call leaves `1` where the column sum is `2`. -/
theorem spmv_transposed_counterexample :
    exA.Valid ∧ DenseVector.Valid (⟨2, [1, 1]⟩ : DenseVector Int) ∧
      (DenseVector.mk 2 [1, (1 : Int)]).size = exA.rows ∧
      spmvCall (.same ⟨2, [1, 1]⟩) exA true = .ok ⟨3, [0, 0, 0]⟩ ∧
      colSumSpec exA ⟨2, [1, 1]⟩ 0 = 1 ∧ colSumSpec exA ⟨2, [1, 1]⟩ 1 = 3 ∧
      colSumSpec exA ⟨2, [1, 1]⟩ 2 = 2 ∧
      spmvCall (.same ⟨2, [1, 1]⟩) exTall true = .ok ⟨1, [1, 1]⟩ ∧
      colSumSpec exTall ⟨2, [1, 1]⟩ 0 = 2 :=
  ⟨exA_valid, by decide, rfl, by decide, by decide, by decide, by decide, by decide,
    by decide⟩

end SpmvFacts

/-! ## One vector as output and input of `spmv` -/

section SpmvSelfFacts
variable {T : Type} [Add T] [Mul T]

/-- With one object as output and input, the inner loop of the transposed branch stays
inside its buffers and keeps the length of the buffer. -/
theorem scatterLoopSelf_ok (m : CSR T) (i : Nat)
    (hlen : m.col_ids.length = m.data.length) :
    ∀ (n o : Nat) (buf : List T), o + n ≤ m.data.length → i < buf.length →
      (∀ c ∈ m.col_ids, c < buf.length) →
      ∃ buf1, scatterLoopSelf m i n o buf = some buf1 ∧ buf1.length = buf.length := by
  intro n
  induction n with
  | zero =>
    intro o buf _ _ _
    exact ⟨buf, by simp [scatterLoopSelf], rfl⟩
  | succ n ih =>
    intro o buf h hi hcol
    have ho : o < m.data.length := by omega
    have hoc : o < m.col_ids.length := by omega
    have hc : m.col_ids[o] < buf.length := hcol _ (List.getElem_mem hoc)
    have e1 : m.data[o]? = some m.data[o] := List.getElem?_eq_getElem ho
    have e2 : m.col_ids[o]? = some m.col_ids[o] := List.getElem?_eq_getElem hoc
    have e3 : buf[i]? = some buf[i] := List.getElem?_eq_getElem hi
    have e4 : buf[m.col_ids[o]]? = some buf[m.col_ids[o]] := List.getElem?_eq_getElem hc
    obtain ⟨buf1, h1, h2⟩ := ih (o + 1)
      (buf.set m.col_ids[o] (buf[m.col_ids[o]] + m.data[o] * buf[i])) (by omega)
      (by simpa using hi) (by simpa using hcol)
    refine ⟨buf1, ?_, by simpa using h2⟩
    rw [scatterLoopSelf, e1, e2, e3]
    simp only [e4, h1]

/-- With one object as output and input, the outer loop of the transposed branch stays
inside its buffers and keeps the length of the buffer. -/
theorem scatterRowsSelf_ok (m : CSR T) (hm : m.Valid) :
    ∀ (n i : Nat) (buf : List T), i + n ≤ m.rows → m.rows ≤ buf.length →
      m.cols ≤ buf.length →
      ∃ buf1, scatterRowsSelf m n i buf = some buf1 ∧ buf1.length = buf.length := by
  intro n
  induction n with
  | zero =>
    intro i buf _ _ _
    exact ⟨buf, by simp [scatterRowsSelf], rfl⟩
  | succ n ih =>
    intro i buf h hrows hcols
    obtain ⟨lo, hlo⟩ := hm.offset_some (show i ≤ m.rows by omega)
    obtain ⟨hi, hhi⟩ := hm.offset_some (show i + 1 ≤ m.rows by omega)
    have hle : lo ≤ hi := hm.offsets_le (Nat.le_succ i) hlo hhi
    have hnnz : hi ≤ m.nnz := hm.offset_le_nnz hhi
    obtain ⟨buf1, h1, h2⟩ := scatterLoopSelf_ok m i
      (hm.col_ids_length.trans hm.data_length.symm) (hi - lo) lo buf
      (by have := hm.data_length; omega) (by omega)
      (fun c hc => lt_of_lt_of_le (hm.col_bound c hc) hcols)
    obtain ⟨buf2, k1, k2⟩ := ih (i + 1) buf1 (by omega) (by omega) (by omega)
    refine ⟨buf2, ?_, by omega⟩
    rw [scatterRowsSelf, hlo, hhi]
    simp only [h1, k1]

variable [Zero T]

/-- With one object as output and input, the outer loop of the non-transposed branch
stays inside its buffers and keeps the length of the buffer. -/
theorem rowsLoopSelf_ok (m : CSR T) (hm : m.Valid) (size : Nat) :
    ∀ (n i : Nat) (buf : List T), i + n ≤ m.rows → m.rows ≤ buf.length →
      m.cols ≤ buf.length →
      ∃ buf1, rowsLoopSelf m size n i buf = some buf1 ∧ buf1.length = buf.length := by
  intro n
  induction n with
  | zero =>
    intro i buf _ _ _
    exact ⟨buf, by simp [rowsLoopSelf], rfl⟩
  | succ n ih =>
    intro i buf h hrows hcols
    obtain ⟨lo, hlo⟩ := hm.offset_some (show i ≤ m.rows by omega)
    obtain ⟨hi, hhi⟩ := hm.offset_some (show i + 1 ≤ m.rows by omega)
    have hle : lo ≤ hi := hm.offsets_le (Nat.le_succ i) hlo hhi
    have hnnz : hi ≤ m.nnz := hm.offset_le_nnz hhi
    obtain ⟨val, hrow⟩ : ∃ val, rowLoop m { size := size, data := buf } (hi - lo) lo 0
        = some val :=
      ⟨_, rowLoop_eq m { size := size, data := buf }
        (hm.col_ids_length.trans hm.data_length.symm)
        (fun c hc => lt_of_lt_of_le (hm.col_bound c hc) hcols) (hi - lo) lo 0
        (by have := hm.data_length; omega)⟩
    have hw := writeAt_of_lt val (show i < buf.length by omega)
    obtain ⟨buf1, h1, h2⟩ := ih (i + 1) (buf.set i val) (by omega) (by simpa using hrows)
      (by simpa using hcols)
    refine ⟨buf1, ?_, by simpa using h2⟩
    rw [rowsLoopSelf, hlo, hhi]
    simp only [hrow, hw, h1]

/-- The call with one vector as output and input stays inside every buffer: for a valid
matrix and a §3 dense vector of the contracted size it returns normally with the output
size set and a buffer that holds at least that many elements.  Only the values it leaves
differ from the product (C1, C2). -/
theorem spmvSelf_ok (x : DenseVector T) (m : CSR T) (transpose : Bool)
    (hm : m.Valid) (hx : x.Valid) (hsize : x.size = if transpose then m.rows else m.cols) :
    ∃ out, spmvSelf x m transpose = .ok out ∧
      out.size = (if transpose then m.cols else m.rows) ∧ out.size ≤ out.data.length := by
  have hx1 : x.size ≤ x.data.length := hx
  cases transpose
  · simp only [Bool.false_eq_true, if_false] at hsize ⊢
    have hb := resize_length x hx m.rows
    have hc : m.cols ≤
        (if x.size < m.rows then List.replicate m.rows (0 : T) else x.data).length := by
      split
      · simp
        omega
      · omega
    obtain ⟨out, h1, h2⟩ := rowsLoopSelf_ok m hm m.rows m.rows 0 _ (by omega) hb hc
    refine ⟨⟨m.rows, out⟩, ?_, rfl, ?_⟩
    · rw [hsize] at h1
      simp [spmvSelf, hsize, h1]
    · show m.rows ≤ out.length
      omega
  · simp only [if_true] at hsize ⊢
    have hb := resize_length x hx m.cols
    have hr : m.rows ≤
        (if x.size < m.cols then List.replicate m.cols (0 : T) else x.data).length := by
      split
      · simp
        omega
      · omega
    obtain ⟨buf0, f1, f2, _⟩ := fillN_spec
      (if x.size < m.cols then List.replicate m.cols (0 : T) else x.data) m.cols 0 hb
    obtain ⟨out, h1, h2⟩ := scatterRowsSelf_ok m hm m.rows 0 buf0 (by omega) (by omega)
      (by omega)
    refine ⟨⟨m.cols, out⟩, ?_, rfl, ?_⟩
    · rw [hsize] at f1
      simp [spmvSelf, hsize, f1, h1]
    · show m.cols ≤ out.length
      omega

end SpmvSelfFacts

/-! ## Facts about `convert` -/

section ConvertFacts
variable {T : Type}

theorem COO.WellFormed.triplets_length {coo : COO T} (h : coo.WellFormed) :
    coo.triplets.length = coo.nnz := by
  simp [COO.triplets, h.data_length, h.row_ids_length, h.col_ids_length]

theorem COO.WellFormed.triplets_getElem? {coo : COO T} (h : coo.WellFormed) {i : Nat}
    (hi : i < coo.nnz) :
    ∃ r c v, coo.row_ids[i]? = some r ∧ coo.col_ids[i]? = some c ∧ coo.data[i]? = some v ∧
      coo.triplets[i]? = some ⟨r, c, v⟩ := by
  have h1 : i < coo.row_ids.length := by rw [h.row_ids_length]; exact hi
  have h2 : i < coo.col_ids.length := by rw [h.col_ids_length]; exact hi
  have h3 : i < coo.data.length := by rw [h.data_length]; exact hi
  refine ⟨coo.row_ids[i], coo.col_ids[i], coo.data[i], List.getElem?_eq_getElem h1,
    List.getElem?_eq_getElem h2, List.getElem?_eq_getElem h3, ?_⟩
  have hz : (coo.row_ids.zip (coo.col_ids.zip coo.data))[i]?
      = some (coo.row_ids[i], coo.col_ids[i], coo.data[i]) := by
    rw [List.getElem?_zip_eq_some]
    refine ⟨List.getElem?_eq_getElem h1, ?_⟩
    rw [List.getElem?_zip_eq_some]
    exact ⟨List.getElem?_eq_getElem h2, List.getElem?_eq_getElem h3⟩
  simp [COO.triplets, List.getElem?_map, hz]

/-- The gathering loop appends the triplets `i .. i+n-1` in input order. -/
theorem gatherLoop_eq (coo : COO T) (h : coo.WellFormed) :
    ∀ (n i : Nat) (acc : List (Entry T)), i + n ≤ coo.nnz →
      gatherLoop coo n i acc = some (acc ++ (coo.triplets.drop i).take n) := by
  intro n
  induction n with
  | zero => intro i acc _; simp [gatherLoop]
  | succ n ih =>
    intro i acc hle
    obtain ⟨r, c, v, h1, h2, h3, h4⟩ := h.triplets_getElem? (show i < coo.nnz by omega)
    obtain ⟨hlt, hget⟩ := List.getElem?_eq_some_iff.mp h4
    rw [gatherLoop, h1, h2, h3]
    simp only
    rw [ih (i + 1) _ (by omega), List.drop_eq_getElem_cons hlt, List.take_succ_cons, hget]
    simp

theorem gatherLoop_all (coo : COO T) (h : coo.WellFormed) :
    gatherLoop coo coo.nnz 0 [] = some coo.triplets := by
  rw [gatherLoop_eq coo h coo.nnz 0 [] (by omega)]
  simp [← h.triplets_length]

/-- The copy loop stores the values and columns of entries `i .. i+n-1` at their own
positions and adds, modulo `2^32`, the number of those entries in row `j` to slot `j` of
the offset array. -/
theorem copyLoop_spec (entries : List (Entry T)) :
    ∀ (n i : Nat) (res : CSR T), i + n ≤ entries.length → i + n ≤ res.data.length →
      i + n ≤ res.col_ids.length → (∀ e ∈ entries, e.r < res.row_offsets.length) →
      (∀ k ∈ res.row_offsets, k < 2 ^ 32) →
      ∃ res1, copyLoop entries n i res = some res1 ∧
        res1.rows = res.rows ∧ res1.cols = res.cols ∧ res1.nnz = res.nnz ∧
        (∀ j, res1.data[j]? =
          if i ≤ j ∧ j < i + n then entries[j]?.map Entry.v else res.data[j]?) ∧
        (∀ j, res1.col_ids[j]? =
          if i ≤ j ∧ j < i + n then entries[j]?.map Entry.c else res.col_ids[j]?) ∧
        (∀ j, res1.row_offsets[j]? = res.row_offsets[j]?.map (fun k =>
          (k + ((entries.drop i).take n).countP (fun e => e.r = j)) % 2 ^ 32)) := by
  intro n
  induction n with
  | zero =>
    intro i res _ _ _ _ hk
    refine ⟨res, by simp [copyLoop], rfl, rfl, rfl, ?_, ?_, ?_⟩
    · intro j
      rw [if_neg (by omega)]
    · intro j
      rw [if_neg (by omega)]
    · intro j
      cases hj : res.row_offsets[j]? with
      | none => rfl
      | some k =>
        have := hk k (List.mem_iff_getElem?.mpr ⟨j, hj⟩)
        simp only [List.take_zero, List.countP_nil, Nat.add_zero, Option.map_some']
        rw [Nat.mod_eq_of_lt this]
  | succ n ih =>
    intro i res h1 h2 h3 h4 hk
    have hi : i < entries.length := by omega
    have he : entries[i]? = some entries[i] := List.getElem?_eq_getElem hi
    have hr : entries[i].r < res.row_offsets.length := h4 _ (List.getElem_mem hi)
    have hro : res.row_offsets[entries[i].r]? = some res.row_offsets[entries[i].r] :=
      List.getElem?_eq_getElem hr
    have hw1 := writeAt_of_lt entries[i].v (show i < res.data.length by omega)
    have hw2 := writeAt_of_lt entries[i].c (show i < res.col_ids.length by omega)
    obtain ⟨res1, k1, k2, k3, k4, k5, k6, k7⟩ := ih (i + 1)
      { res with data := res.data.set i entries[i].v, col_ids := res.col_ids.set i entries[i].c,
                 row_offsets := res.row_offsets.set entries[i].r
                   ((res.row_offsets[entries[i].r] + 1) % 2 ^ 32) }
      (by omega) (by simp only [List.length_set]; omega) (by simp only [List.length_set]; omega)
      (by simpa using h4)
      (by
        intro k hkm
        rcases List.mem_or_eq_of_mem_set hkm with h | h
        · exact hk k h
        · rw [h]; exact Nat.mod_lt _ (by decide))
    refine ⟨res1, ?_, k2, k3, k4, ?_, ?_, ?_⟩
    · rw [copyLoop, he]
      simp only [hw1, hw2, hro, k1]
    · intro j
      rw [k5 j]
      by_cases hj : j = i
      · subst hj
        rw [if_neg (by omega), if_pos (by omega)]
        simp [he, List.getElem?_set_eq_of_lt _ (show j < res.data.length by omega)]
      · by_cases hc : i + 1 ≤ j ∧ j < i + 1 + n
        · rw [if_pos hc, if_pos (by omega)]
        · rw [if_neg hc, if_neg (by omega)]
          simp only
          rw [List.getElem?_set_ne (Ne.symm hj)]
    · intro j
      rw [k6 j]
      by_cases hj : j = i
      · subst hj
        rw [if_neg (by omega), if_pos (by omega)]
        simp [he, List.getElem?_set_eq_of_lt _ (show j < res.col_ids.length by omega)]
      · by_cases hc : i + 1 ≤ j ∧ j < i + 1 + n
        · rw [if_pos hc, if_pos (by omega)]
        · rw [if_neg hc, if_neg (by omega)]
          simp only
          rw [List.getElem?_set_ne (Ne.symm hj)]
    · intro j
      rw [k7 j, List.drop_eq_getElem_cons hi, List.take_succ_cons, List.countP_cons]
      simp only
      by_cases hj : entries[i].r = j
      · subst hj
        rw [List.getElem?_set_eq_of_lt _ hr, hro]
        simp only [Option.map_some', decide_True, if_true]
        congr 1
        omega
      · rw [List.getElem?_set_ne hj]
        simp [hj]

/-- The prefix-sum loop replaces the counts of rows `i .. i+n-1` by the running offsets,
all additions being taken modulo `2^32`. -/
theorem prefixLoop_spec (c B : Nat → Nat) (hB : ∀ j, B (j + 1) = B j + c j) :
    ∀ (n i off : Nat) (ro : List Nat), i + n ≤ ro.length → off = B i % 2 ^ 32 →
      (∀ j, i ≤ j → j < i + n → ro[j]? = some (c j % 2 ^ 32)) →
      ∃ ro1, prefixLoop n i off ro = some (B (i + n) % 2 ^ 32, ro1) ∧
        ro1.length = ro.length ∧
        ∀ j, ro1[j]? = if i ≤ j ∧ j < i + n then some (B j % 2 ^ 32) else ro[j]? := by
  intro n
  induction n with
  | zero =>
    intro i off ro _ hoff _
    refine ⟨ro, by simp [prefixLoop, hoff], rfl, fun j => ?_⟩
    rw [if_neg (by omega)]
  | succ n ih =>
    intro i off ro hlen hoff hro
    have hi := hro i (Nat.le_refl i) (by omega)
    have hoff1 : (off + c i % 2 ^ 32) % 2 ^ 32 = B (i + 1) % 2 ^ 32 := by
      rw [hoff, hB, ← Nat.add_mod]
    obtain ⟨ro1, k1, k2, k3⟩ := ih (i + 1) ((off + c i % 2 ^ 32) % 2 ^ 32) (ro.set i off)
      (by simp only [List.length_set]; omega) hoff1
      (fun j h1 h2 => by
        rw [List.getElem?_set_ne (by omega)]
        exact hro j (by omega) (by omega))
    refine ⟨ro1, ?_, by simpa using k2, fun j => ?_⟩
    · rw [prefixLoop, hi]
      simp only
      rw [k1, show i + 1 + n = i + (n + 1) by omega]
    · rw [k3 j]
      by_cases hj : j = i
      · subst hj
        rw [if_neg (by omega), if_pos (by omega),
          List.getElem?_set_eq_of_lt _ (show j < ro.length by omega), hoff]
      · by_cases hc : i + 1 ≤ j ∧ j < i + 1 + n
        · rw [if_pos hc, if_pos (by omega)]
        · rw [if_neg hc, if_neg (by omega), List.getElem?_set_ne (Ne.symm hj)]

/-- Entries in rows below `j + 1` are those below `j` together with those in row `j`. -/
theorem countP_row_succ (l : List (Entry T)) (j : Nat) :
    l.countP (fun e => e.r < j + 1) =
      l.countP (fun e => e.r < j) + l.countP (fun e => e.r = j) := by
  induction l with
  | nil => rfl
  | cons a t ih =>
    simp only [List.countP_cons, ih, decide_eq_true_eq]
    by_cases h1 : a.r < j
    · have h2 : a.r < j + 1 := by omega
      have h3 : ¬ a.r = j := by omega
      simp [h1, h2, h3]
      omega
    · by_cases h3 : a.r = j
      · have h2 : a.r < j + 1 := by omega
        simp [h1, h2, h3]
        omega
      · have h2 : ¬ a.r < j + 1 := by omega
        simp [h1, h2, h3]

theorem COO.row_mem_of_mem_triplets {coo : COO T} {e : Entry T} (h : e ∈ coo.triplets) :
    e.r ∈ coo.row_ids := by
  simp only [COO.triplets, List.mem_map] at h
  obtain ⟨t, ht, rfl⟩ := h
  exact (List.of_mem_zip ht).1

theorem COO.col_mem_of_mem_triplets {coo : COO T} {e : Entry T} (h : e ∈ coo.triplets) :
    e.c ∈ coo.col_ids := by
  simp only [COO.triplets, List.mem_map] at h
  obtain ⟨t, ht, rfl⟩ := h
  exact (List.of_mem_zip (List.of_mem_zip ht).2).1

/-- Closed form of `convert` on a well-formed COO matrix whose row ids are in range and
whose row count leaves room for the extra offset slot: the arrays are those of the
sorted triplets and offset `j` is the number of triplets in rows below `j`, reduced
modulo `2^32`. -/
theorem convert_eq [Zero T] (sort : List (Entry T) → List (Entry T))
    (hperm : ∀ l, (sort l).Perm l) (coo : COO T)
    (hwf : coo.WellFormed) (hrow : ∀ r ∈ coo.row_ids, r < coo.rows)
    (hrows : coo.rows + 1 < 2 ^ 64) :
    convert sort coo = .ok
      { rows := coo.rows
        cols := coo.cols
        nnz := coo.nnz
        data := (sort coo.triplets).map Entry.v
        col_ids := (sort coo.triplets).map Entry.c
        row_offsets := (List.range (coo.rows + 1)).map
          (fun j => (sort coo.triplets).countP (fun e => e.r < j) % 2 ^ 32) } := by
  have hlen : (sort coo.triplets).length = coo.nnz :=
    (hperm _).length_eq.trans hwf.triplets_length
  have hmod : (coo.rows + 1) % 2 ^ 64 = coo.rows + 1 := Nat.mod_eq_of_lt hrows
  obtain ⟨res1, k1, k2, k3, k4, k5, k6, k7⟩ := copyLoop_spec (sort coo.triplets) coo.nnz 0
    (⟨coo.rows, coo.cols, coo.nnz, List.replicate coo.nnz 0, List.replicate coo.nnz 0,
      List.replicate (coo.rows + 1) 0⟩ : CSR T)
    (by omega) (by simp) (by simp)
    (fun e he => by
      have := hrow _ (COO.row_mem_of_mem_triplets ((hperm _).mem_iff.mp he))
      simp only [List.length_replicate]
      omega)
    (fun k hk => by
      rw [List.eq_of_mem_replicate hk]
      decide)
  have hro : ∀ j, j < coo.rows + 1 → res1.row_offsets[j]? =
      some ((sort coo.triplets).countP (fun e => e.r = j) % 2 ^ 32) := by
    intro j hj
    rw [k7 j]
    simp [List.getElem?_replicate, hj, ← hlen]
  have hrolen : res1.row_offsets.length = coo.rows + 1 := by
    by_contra hne
    rcases Nat.lt_or_gt_of_ne hne with h | h
    · have h1 := hro res1.row_offsets.length h
      rw [List.getElem?_eq_none (Nat.le_refl _)] at h1
      exact Option.noConfusion h1
    · have h1 := k7 (coo.rows + 1)
      rw [List.getElem?_eq_getElem h] at h1
      simp [List.getElem?_replicate] at h1
  obtain ⟨ro1, p1, p2, p3⟩ := prefixLoop_spec
    (fun j => (sort coo.triplets).countP (fun e => e.r = j))
    (fun j => (sort coo.triplets).countP (fun e => e.r < j))
    (countP_row_succ _) coo.rows 0 0 res1.row_offsets (by omega)
    (by simp) (fun j _ hj => hro j (by omega))
  have hw := writeAt_of_lt ((sort coo.triplets).countP (fun e => e.r < 0 + coo.rows) % 2 ^ 32)
    (show coo.rows < ro1.length by omega)
  have hdata : res1.data = (sort coo.triplets).map Entry.v := by
    apply List.ext_getElem?
    intro j
    rw [k5 j, List.getElem?_map]
    by_cases hj : j < coo.nnz
    · rw [if_pos ⟨Nat.zero_le j, by omega⟩]
    · have hnone : (sort coo.triplets)[j]? = none :=
        List.getElem?_eq_none (by rw [hlen]; omega)
      rw [if_neg (by omega), hnone]
      simp [List.getElem?_replicate, hj]
  have hcol : res1.col_ids = (sort coo.triplets).map Entry.c := by
    apply List.ext_getElem?
    intro j
    rw [k6 j, List.getElem?_map]
    by_cases hj : j < coo.nnz
    · rw [if_pos ⟨Nat.zero_le j, by omega⟩]
    · have hnone : (sort coo.triplets)[j]? = none :=
        List.getElem?_eq_none (by rw [hlen]; omega)
      rw [if_neg (by omega), hnone]
      simp [List.getElem?_replicate, hj]
  have hfinal : ro1.set coo.rows ((sort coo.triplets).countP (fun e => e.r < 0 + coo.rows) % 2 ^ 32)
      = (List.range (coo.rows + 1)).map
          (fun j => (sort coo.triplets).countP (fun e => e.r < j) % 2 ^ 32) := by
    apply List.ext_getElem?
    intro j
    rw [List.getElem?_map]
    by_cases hj : j < coo.rows + 1
    · rw [List.getElem?_range hj]
      by_cases hjr : j = coo.rows
      · subst hjr
        rw [List.getElem?_set_eq_of_lt _ (by omega)]
        simp
      · rw [List.getElem?_set_ne (Ne.symm hjr), p3 j, if_pos (by omega)]
        rfl
    · rw [List.getElem?_eq_none (by simp only [List.length_set]; omega),
        List.getElem?_eq_none (by simp only [List.length_range]; omega)]
      rfl
  have hfill : fillN (List.replicate (coo.rows + 1) 0) 0 0 = some (List.replicate (coo.rows + 1) 0) := by
    simp [fillN]
  simp only [convert, gatherLoop_all coo hwf, CSR.alloc, hmod, hfill, k1, p1, hw]
  cases res1
  simp only at k2 k3 k4 hdata hcol
  simp only [← hfinal, k2, k3, k4, hdata, hcol]

theorem Entry.le_row {a b : Entry T} (h : Entry.le a b) : a.r ≤ b.r := by
  unfold Entry.le Entry.lt at h
  by_cases hr : b.r = a.r
  · omega
  · simp [hr] at h
    exact h

theorem Entry.le_col {a b : Entry T} (h : Entry.le a b) (hr : a.r = b.r) : a.c ≤ b.c := by
  unfold Entry.le Entry.lt at h
  simp [hr] at h
  exact h

/-- In a list ordered by row, the entries of row `j` are the contiguous block that
starts after the entries of the rows below `j`. -/
theorem slice_eq_filter (l : List (Entry T)) (hl : l.Pairwise (fun a b => a.r ≤ b.r))
    (j : Nat) :
    (l.drop (l.countP (fun e => e.r < j))).take (l.countP (fun e => e.r = j))
      = l.filter (fun e => e.r = j) := by
  induction l with
  | nil => rfl
  | cons a t ih =>
    obtain ⟨hat, ht⟩ := List.pairwise_cons.mp hl
    have ih1 := ih ht
    by_cases h1 : a.r < j
    · have h3 : ¬ a.r = j := by omega
      simp only [List.countP_cons, decide_eq_true_eq, h1, h3, if_true, if_false,
        List.drop_succ_cons, Nat.add_zero, List.filter_cons]
      exact ih1
    · have hz : t.countP (fun e => e.r < j) = 0 := by
        rw [List.countP_eq_zero]
        intro e he
        have := hat e he
        simp only [decide_eq_true_eq]
        omega
      rw [hz, List.drop_zero] at ih1
      by_cases h3 : a.r = j
      · simp only [List.countP_cons, decide_eq_true_eq, h1, h3, if_true, if_false, hz,
          List.drop_zero, List.take_succ_cons, List.filter_cons, Nat.add_zero, lt_self_iff_false]
        rw [← h3] at ih1 ⊢
        rw [ih1]
      · have hz2 : t.countP (fun e => e.r = j) = 0 := by
          rw [List.countP_eq_zero]
          intro e he
          have := hat e he
          simp only [decide_eq_true_eq]
          omega
        have hf : t.filter (fun e => decide (e.r = j)) = [] := by
          rw [List.filter_eq_nil_iff]
          intro e he
          have := hat e he
          simp only [decide_eq_true_eq]
          omega
        simp [List.countP_cons, h1, h3, hz, hz2, hf]

/-- Closed form of `convert` when, in addition, fewer than `2^32` triplets are given: no
32-bit addition wraps and offset `j` is the number of triplets in rows below `j`. -/
theorem convert_eq_small [Zero T] (sort : List (Entry T) → List (Entry T))
    (hperm : ∀ l, (sort l).Perm l) (coo : COO T)
    (hwf : coo.WellFormed) (hrow : ∀ r ∈ coo.row_ids, r < coo.rows)
    (hrows : coo.rows + 1 < 2 ^ 64) (hnnz : coo.nnz < 2 ^ 32) :
    convert sort coo = .ok
      { rows := coo.rows
        cols := coo.cols
        nnz := coo.nnz
        data := (sort coo.triplets).map Entry.v
        col_ids := (sort coo.triplets).map Entry.c
        row_offsets := (List.range (coo.rows + 1)).map
          (fun j => coo.triplets.countP (fun e => e.r < j)) } := by
  rw [convert_eq sort hperm coo hwf hrow hrows]
  congr 2
  apply List.map_congr_left
  intro j _
  rw [(hperm coo.triplets).countP_eq]
  apply Nat.mod_eq_of_lt
  have := List.countP_le_length (fun e : Entry T => decide (e.r < j)) (l := coo.triplets)
  rw [hwf.triplets_length] at this
  omega

theorem getElem?_offsets (l : List (Entry T)) (n j : Nat) (hj : j < n) :
    ((List.range n).map (fun j => l.countP (fun e => e.r < j)))[j]?
      = some (l.countP (fun e => e.r < j)) := by
  rw [List.getElem?_map, List.getElem?_range hj]
  rfl

/-- C4 (amended). For every well-formed COO matrix with `rows + 1` representable in
`size_t`, row ids below `rows` and fewer than `2^32` triplets, `convert` returns a matrix
with `row_offsets[0] = 0` and, for every `r < rows`,
`row_offsets[r+1] = row_offsets[r] + (number of triplets whose row id is r)`. -/
theorem convert_offsets_prefix_sums [Zero T] (sort : List (Entry T) → List (Entry T))
    (hs : IsStdSort sort) (coo : COO T) (hwf : coo.WellFormed)
    (hrow : ∀ r ∈ coo.row_ids, r < coo.rows)
    (hrows : coo.rows + 1 < 2 ^ 64) (hnnz : coo.nnz < 2 ^ 32) :
    ∃ res, convert sort coo = .ok res ∧ res.row_offsets[0]? = some 0 ∧
      ∀ r, r < coo.rows → ∃ a, res.row_offsets[r]? = some a ∧
        res.row_offsets[r + 1]? = some (a + coo.triplets.countP (fun e => e.r = r)) := by
  refine ⟨_, convert_eq_small sort (fun l => (hs l).1) coo hwf hrow hrows hnnz, ?_, ?_⟩
  · simp only
    rw [getElem?_offsets _ _ 0 (by omega)]
    simp
  · intro r hr
    refine ⟨coo.triplets.countP (fun e => e.r < r), ?_, ?_⟩
    · simp only
      rw [getElem?_offsets _ _ r (by omega)]
    · simp only
      rw [getElem?_offsets _ _ (r + 1) (by omega), countP_row_succ]

/-- C5 (amended). For every well-formed COO matrix with `rows + 1` representable in
`size_t`, row ids below `rows`, column ids below `cols` and fewer than `2^32` triplets,
`convert` returns a matrix of the same shape that satisfies the §3 invariants: arrays of
lengths `nnz`, `nnz`, `rows + 1`, columns in range, offsets non-decreasing from `0` to
`nnz`. -/
theorem convert_establishes_invariants [Zero T] (sort : List (Entry T) → List (Entry T))
    (hs : IsStdSort sort) (coo : COO T) (hwf : coo.WellFormed)
    (hrow : ∀ r ∈ coo.row_ids, r < coo.rows) (hcol : ∀ c ∈ coo.col_ids, c < coo.cols)
    (hrows : coo.rows + 1 < 2 ^ 64) (hnnz : coo.nnz < 2 ^ 32) :
    ∃ res, convert sort coo = .ok res ∧ res.Valid ∧
      res.rows = coo.rows ∧ res.cols = coo.cols ∧ res.nnz = coo.nnz := by
  have hperm := fun l => (hs l).1
  have hlen : (sort coo.triplets).length = coo.nnz :=
    (hperm _).length_eq.trans hwf.triplets_length
  refine ⟨_, convert_eq_small sort hperm coo hwf hrow hrows hnnz, ?_, rfl, rfl, rfl⟩
  refine ⟨by simp [hlen], by simp [hlen], by simp, ?_, ?_, ?_, ?_⟩
  · intro c hc
    simp only [List.mem_map] at hc
    obtain ⟨e, he, rfl⟩ := hc
    exact hcol _ (COO.col_mem_of_mem_triplets ((hperm _).mem_iff.mp he))
  · simp only
    rw [List.pairwise_map]
    refine List.Pairwise.imp ?_ (List.pairwise_lt_range (coo.rows + 1))
    intro a b hab
    apply List.countP_mono_left
    intro e _ he
    simp only [decide_eq_true_eq] at he ⊢
    omega
  · simp only
    rw [getElem?_offsets _ _ 0 (by omega)]
    simp
  · simp only
    rw [getElem?_offsets _ _ coo.rows (by omega), ← hwf.triplets_length,
      List.countP_eq_length.mpr]
    intro e he
    simpa using hrow _ (COO.row_mem_of_mem_triplets he)

/-- C3 (amended). For every well-formed COO matrix with `rows + 1` representable in
`size_t`, row ids below `rows` and fewer than `2^32` triplets, and every row `r < rows`,
the `(col_ids[i], data[i])` pairs at the positions `[row_offsets[r], row_offsets[r+1])`
of the result of `convert` are a rearrangement (duplicates kept) of the (column, value)
pairs of the triplets whose row id is `r`. -/
theorem convert_rows_keep_triplets [Zero T] (sort : List (Entry T) → List (Entry T))
    (hs : IsStdSort sort) (coo : COO T) (hwf : coo.WellFormed)
    (hrow : ∀ r ∈ coo.row_ids, r < coo.rows)
    (hrows : coo.rows + 1 < 2 ^ 64) (hnnz : coo.nnz < 2 ^ 32) :
    ∃ res, convert sort coo = .ok res ∧
      ∀ r, r < coo.rows → ∃ lo hi, res.row_offsets[r]? = some lo ∧
        res.row_offsets[r + 1]? = some hi ∧
        (((res.col_ids.zip res.data).drop lo).take (hi - lo)).Perm
          ((coo.triplets.filter (fun e => e.r = r)).map (fun e => (e.c, e.v))) := by
  have hperm := fun l => (hs l).1
  refine ⟨_, convert_eq_small sort hperm coo hwf hrow hrows hnnz, ?_⟩
  intro r hr
  refine ⟨_, _, getElem?_offsets _ _ r (by omega), getElem?_offsets _ _ (r + 1) (by omega), ?_⟩
  simp only
  rw [countP_row_succ, Nat.add_sub_cancel_left, List.zip_map', ← List.map_drop, ← List.map_take,
    ← (hperm coo.triplets).countP_eq, ← (hperm coo.triplets).countP_eq,
    slice_eq_filter _ ((hs coo.triplets).2.imp Entry.le_row)]
  exact ((hperm coo.triplets).filter _).map _

/-- C6 (amended). For every well-formed COO matrix with `rows + 1` representable in
`size_t`, row ids below `rows` and fewer than `2^32` triplets, every row `r < rows` of
the result of `convert` and all positions `i < j` inside
`[row_offsets[r], row_offsets[r+1])`, both positions hold a column index and
`col_ids[i] ≤ col_ids[j]`. -/
theorem convert_sorts_columns [Zero T] (sort : List (Entry T) → List (Entry T))
    (hs : IsStdSort sort) (coo : COO T) (hwf : coo.WellFormed)
    (hrow : ∀ r ∈ coo.row_ids, r < coo.rows)
    (hrows : coo.rows + 1 < 2 ^ 64) (hnnz : coo.nnz < 2 ^ 32) :
    ∃ res, convert sort coo = .ok res ∧
      ∀ r, r < coo.rows → ∃ lo hi, res.row_offsets[r]? = some lo ∧
        res.row_offsets[r + 1]? = some hi ∧
        ∀ i j, lo ≤ i → i < j → j < hi →
          ∃ a b, res.col_ids[i]? = some a ∧ res.col_ids[j]? = some b ∧ a ≤ b := by
  have hperm := fun l => (hs l).1
  refine ⟨_, convert_eq_small sort hperm coo hwf hrow hrows hnnz, ?_⟩
  intro r hr
  refine ⟨_, _, getElem?_offsets _ _ r (by omega), getElem?_offsets _ _ (r + 1) (by omega), ?_⟩
  intro i j hi hij hj
  simp only
  rw [countP_row_succ] at hj
  rw [← (hperm coo.triplets).countP_eq] at hi hj
  rw [← (hperm coo.triplets).countP_eq] at hj
  have hslice := slice_eq_filter (sort coo.triplets) ((hs coo.triplets).2.imp Entry.le_row) r
  have hpw : ((sort coo.triplets).filter (fun e => e.r = r)).Pairwise
      (fun a b => a.c ≤ b.c) := by
    have h1 := ((hs coo.triplets).2).filter (fun e => decide (e.r = r))
    rw [List.pairwise_iff_forall_sublist] at h1 ⊢
    intro a b hab
    have hmem := hab.subset
    have ha : a ∈ (sort coo.triplets).filter (fun e => decide (e.r = r)) := hmem (by simp)
    have hb : b ∈ (sort coo.triplets).filter (fun e => decide (e.r = r)) := hmem (by simp)
    simp only [List.mem_filter, decide_eq_true_eq] at ha hb
    exact Entry.le_col (h1 hab) (ha.2.trans hb.2.symm)
  have hsl : ((sort coo.triplets).filter (fun e => decide (e.r = r))).length
      = (sort coo.triplets).countP (fun e => decide (e.r = r)) :=
    (List.countP_eq_length_filter _ _).symm
  rw [← hslice] at hpw hsl
  have hlen2 : (sort coo.triplets).countP (fun e => decide (e.r < r))
      + (sort coo.triplets).countP (fun e => decide (e.r = r)) ≤ (sort coo.triplets).length := by
    simp only [List.length_take, List.length_drop] at hsl
    omega
  have hi2 : i < (sort coo.triplets).length := by omega
  have hj2 : j < (sort coo.triplets).length := by omega
  refine ⟨(sort coo.triplets)[i].c, (sort coo.triplets)[j].c, by simp [hi2], by simp [hj2], ?_⟩
  have key := List.pairwise_iff_getElem.mp hpw
    (i - (sort coo.triplets).countP (fun e => decide (e.r < r)))
    (j - (sort coo.triplets).countP (fun e => decide (e.r < r)))
    (by rw [hsl]; omega) (by rw [hsl]; omega) (by omega)
  simp only [List.getElem_take, List.getElem_drop] at key
  have e1 : (sort coo.triplets).countP (fun e => decide (e.r < r))
      + (i - (sort coo.triplets).countP (fun e => decide (e.r < r))) = i := by omega
  have e2 : (sort coo.triplets).countP (fun e => decide (e.r < r))
      + (j - (sort coo.triplets).countP (fun e => decide (e.r < r))) = j := by omega
  simp only [e1, e2] at key
  exact key

theorem Entry.le_iff {a b : Entry T} :
    Entry.le a b ↔ a.r < b.r ∨ (a.r = b.r ∧ a.c ≤ b.c) := by
  unfold Entry.le Entry.lt
  by_cases hr : b.r = a.r
  · simp [hr]
  · simp [hr]
    omega

/-- Insertion sort meets the contract of `std::sort`. -/
theorem insertionStdSort_isStdSort : IsStdSort (insertionStdSort (T := T)) := by
  intro l
  haveI : IsTotal (Entry T) Entry.le :=
    ⟨fun a b => by simp only [Entry.le_iff]; omega⟩
  haveI : IsTrans (Entry T) Entry.le :=
    ⟨fun a b c h1 h2 => by simp only [Entry.le_iff] at h1 h2 ⊢; omega⟩
  exact ⟨List.perm_insertionSort _ l, List.sorted_insertionSort _ l⟩

theorem exCOO_wellFormed : exCOO.WellFormed := ⟨rfl, rfl, rfl⟩

/-- Witness for C4 (amended): the theorem applied to the sample COO matrix. -/
theorem convert_offsets_prefix_sums_witness :
    (exCOO.rows + 1 < 2 ^ 64 ∧ exCOO.nnz < 2 ^ 32) ∧
    ∃ res, convert insertionStdSort exCOO = .ok res ∧ res.row_offsets[0]? = some 0 ∧
      ∀ r, r < exCOO.rows → ∃ a, res.row_offsets[r]? = some a ∧
        res.row_offsets[r + 1]? = some (a + exCOO.triplets.countP (fun e => e.r = r)) :=
  ⟨by decide, convert_offsets_prefix_sums insertionStdSort insertionStdSort_isStdSort exCOO
    exCOO_wellFormed (by decide) (by decide) (by decide)⟩

/-- Witness for C5 (amended): the theorem applied to the sample COO matrix. -/
theorem convert_establishes_invariants_witness :
    (exCOO.rows + 1 < 2 ^ 64 ∧ exCOO.nnz < 2 ^ 32) ∧
    ∃ res, convert insertionStdSort exCOO = .ok res ∧ res.Valid ∧
      res.rows = exCOO.rows ∧ res.cols = exCOO.cols ∧ res.nnz = exCOO.nnz :=
  ⟨by decide, convert_establishes_invariants insertionStdSort insertionStdSort_isStdSort exCOO
    exCOO_wellFormed (by decide) (by decide) (by decide) (by decide)⟩

/-- Witness for C3 (amended): the theorem applied to the sample COO matrix. -/
theorem convert_rows_keep_triplets_witness :
    (exCOO.rows + 1 < 2 ^ 64 ∧ exCOO.nnz < 2 ^ 32) ∧
    ∃ res, convert insertionStdSort exCOO = .ok res ∧
      ∀ r, r < exCOO.rows → ∃ lo hi, res.row_offsets[r]? = some lo ∧
        res.row_offsets[r + 1]? = some hi ∧
        (((res.col_ids.zip res.data).drop lo).take (hi - lo)).Perm
          ((exCOO.triplets.filter (fun e => e.r = r)).map (fun e => (e.c, e.v))) :=
  ⟨by decide, convert_rows_keep_triplets insertionStdSort insertionStdSort_isStdSort exCOO
    exCOO_wellFormed (by decide) (by decide) (by decide)⟩

/-- Witness for C6 (amended): the theorem applied to the sample COO matrix. -/
theorem convert_sorts_columns_witness :
    (exCOO.rows + 1 < 2 ^ 64 ∧ exCOO.nnz < 2 ^ 32) ∧
    ∃ res, convert insertionStdSort exCOO = .ok res ∧
      ∀ r, r < exCOO.rows → ∃ lo hi, res.row_offsets[r]? = some lo ∧
        res.row_offsets[r + 1]? = some hi ∧
        ∀ i j, lo ≤ i → i < j → j < hi →
          ∃ a b, res.col_ids[i]? = some a ∧ res.col_ids[j]? = some b ∧ a ≤ b :=
  ⟨by decide, convert_sorts_columns insertionStdSort insertionStdSort_isStdSort exCOO
    exCOO_wellFormed (by decide) (by decide) (by decide)⟩

/-! ### Inputs outside the range of the machine types -/

/-- With `rows = 2^64 - 1` the offset array is allocated with `rows + 1 = 0` slots and
the prefix-sum loop reads past it at once. -/
theorem convert_maxRowsCOO : convert insertionStdSort maxRowsCOO = .ub := by
  decide

theorem maxRowsCOO_wellFormed : maxRowsCOO.WellFormed := ⟨rfl, rfl, rfl⟩

theorem sameCOO_wellFormed (n : Nat) : (sameCOO n).WellFormed :=
  ⟨by simp [sameCOO], by simp [sameCOO], by simp [sameCOO]⟩

theorem sameCOO_triplets (n : Nat) :
    (sameCOO n).triplets = List.replicate n ⟨0, 0, 0⟩ := by
  simp [COO.triplets, sameCOO, List.zip_replicate', List.map_replicate]

/-- On `n` copies of one triplet the only row count, `n`, is stored modulo `2^32`. -/
theorem convert_sameCOO (n : Nat) :
    convert insertionStdSort (sameCOO n) =
      .ok ⟨1, 1, n, List.replicate n 0, List.replicate n 0, [0, n % 2 ^ 32]⟩ := by
  have hperm : ∀ l : List (Entry Int), (insertionStdSort l).Perm l :=
    fun l => (insertionStdSort_isStdSort l).1
  have hsort : insertionStdSort (sameCOO n).triplets = List.replicate n ⟨0, 0, 0⟩ := by
    rw [sameCOO_triplets]
    exact List.perm_replicate.mp (hperm _)
  rw [convert_eq insertionStdSort hperm (sameCOO n) (sameCOO_wellFormed n)
    (fun r hr => by
      simp only [sameCOO] at hr ⊢
      rw [List.eq_of_mem_replicate hr]
      decide)
    (by simp only [sameCOO]; decide), hsort]
  simp [sameCOO, List.range_succ, List.countP_replicate, List.map_replicate]

theorem wrapCOO_wellFormed (n : Nat) : (wrapCOO n).WellFormed :=
  ⟨by simp [wrapCOO], by simp [wrapCOO], by simp [wrapCOO]⟩

theorem wrapCOO_triplets (n : Nat) :
    (wrapCOO n).triplets =
      ⟨0, 0, 0⟩ :: ⟨0, 5, 0⟩ :: (List.replicate n ⟨1, 0, 0⟩ ++ [⟨2, 0, 0⟩, ⟨2, 0, 0⟩]) := by
  simp [COO.triplets, wrapCOO, List.zip_append, List.zip_replicate', List.map_replicate]

theorem wrapCOO_rows (n : Nat) : ∀ r ∈ (wrapCOO n).row_ids, r < (wrapCOO n).rows := by
  intro r hr
  simp only [wrapCOO, List.mem_cons, List.mem_append, List.mem_replicate, List.mem_singleton,
    List.not_mem_nil, or_false] at hr ⊢
  omega

/-- On `wrapCOO n` the offsets are the row totals `0, 2, n + 2, n + 4` taken modulo
`2^32`, and the columns stay in input order. -/
theorem convert_wrapCOO (n : Nat) :
    convert insertionStdSort (wrapCOO n) =
      .ok ⟨3, 6, n + 4, 0 :: 0 :: (List.replicate n 0 ++ [0, 0]),
        0 :: 5 :: (List.replicate n 0 ++ [0, 0]),
        [0, 2, (n + 2) % 2 ^ 32, (n + 4) % 2 ^ 32]⟩ := by
  have hperm : ∀ l : List (Entry Int), (insertionStdSort l).Perm l :=
    fun l => (insertionStdSort_isStdSort l).1
  have hsorted : ((wrapCOO n).triplets).Sorted Entry.le := by
    rw [wrapCOO_triplets]
    simp [List.Sorted, List.pairwise_append, List.pairwise_replicate, Entry.le_iff]
    constructor
    · rintro a (⟨_, rfl⟩ | rfl) <;> simp
    · rintro a (⟨_, rfl⟩ | rfl) <;> simp
  have hsort : insertionStdSort (wrapCOO n).triplets = (wrapCOO n).triplets :=
    List.Sorted.insertionSort_eq hsorted
  rw [convert_eq insertionStdSort hperm (wrapCOO n) (wrapCOO_wellFormed n) (wrapCOO_rows n)
    (by simp only [wrapCOO]; decide), hsort, wrapCOO_triplets]
  simp [wrapCOO, List.range_succ, List.countP_cons, List.countP_append, List.countP_replicate,
    List.map_replicate]

/-- Counterexample to C4 as stated: a COO matrix with no triplet (so every row id is in
range and `nnz < 2^32`) and `rows = 2^64 - 1`; `convert` runs into undefined behaviour
and returns no matrix. -/
theorem convert_offsets_prefix_sums_counterexample :
    (maxRowsCOO.WellFormed ∧ (∀ r ∈ maxRowsCOO.row_ids, r < maxRowsCOO.rows) ∧
      maxRowsCOO.nnz < 2 ^ 32) ∧
    ¬ ∃ res, convert insertionStdSort maxRowsCOO = .ok res ∧ res.row_offsets[0]? = some 0 ∧
      ∀ r, r < maxRowsCOO.rows → ∃ a, res.row_offsets[r]? = some a ∧
        res.row_offsets[r + 1]? = some (a + maxRowsCOO.triplets.countP (fun e => e.r = r)) := by
  refine ⟨⟨maxRowsCOO_wellFormed, fun _ h => absurd h (List.not_mem_nil _), by decide⟩, ?_⟩
  rintro ⟨res, h, _⟩
  rw [convert_maxRowsCOO] at h
  exact Outcome.noConfusion h

theorem sameCOO_rows (n : Nat) : ∀ r ∈ (sameCOO n).row_ids, r < (sameCOO n).rows := by
  intro r hr
  simp only [sameCOO] at hr ⊢
  rw [List.eq_of_mem_replicate hr]
  decide

theorem sameCOO_cols (n : Nat) : ∀ c ∈ (sameCOO n).col_ids, c < (sameCOO n).cols := by
  intro c hc
  simp only [sameCOO] at hc ⊢
  rw [List.eq_of_mem_replicate hc]
  decide

/-- When `n` is a positive multiple of `2^32`, the result for `sameCOO n` ends its
offsets at `0` instead of `n`. -/
theorem sameCOO_breaks_invariants (n : Nat) (hn : n % 2 ^ 32 = 0) (hpos : 0 < n) :
    ∃ res, convert insertionStdSort (sameCOO n) = .ok res ∧
      res.row_offsets[res.rows]? = some 0 ∧ res.nnz = n ∧ ¬ res.Valid := by
  refine ⟨_, convert_sameCOO n, ?_, rfl, ?_⟩
  · simp only [List.getElem?_cons_succ, List.getElem?_cons_zero, hn]
  · intro hv
    have := hv.last
    simp only [List.getElem?_cons_succ, List.getElem?_cons_zero, hn, Option.some.injEq] at this
    omega

/-- When `n` is a positive multiple of `2^32`, row 0 of the result for `sameCOO n` spans
no position although all `n` triplets are in row 0. -/
theorem sameCOO_loses_triplets (n : Nat) (hn : n % 2 ^ 32 = 0) (hpos : 0 < n) :
    ∃ res, convert insertionStdSort (sameCOO n) = .ok res ∧
      res.row_offsets[0]? = some 0 ∧ res.row_offsets[0 + 1]? = some 0 ∧
      ¬ (((res.col_ids.zip res.data).drop 0).take (0 - 0)).Perm
        (((sameCOO n).triplets.filter (fun e => e.r = 0)).map (fun e => (e.c, e.v))) := by
  refine ⟨_, convert_sameCOO n, ?_, ?_, ?_⟩
  · simp
  · simp only [List.getElem?_cons_succ, List.getElem?_cons_zero, hn]
  · intro hp
    have hl := hp.length_eq
    rw [sameCOO_triplets] at hl
    simp [List.filter_replicate] at hl
    omega

/-- When `n + 2` leaves remainder `1` modulo `2^32`, row 2 of the result for `wrapCOO n`
is given the positions `[1, 3)`, which hold the columns `5` and `0`. -/
theorem wrapCOO_unsorted (n : Nat) (hn : (n + 2) % 2 ^ 32 = 1) (hn2 : (n + 4) % 2 ^ 32 = 3)
    (hpos : 0 < n) :
    ∃ res, convert insertionStdSort (wrapCOO n) = .ok res ∧
      res.row_offsets[2]? = some 1 ∧ res.row_offsets[2 + 1]? = some 3 ∧
      res.col_ids[1]? = some 5 ∧ res.col_ids[2]? = some 0 := by
  refine ⟨_, convert_wrapCOO n, ?_, ?_, ?_, ?_⟩
  · simp only [List.getElem?_cons_succ, List.getElem?_cons_zero, hn]
  · simp only [List.getElem?_cons_succ, List.getElem?_cons_zero, hn2]
  · simp
  · simp only [List.getElem?_cons_succ]
    rw [List.getElem?_append_left (by simpa using hpos)]
    simp [List.getElem?_replicate, hpos]

theorem maxRowsCOO_no_result : ¬ ∃ res, convert insertionStdSort maxRowsCOO = .ok res := by
  rintro ⟨res, h⟩
  rw [convert_maxRowsCOO] at h
  exact Outcome.noConfusion h

/-- Counterexample to C5 as stated, in two inputs that meet its hypotheses.  With `2^32`
copies of the triplet `(0,0,0)` in a 1×1 matrix the result has `row_offsets[rows] = 0`,
not `nnz`.  With no triplet and `rows = 2^64 - 1` there is no result at all. -/
theorem convert_establishes_invariants_counterexample :
    ((sameCOO (2 ^ 32)).WellFormed ∧
      (∀ r ∈ (sameCOO (2 ^ 32)).row_ids, r < (sameCOO (2 ^ 32)).rows) ∧
      (∀ c ∈ (sameCOO (2 ^ 32)).col_ids, c < (sameCOO (2 ^ 32)).cols) ∧
      ∃ res, convert insertionStdSort (sameCOO (2 ^ 32)) = .ok res ∧
        res.row_offsets[res.rows]? = some 0 ∧ res.nnz = 2 ^ 32 ∧ ¬ res.Valid) ∧
    (maxRowsCOO.WellFormed ∧ (∀ r ∈ maxRowsCOO.row_ids, r < maxRowsCOO.rows) ∧
      (∀ c ∈ maxRowsCOO.col_ids, c < maxRowsCOO.cols) ∧
      ¬ ∃ res, convert insertionStdSort maxRowsCOO = .ok res) :=
  ⟨⟨sameCOO_wellFormed (2 ^ 32), sameCOO_rows (2 ^ 32), sameCOO_cols (2 ^ 32),
      sameCOO_breaks_invariants (2 ^ 32) (Nat.mod_self _) (Nat.pow_pos (by decide))⟩,
    maxRowsCOO_wellFormed, fun _ h => absurd h (List.not_mem_nil _),
    fun _ h => absurd h (List.not_mem_nil _), maxRowsCOO_no_result⟩

/-- Counterexample to C3 as stated, in two inputs that meet its hypotheses.  With `2^32`
copies of the triplet `(0,0,0)` in a 1×1 matrix both offsets of row 0 are `0`, so the
row's position range is empty although `2^32` triplets carry row id 0.  With no triplet
and `rows = 2^64 - 1` there is no result at all. -/
theorem convert_rows_keep_triplets_counterexample :
    ((sameCOO (2 ^ 32)).WellFormed ∧
      (∀ r ∈ (sameCOO (2 ^ 32)).row_ids, r < (sameCOO (2 ^ 32)).rows) ∧
      ∃ res, convert insertionStdSort (sameCOO (2 ^ 32)) = .ok res ∧
        res.row_offsets[0]? = some 0 ∧ res.row_offsets[0 + 1]? = some 0 ∧
        ¬ (((res.col_ids.zip res.data).drop 0).take (0 - 0)).Perm
          (((sameCOO (2 ^ 32)).triplets.filter (fun e => e.r = 0)).map
            (fun e => (e.c, e.v)))) ∧
    (maxRowsCOO.WellFormed ∧ (∀ r ∈ maxRowsCOO.row_ids, r < maxRowsCOO.rows) ∧
      ¬ ∃ res, convert insertionStdSort maxRowsCOO = .ok res) :=
  ⟨⟨sameCOO_wellFormed (2 ^ 32), sameCOO_rows (2 ^ 32),
      sameCOO_loses_triplets (2 ^ 32) (Nat.mod_self _) (Nat.pow_pos (by decide))⟩,
    maxRowsCOO_wellFormed, fun _ h => absurd h (List.not_mem_nil _), maxRowsCOO_no_result⟩

/-- Counterexample to C6 as stated, in two inputs that meet its hypotheses.  With
`2^32 + 3` triplets (two in row 0 at columns 0 and 5, `2^32 - 1` in row 1, two in row 2)
the stored offsets of row 2 are `1` and `3`, and the positions `1 < 2` inside `[1, 3)`
hold the columns `5` and `0`.  With no triplet and `rows = 2^64 - 1` there is no result
at all. -/
theorem convert_sorts_columns_counterexample :
    ((wrapCOO (2 ^ 32 - 1)).WellFormed ∧
      (∀ r ∈ (wrapCOO (2 ^ 32 - 1)).row_ids, r < (wrapCOO (2 ^ 32 - 1)).rows) ∧
      ∃ res, convert insertionStdSort (wrapCOO (2 ^ 32 - 1)) = .ok res ∧
        res.row_offsets[2]? = some 1 ∧ res.row_offsets[2 + 1]? = some 3 ∧
        res.col_ids[1]? = some 5 ∧ res.col_ids[2]? = some 0) ∧
    (maxRowsCOO.WellFormed ∧ (∀ r ∈ maxRowsCOO.row_ids, r < maxRowsCOO.rows) ∧
      ¬ ∃ res, convert insertionStdSort maxRowsCOO = .ok res) :=
  ⟨⟨wrapCOO_wellFormed (2 ^ 32 - 1), wrapCOO_rows (2 ^ 32 - 1),
      wrapCOO_unsorted (2 ^ 32 - 1) (by decide) (by decide) (by decide)⟩,
    maxRowsCOO_wellFormed, fun _ h => absurd h (List.not_mem_nil _), maxRowsCOO_no_result⟩

end ConvertFacts

/-! ## Facts about the codec -/

section CodecFacts

theorem leBytes_length (k x : Nat) : (leBytes k x).length = k := by
  induction k generalizing x with
  | zero => rfl
  | succ k ih => simp [leBytes, ih]

theorem leVal_leBytes (k x : Nat) : leVal (leBytes k x) = x % 256 ^ k := by
  induction k generalizing x with
  | zero => simp [leBytes, leVal, Nat.mod_one]
  | succ k ih =>
    rw [leBytes, leVal, ih, pow_succ', Nat.mod_mul]

theorem leVal_leBytes_of_lt {k x : Nat} (h : x < 256 ^ k) : leVal (leBytes k x) = x := by
  rw [leVal_leBytes, Nat.mod_eq_of_lt h]

/-- Storage of an array of `w`-byte elements occupies `length * w` bytes. -/
theorem length_flatMap_const {α : Type} (enc : α → List Nat) (w : Nat)
    (henc : ∀ x, (enc x).length = w) (l : List α) :
    (l.flatMap enc).length = l.length * w := by
  induction l with
  | nil => simp
  | cons a t ih =>
    rw [List.flatMap_cons, List.length_append, ih, henc, List.length_cons]
    ring

/-- Decoding the storage of an array gives the array back. -/
theorem decodeArray_flatMap {α : Type} (w : Nat) (enc : α → List Nat) (dec : List Nat → α)
    (henc : ∀ x, (enc x).length = w) :
    ∀ (l : List α) (rest : List Nat), (∀ x ∈ l, dec (enc x) = x) →
      decodeArray w dec l.length (l.flatMap enc ++ rest) = l := by
  intro l
  induction l with
  | nil => intro rest _; rfl
  | cons a t ih =>
    intro rest hdec
    rw [List.length_cons, decodeArray, List.flatMap_cons, List.append_assoc,
      List.take_left' (henc a), List.drop_left' (henc a), hdec a (List.mem_cons_self _ _),
      ih rest (fun x hx => hdec x (List.mem_cons_of_mem _ hx))]

/-- Reading exactly the bytes at the head of a good stream. -/
theorem IStream.read_prefix (a b : List Nat) :
    IStream.read ⟨a ++ b, true⟩ a.length = (a, ⟨b, true⟩) := by
  simp [IStream.read]

/-- A read that asks for more than the stream holds clears `good()`. -/
theorem IStream.read_short (s : IStream) (count : Nat) (h : s.rest.length < count) :
    (s.read count).2.good = false := by
  unfold IStream.read
  cases hg : s.good
  · simp [hg]
  · simp [Nat.not_le.mpr h]

/-- Once `good()` is false it stays false. -/
theorem IStream.read_bad (s : IStream) (count : Nat) (h : s.good = false) :
    s.read count = ([], s) := by
  simp [IStream.read, h]

/-- Reading an array back from a good stream that starts with the storage of `src`. -/
theorem readArray_exact {α : Type} (w : Nat) (enc : α → List Nat) (dec : List Nat → α)
    (henc : ∀ x, (enc x).length = w) (arr src : List α) (rest : List Nat)
    (hdec : ∀ x ∈ src, dec (enc x) = x) (hlen : arr.length = src.length) :
    readArray w enc dec arr ⟨src.flatMap enc ++ rest, true⟩ (src.length * w)
      = some (src, ⟨rest, true⟩) := by
  have h1 : (src.flatMap enc).length = src.length * w := length_flatMap_const enc w henc src
  have h2 : (arr.flatMap enc).length = src.length * w := by
    rw [length_flatMap_const enc w henc arr, hlen]
  have hr := IStream.read_prefix (src.flatMap enc) rest
  rw [h1] at hr
  unfold readArray
  simp only [hr, h1, h2, le_refl, if_true]
  rw [List.drop_of_length_le (by rw [h2]), hlen]
  have := decodeArray_flatMap w enc dec henc src [] hdec
  rw [this]

/-- Writing an array whose storage is exactly `count` bytes long. -/
theorem writeArray_exact {α : Type} (w : Nat) (enc : α → List Nat)
    (henc : ∀ x, (enc x).length = w) (arr : List α) :
    writeArray enc arr (arr.length * w) = some (arr.flatMap enc) := by
  have h1 : (arr.flatMap enc).length = arr.length * w := length_flatMap_const enc w henc arr
  unfold writeArray
  simp only [h1, le_refl, if_true]
  rw [← h1, List.take_length]

theorem Magic_length : Magic.length = 9 := rfl

/-- The magic test succeeds exactly on the nine magic bytes. -/
theorem checkMagic_iff (h : CSRIOHeader) (hl : h.magic.length = 9) :
    h.checkMagic = true ↔ h.magic = Magic := by
  constructor
  · intro hc
    unfold CSRIOHeader.checkMagic at hc
    rw [List.all_eq_true] at hc
    apply List.ext_getElem (by rw [hl, Magic_length])
    intro n h1 h2
    have := hc n (List.mem_range.mpr h2)
    simp only [beq_iff_eq] at this
    rw [List.getD_eq_getElem _ _ h1, List.getD_eq_getElem _ _ h2] at this
    exact this
  · intro hm
    unfold CSRIOHeader.checkMagic
    rw [hm]
    decide

theorem drop_append_len {α : Type} (l1 l2 : List α) (n k : Nat) (h : l1.length = n) :
    (l1 ++ l2).drop (n + k) = l2.drop k := by
  subst h
  exact List.drop_append k

/-- Parsing the object representation of a header gives the header back. -/
theorem CSRIOHeader.ofBytes_toBytes (padBytes : List Nat) (h : CSRIOHeader)
    (hm : h.magic.length = 9) (h1 : h.typesize < 2 ^ 64) (h2 : h.num_rows < 2 ^ 64)
    (h3 : h.num_columns < 2 ^ 64) (h4 : h.num_non_zeroes < 2 ^ 64) :
    CSRIOHeader.ofBytes padBytes.length (h.toBytes padBytes) = h := by
  have e8 : ∀ x, (leBytes 8 x).length = 8 := leBytes_length 8
  have v8 : ∀ x, x < 2 ^ 64 → leVal (leBytes 8 x) = x :=
    fun x hx => leVal_leBytes_of_lt (by simpa using hx)
  unfold CSRIOHeader.ofBytes CSRIOHeader.toBytes
  simp only [List.append_assoc, Magic_length]
  have a1 : 9 + padBytes.length + 8 = 9 + (padBytes.length + 8) := by omega
  have a2 : 9 + padBytes.length + 16 = 9 + (padBytes.length + (8 + 8)) := by omega
  have a3 : 9 + padBytes.length + 24 = 9 + (padBytes.length + (8 + (8 + 8))) := by omega
  rw [List.take_left' hm, a1, a2, a3]
  simp only [drop_append_len _ _ 9 _ hm, drop_append_len _ _ padBytes.length _ rfl,
    drop_append_len _ _ 8 _ (e8 _)]
  rw [List.drop_left' rfl, List.take_left' (e8 _), List.drop_left' (e8 _),
    List.take_left' (e8 _), List.drop_left' (e8 _), List.take_left' (e8 _),
    List.drop_left' (e8 _)]
  have e9 : List.take 8 (leBytes 8 h.num_non_zeroes) = leBytes 8 h.num_non_zeroes :=
    List.take_of_length_le (le_of_eq (e8 _))
  rw [e9, v8 _ h1, v8 _ h2, v8 _ h3, v8 _ h4]

theorem CSRIOHeader.toBytes_length (padBytes : List Nat) (h : CSRIOHeader)
    (hm : h.magic.length = 9) :
    (h.toBytes padBytes).length = sizeofHeader padBytes.length := by
  simp only [CSRIOHeader.toBytes, sizeofHeader, leBytes_length, hm, Magic_length,
    List.length_append]

theorem CSRIOHeader.ofCSR_magic {T : Type} (w : Nat) (m : CSR T) :
    (CSRIOHeader.ofCSR w m).magic = Magic := by
  show (List.range Magic.length).map (fun i => Magic.getD i 0) = Magic
  decide

/-- Reading the header from a stream that holds at least a header. -/
theorem read_header (pad : Nat) (bytes : List Nat) (hlen : sizeofHeader pad ≤ bytes.length) :
    IStream.read ⟨bytes, true⟩ (sizeofHeader pad)
      = (bytes.take (sizeofHeader pad), ⟨bytes.drop (sizeofHeader pad), true⟩) := by
  simp [IStream.read, hlen]

theorem ofBytes_magic (pad : Nat) (bytes : List Nat) (hlen : sizeofHeader pad ≤ bytes.length) :
    (CSRIOHeader.ofBytes pad (bytes.take (sizeofHeader pad))).magic = bytes.take 9 ∧
      (CSRIOHeader.ofBytes pad (bytes.take (sizeofHeader pad))).magic.length = 9 := by
  have h9 : 9 ≤ sizeofHeader pad := by simp only [sizeofHeader, Magic_length]; omega
  have e : (CSRIOHeader.ofBytes pad (bytes.take (sizeofHeader pad))).magic = bytes.take 9 := by
    show (bytes.take (sizeofHeader pad)).take Magic.length = bytes.take 9
    rw [List.take_take, Magic_length, Nat.min_eq_left h9]
  refine ⟨e, ?_⟩
  rw [e, List.length_take]
  omega

/-- C9. Format rejection: for every byte stream at least one header long, if one of its
first 9 bytes differs from the magic `48 6F 6C 61 01 43 53 52 01`, `loadCSR<T>` throws
"File does not appear to be a CSR Matrix"; if the magic matches but the header's
element-size field is not `sizeof(T)`, it throws "File does not contain a CSR matrix
with matching type".  In both cases no matrix is returned, whatever follows. -/
theorem loadCSR_format_rejection {T : Type} [Zero T] [ObjRepr T] (pad : Nat)
    (bytes : List Nat) (hlen : sizeofHeader pad ≤ bytes.length) :
    ((∃ i, i < 9 ∧ bytes[i]? ≠ Magic[i]?) →
        loadCSR (T := T) pad (some bytes) = .throw .notACSRMatrix) ∧
      (bytes.take 9 = Magic →
        (CSRIOHeader.ofBytes pad (bytes.take (sizeofHeader pad))).typesize ≠ ObjRepr.size T →
        loadCSR (T := T) pad (some bytes) = .throw .typeMismatch) := by
  obtain ⟨hmag, hmlen⟩ := ofBytes_magic pad bytes hlen
  have hck := checkMagic_iff _ hmlen
  rw [hmag] at hck
  constructor
  · rintro ⟨i, hi, hne⟩
    have hnot : (CSRIOHeader.ofBytes pad (bytes.take (sizeofHeader pad))).checkMagic = false := by
      cases hc : (CSRIOHeader.ofBytes pad (bytes.take (sizeofHeader pad))).checkMagic with
      | false => rfl
      | true =>
        exfalso
        apply hne
        rw [← hck.mp hc, List.getElem?_take_of_lt hi]
    simp [loadCSR, read_header pad bytes hlen, hnot]
  · intro hm hts
    have hc : (CSRIOHeader.ofBytes pad (bytes.take (sizeofHeader pad))).checkMagic = true :=
      hck.mpr hm
    simp [loadCSR, read_header pad bytes hlen, hc, hts]

/-- C7. Codec round trip: for every in-memory CSR matrix `M` whose values and `col_ids`
have length `nnz` and whose `row_offsets` has length `rows + 1` (empty matrices
included), `storeCSR<T>` writes a byte stream, and loading that stream with the same
element type returns normally a matrix equal to `M` in `rows`, `cols`, `nnz`, values,
`col_ids` and `row_offsets`. -/
theorem load_store_roundtrip {T : Type} [Zero T] [ObjRepr T] (padBytes : List Nat) (M : CSR T)
    (hd : M.data.length = M.nnz) (hc : M.col_ids.length = M.nnz)
    (hr : M.row_offsets.length = M.rows + 1) (hrep : M.Representable (ObjRepr.size T)) :
    ∃ bytes, storeCSR padBytes M true = .ok bytes ∧
      loadCSR padBytes.length (some bytes) = .ok M := by
  have hb1 := hrep.data_bytes
  have hb2 := hrep.col_ids_bytes
  have hb3 := hrep.row_offsets_bytes
  have n1 : M.nnz * ObjRepr.size T % 2 ^ 64 = M.data.length * ObjRepr.size T := by
    rw [hd] at hb1 ⊢
    exact Nat.mod_eq_of_lt hb1
  have n2 : M.nnz * 4 % 2 ^ 64 = M.col_ids.length * 4 := by
    rw [hc] at hb2 ⊢
    exact Nat.mod_eq_of_lt hb2
  have n0 : (M.rows + 1) % 2 ^ 64 = M.rows + 1 := by
    rw [hr] at hb3
    exact Nat.mod_eq_of_lt (by omega)
  have n3 : (M.rows + 1) % 2 ^ 64 * 4 % 2 ^ 64 = M.row_offsets.length * 4 := by
    rw [n0]
    rw [hr] at hb3 ⊢
    exact Nat.mod_eq_of_lt hb3
  have henc4 : ∀ x, (leBytes 4 x).length = 4 := leBytes_length 4
  have hdec4 : ∀ l : List Nat, (∀ x ∈ l, x < 2 ^ 32) → ∀ x ∈ l, leVal (leBytes 4 x) = x :=
    fun l hl x hx => leVal_leBytes_of_lt (by simpa using hl x hx)
  have hmag := CSRIOHeader.ofCSR_magic (ObjRepr.size T) M
  have hmlen : (CSRIOHeader.ofCSR (ObjRepr.size T) M).magic.length = 9 := by rw [hmag]; rfl
  have hhdr := CSRIOHeader.ofBytes_toBytes padBytes (CSRIOHeader.ofCSR (ObjRepr.size T) M) hmlen
    hrep.elem_size (show M.rows < 2 ^ 64 by rw [hr] at hb3; omega) hrep.cols_size_t
    (show M.nnz < 2 ^ 64 by rw [hc] at hb2; omega)
  have hhlen := CSRIOHeader.toBytes_length padBytes (CSRIOHeader.ofCSR (ObjRepr.size T) M) hmlen
  refine ⟨(CSRIOHeader.ofCSR (ObjRepr.size T) M).toBytes padBytes
      ++ M.data.flatMap ObjRepr.toBytes ++ M.col_ids.flatMap (leBytes 4)
      ++ M.row_offsets.flatMap (leBytes 4), ?_, ?_⟩
  · simp only [storeCSR, n1, n2, n3, writeArray_exact _ _ ObjRepr.toBytes_length,
      writeArray_exact _ _ henc4]
    rfl
  · have hread := IStream.read_prefix ((CSRIOHeader.ofCSR (ObjRepr.size T) M).toBytes padBytes)
      (M.data.flatMap ObjRepr.toBytes ++ (M.col_ids.flatMap (leBytes 4)
        ++ M.row_offsets.flatMap (leBytes 4)))
    rw [hhlen] at hread
    have hck : (CSRIOHeader.ofCSR (ObjRepr.size T) M).checkMagic = true :=
      (checkMagic_iff _ hmlen).mpr hmag
    have r1 := readArray_exact (ObjRepr.size T) ObjRepr.toBytes ObjRepr.ofBytes
      ObjRepr.toBytes_length (List.replicate M.nnz (0 : T)) M.data
      (M.col_ids.flatMap (leBytes 4) ++ M.row_offsets.flatMap (leBytes 4))
      (fun x _ => ObjRepr.ofBytes_toBytes x) (by simp [hd])
    have r2 := readArray_exact 4 (leBytes 4) leVal henc4 (List.replicate M.nnz 0) M.col_ids
      (M.row_offsets.flatMap (leBytes 4)) (hdec4 _ hrep.col_ids_u32) (by simp [hc])
    have r3 := readArray_exact 4 (leBytes 4) leVal henc4 (List.replicate (M.rows + 1) 0)
      M.row_offsets [] (hdec4 _ hrep.row_offsets_u32) (by simp [hr])
    rw [List.append_nil] at r3
    have n4 : (M.rows + 1) * 4 % 2 ^ 64 = M.row_offsets.length * 4 := by rw [← n3, n0]
    simp only [loadCSR, List.append_assoc, hread, hhdr, hck, CSR.alloc, n0, n1, n2, n3]
    simp only [CSRIOHeader.ofCSR, n0, n1, n2, n3, n4, r1, r2, r3, bne_self_eq_false,
      Bool.not_true, Bool.false_eq_true, if_false]

/-! ### Truncated streams -/

theorem IStream.read_fst_length_le (s : IStream) (c : Nat) : (s.read c).1.length ≤ c := by
  unfold IStream.read
  split
  · simp
  · split
    · simp
    · simp only
      omega

theorem IStream.read_good_iff (s : IStream) (c : Nat) :
    (s.read c).2.good = true ↔ s.good = true ∧ c ≤ s.rest.length := by
  unfold IStream.read
  cases hg : s.good
  · simp [hg]
  · by_cases hc : c ≤ s.rest.length
    · simp [hc]
    · simp [hc]

theorem IStream.read_rest_length (s : IStream) (c : Nat) (h : (s.read c).2.good = true) :
    (s.read c).2.rest.length = s.rest.length - c := by
  obtain ⟨hg, hc⟩ := (IStream.read_good_iff s c).mp h
  simp [IStream.read, hg, hc]

/-- A read into an array that is large enough never runs out of the array; the stream
advances as `read` says. -/
theorem readArray_snd {α : Type} (w : Nat) (enc : α → List Nat) (dec : List Nat → α)
    (arr : List α) (s : IStream) (c : Nat) (hbuf : c ≤ (arr.flatMap enc).length) :
    ∃ out, readArray w enc dec arr s c = some (out, (s.read c).2) := by
  have := IStream.read_fst_length_le s c
  unfold readArray
  simp only
  rw [if_pos (by omega)]
  exact ⟨_, rfl⟩

/-- A stream shorter than the header is rejected. -/
theorem loadCSR_short_header {T : Type} [Zero T] [ObjRepr T] (pad : Nat) (bytes : List Nat)
    (h : bytes.length < sizeofHeader pad) :
    loadCSR (T := T) pad (some bytes) = .throw .couldNotReadHeader := by
  have := IStream.read_short ⟨bytes, true⟩ (sizeofHeader pad) h
  simp [loadCSR, this]

/-- After a valid header that declares sizes whose byte counts do not wrap in `size_t`,
a body shorter than the three segments together is rejected, wherever it is cut. -/
theorem loadCSR_truncated_body {T : Type} [Zero T] [ObjRepr T] (pad : Nat) (bytes : List Nat)
    (hlen : sizeofHeader pad ≤ bytes.length)
    (hmagic : (CSRIOHeader.ofBytes pad (bytes.take (sizeofHeader pad))).checkMagic = true)
    (hsize : (CSRIOHeader.ofBytes pad (bytes.take (sizeofHeader pad))).typesize = ObjRepr.size T)
    (h1 : (CSRIOHeader.ofBytes pad (bytes.take (sizeofHeader pad))).num_non_zeroes
      * ObjRepr.size T < 2 ^ 64)
    (h2 : (CSRIOHeader.ofBytes pad (bytes.take (sizeofHeader pad))).num_non_zeroes * 4 < 2 ^ 64)
    (h3 : ((CSRIOHeader.ofBytes pad (bytes.take (sizeofHeader pad))).num_rows + 1) * 4 < 2 ^ 64)
    (hshort : bytes.length - sizeofHeader pad <
      (CSRIOHeader.ofBytes pad (bytes.take (sizeofHeader pad))).num_non_zeroes * ObjRepr.size T
        + (CSRIOHeader.ofBytes pad (bytes.take (sizeofHeader pad))).num_non_zeroes * 4
        + ((CSRIOHeader.ofBytes pad (bytes.take (sizeofHeader pad))).num_rows + 1) * 4) :
    loadCSR (T := T) pad (some bytes) = .throw .couldNotReadData := by
  generalize hH : CSRIOHeader.ofBytes pad (bytes.take (sizeofHeader pad)) = H at *
  have n1 : H.num_non_zeroes * ObjRepr.size T % 2 ^ 64 = H.num_non_zeroes * ObjRepr.size T :=
    Nat.mod_eq_of_lt h1
  have n2 : H.num_non_zeroes * 4 % 2 ^ 64 = H.num_non_zeroes * 4 := Nat.mod_eq_of_lt h2
  have n0 : (H.num_rows + 1) % 2 ^ 64 = H.num_rows + 1 := Nat.mod_eq_of_lt (by omega)
  have n3 : (H.num_rows + 1) * 4 % 2 ^ 64 = (H.num_rows + 1) * 4 := Nat.mod_eq_of_lt h3
  obtain ⟨o1, r1⟩ := readArray_snd (ObjRepr.size T) ObjRepr.toBytes ObjRepr.ofBytes
    (List.replicate H.num_non_zeroes (0 : T)) ⟨bytes.drop (sizeofHeader pad), true⟩
    (H.num_non_zeroes * ObjRepr.size T)
    (by rw [length_flatMap_const _ _ ObjRepr.toBytes_length]; simp)
  obtain ⟨o2, r2⟩ := readArray_snd 4 (leBytes 4) leVal (List.replicate H.num_non_zeroes 0)
    (IStream.read ⟨bytes.drop (sizeofHeader pad), true⟩ (H.num_non_zeroes * ObjRepr.size T)).2
    (H.num_non_zeroes * 4)
    (by rw [length_flatMap_const _ _ (leBytes_length 4)]; simp)
  obtain ⟨o3, r3⟩ := readArray_snd 4 (leBytes 4) leVal (List.replicate (H.num_rows + 1) 0)
    (IStream.read (IStream.read ⟨bytes.drop (sizeofHeader pad), true⟩
      (H.num_non_zeroes * ObjRepr.size T)).2 (H.num_non_zeroes * 4)).2
    ((H.num_rows + 1) * 4)
    (by rw [length_flatMap_const _ _ (leBytes_length 4)]; simp)
  have hbad : (IStream.read (IStream.read (IStream.read ⟨bytes.drop (sizeofHeader pad), true⟩
      (H.num_non_zeroes * ObjRepr.size T)).2 (H.num_non_zeroes * 4)).2
      ((H.num_rows + 1) * 4)).2.good = false := by
    cases hg : (IStream.read (IStream.read (IStream.read ⟨bytes.drop (sizeofHeader pad), true⟩
      (H.num_non_zeroes * ObjRepr.size T)).2 (H.num_non_zeroes * 4)).2
      ((H.num_rows + 1) * 4)).2.good with
    | false => rfl
    | true =>
      exfalso
      obtain ⟨g2, c3⟩ := (IStream.read_good_iff _ _).mp hg
      have l2 := IStream.read_rest_length _ _ g2
      obtain ⟨g1, c2⟩ := (IStream.read_good_iff _ _).mp g2
      have l1 := IStream.read_rest_length _ _ g1
      obtain ⟨_, c1⟩ := (IStream.read_good_iff _ _).mp g1
      simp only [List.length_drop] at l1 c1
      omega
  simp only [loadCSR, read_header pad bytes hlen, hH, hmagic, hsize, CSR.alloc, n0, n1, n2, n3,
    r1, r2, r3, hbad, bne_self_eq_false, Bool.not_true, Bool.not_false, Bool.false_eq_true,
    if_false, if_true]

theorem exW_representable : exW.Representable 4 :=
  ⟨by decide, by decide, by decide, by decide, by decide, by decide, by decide⟩

/-- Witness for C7: the theorem applied to the §8 matrix with 32-bit elements and seven
padding bytes. -/
theorem load_store_roundtrip_witness :
    exW.Representable 4 ∧
    ∃ bytes, storeCSR pad7 exW true = .ok bytes ∧ loadCSR 7 (some bytes) = .ok exW :=
  ⟨exW_representable, load_store_roundtrip pad7 exW rfl rfl rfl exW_representable⟩

/-- Witness for C9: the theorem applied to a stream whose first byte is not `48` and to
a stream with the right magic that declares 8-byte elements, both loaded as 4-byte
elements. -/
theorem loadCSR_format_rejection_witness :
    (sizeofHeader 7 ≤ badMagicFile.length ∧
      loadCSR (T := Word32) 7 (some badMagicFile) = .throw .notACSRMatrix) ∧
    (sizeofHeader 7 ≤ doubleFile.length ∧
      loadCSR (T := Word32) 7 (some doubleFile) = .throw .typeMismatch) :=
  ⟨⟨by decide, (loadCSR_format_rejection (T := Word32) 7 badMagicFile (by decide)).1
      ⟨0, by decide, by decide⟩⟩,
    ⟨by decide, (loadCSR_format_rejection (T := Word32) 7 doubleFile (by decide)).2
      (by decide) (by decide)⟩⟩

/-- C10 (defect). A stream that ends right after a valid header declaring
`rows = 2^64 - 1`, `nnz = 0` is accepted: `rows + 1` wraps to `0` in `size_t`, so `alloc`
creates an empty offset array, all three reads ask for `0` bytes, `good()` stays true and
a matrix with `2^64 - 1` rows and no offsets is returned, although `4 * (rows + 1)` bytes
of offsets are missing.  Shown for the header record with 7 padding bytes and for a
packed one. -/
theorem loadCSR_accepts_header_only :
    (headerOnlyFile.length = sizeofHeader 7 ∧
      loadCSR (T := Word32) 7 (some headerOnlyFile) = .ok ⟨2 ^ 64 - 1, 0, 0, [], [], []⟩) ∧
    (headerOnlyFilePacked.length = sizeofHeader 0 ∧
      loadCSR (T := Word32) 0 (some headerOnlyFilePacked)
        = .ok ⟨2 ^ 64 - 1, 0, 0, [], [], []⟩) := by
  decide

end CodecFacts

/-! ## Output buffer, bounds and special inputs of `spmv` -/

section SpmvBuffer
variable {T : Type}

/-- In a valid matrix without stored entries every row offset is `0`. -/
theorem CSR.Valid.offsets_zero {m : CSR T} (hm : m.Valid) (hnnz : m.nnz = 0) (i : Nat) :
    m.row_offsets.getD i 0 = 0 := by
  rw [List.getD_eq_getElem?_getD]
  cases h : m.row_offsets[i]? with
  | none => rfl
  | some a =>
    have := hm.offset_le_nnz h
    simp only [Option.getD_some]
    omega

theorem foldl_keep {α β : Type} (l : List β) (a : α) : l.foldl (fun acc _ => acc) a = a := by
  induction l with
  | nil => rfl
  | cons _ t ih => simp [ih]

variable [Zero T] [Add T] [Mul T]

/-- C19. `spmv` never indexes out of bounds: for a matrix satisfying the §3 invariants, an
input vector whose buffer holds at least `v.size` elements with `v.size` the contracted
dimension, and an output vector whose buffer holds at least `res.size` elements, the call
returns normally in both modes (every read of `row_offsets`, `col_ids`, `data`, `v.data`
and every write of `res.data` is inside its array), and the buffer chosen by the resize
step, which is the one the result lives in, holds at least the required output size. -/
theorem spmv_in_bounds (res : DenseVector T) (m : CSR T) (v : DenseVector T)
    (transpose : Bool) (hm : m.Valid) (hv : v.Valid) (hres : res.Valid)
    (hsize : v.size = if transpose then m.rows else m.cols) :
    (if transpose then m.cols else m.rows) ≤
        (if res.size < (if transpose then m.cols else m.rows)
          then List.replicate (if transpose then m.cols else m.rows) (0 : T)
          else res.data).length ∧
      ∃ out, spmv res m v transpose = .ok out ∧
        (if transpose then m.cols else m.rows) ≤ out.data.length := by
  have hv1 : v.size ≤ v.data.length := hv
  refine ⟨resize_length res hres _, ?_⟩
  cases transpose
  · simp only [Bool.false_eq_true, if_false] at hsize ⊢
    obtain ⟨out, h1, h2, _, _⟩ := rowsLoop_spec m v hm
      (fun c hc => by have := hm.col_bound c hc; omega) m.rows 0
      (if res.size < m.rows then List.replicate m.rows (0 : T) else res.data) (by omega)
      (resize_length res hres m.rows)
    refine ⟨⟨m.rows, out⟩, by simp [spmv, hsize, h1], ?_⟩
    simp only
    rw [h2]
    exact resize_length res hres m.rows
  · simp only [if_true] at hsize ⊢
    obtain ⟨buf0, f1, f2, _⟩ := fillN_spec
      (if res.size < m.cols then List.replicate m.cols (0 : T) else res.data) m.cols 0
      (resize_length res hres m.cols)
    obtain ⟨out, h1, h2, _⟩ := scatterRows_spec m v hm (by omega) m.rows 0 buf0 (by omega)
      (by rw [f2]; exact resize_length res hres m.cols)
    refine ⟨⟨m.cols, out⟩, by simp [spmv, hsize, f1, h1], ?_⟩
    simp only
    rw [h2, f2]
    exact resize_length res hres m.cols

/-- Witness for C19: the theorem applied to the §8 matrix in transposed mode with an
output vector of logical size 1 and two slots. -/
theorem spmv_in_bounds_witness :
    (DenseVector.Valid (⟨2, [1, 1]⟩ : DenseVector Int) ∧
      DenseVector.Valid (⟨1, [7, 7]⟩ : DenseVector Int)) ∧
    (3 ≤ (if 1 < 3 then List.replicate 3 (0 : Int) else [7, 7]).length ∧
      ∃ out, spmv ⟨1, [7, 7]⟩ exA ⟨2, [1, 1]⟩ true = .ok out ∧ 3 ≤ out.data.length) :=
  ⟨by decide, spmv_in_bounds ⟨1, [7, 7]⟩ exA ⟨2, [1, 1]⟩ true exA_valid (by decide)
    (by decide) rfl⟩

/-- C15. Empty matrices: for every valid CSR matrix with `nnz = 0`, every output vector
and every input vector of the matching size (dense vectors in the sense of §3), `spmv`
returns normally in both modes, with output size `rows` (non-transposed) or `cols`
(transposed), and every element of the output is `0`; with `rows = 0` this is an output
of size 0, respectively `cols` zeros. -/
theorem spmv_empty_matrix (res : DenseVector T) (m : CSR T) (v : DenseVector T)
    (hm : m.Valid) (hnnz : m.nnz = 0) (hv : v.Valid) (hres : res.Valid) :
    (v.size = m.cols → ∃ out, spmv res m v false = .ok out ∧ out.size = m.rows ∧
        ∀ r, r < m.rows → out.data[r]? = some 0) ∧
      (v.size = m.rows → ∃ out, spmv res m v true = .ok out ∧ out.size = m.cols ∧
        ∀ c, c < m.cols → out.data[c]? = some 0) := by
  have hv1 : v.size ≤ v.data.length := hv
  have hz := hm.offsets_zero hnnz
  constructor
  · intro hsize
    obtain ⟨out, h1, _, _, h4⟩ := rowsLoop_spec m v hm
      (fun c hc => by have := hm.col_bound c hc; omega) m.rows 0
      (if res.size < m.rows then List.replicate m.rows (0 : T) else res.data) (by omega)
      (resize_length res hres m.rows)
    refine ⟨⟨m.rows, out⟩, by simp [spmv, hsize, h1], rfl, fun r hr => ?_⟩
    rw [h4 r (Nat.zero_le r) (by omega)]
    simp only [rowSumSpec, hz, Nat.sub_self, List.range'_zero, List.foldl_nil]
  · intro hsize
    obtain ⟨buf0, f1, f2, f3⟩ := fillN_spec
      (if res.size < m.cols then List.replicate m.cols (0 : T) else res.data) m.cols 0
      (resize_length res hres m.cols)
    obtain ⟨out, h1, _, h3⟩ := scatterRows_spec m v hm (by omega) m.rows 0 buf0 (by omega)
      (by rw [f2]; exact resize_length res hres m.cols)
    refine ⟨⟨m.cols, out⟩, by simp [spmv, hsize, f1, h1], rfl, fun c hc => ?_⟩
    rw [h3 c 0 (f3 c hc)]
    simp only [hz, Nat.sub_self, List.range'_zero, List.foldl_nil]
    rw [foldl_keep]

theorem exEmpty_valid : exEmpty.Valid :=
  ⟨rfl, rfl, rfl, by decide, by decide, rfl, rfl⟩

theorem exNoRows_valid : exNoRows.Valid :=
  ⟨rfl, rfl, rfl, by decide, by decide, rfl, rfl⟩

/-- Witness for C15: the theorem applied to the empty 2×2 matrix in both modes, with an
output vector holding stale data, and to the 0×3 matrix in transposed mode. -/
theorem spmv_empty_matrix_witness :
    (DenseVector.Valid (⟨2, [1, 1]⟩ : DenseVector Int) ∧
      DenseVector.Valid (⟨2, [7, 7]⟩ : DenseVector Int)) ∧
    (∃ out, spmv ⟨2, [7, 7]⟩ exEmpty ⟨2, [1, 1]⟩ false = .ok out ∧ out.size = exEmpty.rows ∧
      ∀ r, r < exEmpty.rows → out.data[r]? = some 0) ∧
    (∃ out, spmv ⟨2, [7, 7]⟩ exEmpty ⟨2, [1, 1]⟩ true = .ok out ∧ out.size = exEmpty.cols ∧
      ∀ c, c < exEmpty.cols → out.data[c]? = some 0) ∧
    (∃ out, spmv ⟨0, []⟩ exNoRows ⟨0, []⟩ true = .ok out ∧ out.size = exNoRows.cols ∧
      ∀ c, c < exNoRows.cols → out.data[c]? = some 0) :=
  ⟨by decide,
    (spmv_empty_matrix ⟨2, [7, 7]⟩ exEmpty ⟨2, [1, 1]⟩ exEmpty_valid rfl (by decide)
      (by decide)).1 rfl,
    (spmv_empty_matrix ⟨2, [7, 7]⟩ exEmpty ⟨2, [1, 1]⟩ exEmpty_valid rfl (by decide)
      (by decide)).2 rfl,
    (spmv_empty_matrix ⟨0, []⟩ exNoRows ⟨0, []⟩ exNoRows_valid rfl (by decide)
      (by decide)).2 rfl⟩

end SpmvBuffer

section FixedExample
variable {T : Type} [Semiring T]

theorem exAOver_valid : (exAOver T).Valid := by
  refine ⟨rfl, rfl, rfl, ?_, ?_, rfl, rfl⟩
  · intro c hc
    simp only [exAOver, List.mem_cons, List.mem_singleton, List.not_mem_nil, or_false] at hc ⊢
    omega
  · simp [exAOver]

/-- C14. Fixed example: for the CSR matrix with `rows = 2`, `cols = 3`,
`values = [1,2,3]`, `col_ids = [0,2,1]`, `row_offsets = [0,2,3]`, and any output vector,
`spmv` with input `[1,1,1]` and `transpose = false` yields an output of size 2 whose
elements are `3, 3`, and `spmv` with input `[1,1]` and `transpose = true` yields an
output of size 3 whose elements are `1, 3, 2`. -/
theorem spmv_fixed_example (res : DenseVector T) (hres : res.Valid) :
    (∃ out, spmv res (exAOver T) ⟨3, [1, 1, 1]⟩ false = .ok out ∧ out.size = 2 ∧
        out.data[0]? = some 3 ∧ out.data[1]? = some 3) ∧
      (∃ out, spmv res (exAOver T) ⟨2, [1, 1]⟩ true = .ok out ∧ out.size = 3 ∧
        out.data[0]? = some 1 ∧ out.data[1]? = some 3 ∧ out.data[2]? = some 2) := by
  have hrows : (exAOver T).rows = 2 := rfl
  have hcols : (exAOver T).cols = 3 := rfl
  constructor
  · obtain ⟨out, h1, _, _, h4⟩ := rowsLoop_spec (exAOver T) ⟨3, [1, 1, 1]⟩ exAOver_valid
      (fun c hc => by
        simp only [exAOver, List.mem_cons, List.mem_singleton, List.not_mem_nil, or_false] at hc
        simp only [List.length_cons, List.length_nil]
        omega) 2 0
      (if res.size < 2 then List.replicate 2 (0 : T) else res.data) (by simp [exAOver])
      (resize_length res hres 2)
    refine ⟨⟨2, out⟩, ?_, rfl, ?_, ?_⟩
    · unfold spmv
      simp only [hrows, hcols, Bool.false_and, Bool.not_false, Bool.true_and,
        bne_self_eq_false, Bool.false_eq_true, if_false, h1]
    · rw [h4 0 (by omega) (by omega)]
      simp [rowSumSpec, exAOver, List.range']
      norm_num
    · rw [h4 1 (by omega) (by omega)]
      simp [rowSumSpec, exAOver, List.range']
  · obtain ⟨buf0, f1, f2, f3⟩ := fillN_spec
      (if res.size < 3 then List.replicate 3 (0 : T) else res.data) 3 0
      (resize_length res hres 3)
    obtain ⟨out, h1, _, h3⟩ := scatterRows_spec (exAOver T) ⟨2, [1, 1]⟩ exAOver_valid
      (by simp [exAOver]) 2 0 buf0 (by simp [exAOver]) (by rw [f2]; exact resize_length res hres 3)
    refine ⟨⟨3, out⟩, ?_, rfl, ?_, ?_, ?_⟩
    · unfold spmv
      simp only [hrows, hcols, Bool.true_and, Bool.not_true, Bool.false_and,
        bne_self_eq_false, Bool.false_eq_true, if_false, if_true, f1, h1]
    · rw [h3 0 0 (f3 0 (by omega))]
      simp [exAOver, List.range']
    · rw [h3 1 0 (f3 1 (by omega))]
      simp [exAOver, List.range']
    · rw [h3 2 0 (f3 2 (by omega))]
      simp [exAOver, List.range']

/-- Witness for C14: the theorem over the integers with an output vector holding stale
data. -/
theorem spmv_fixed_example_witness :
    DenseVector.Valid (⟨1, [7, 7]⟩ : DenseVector Int) ∧
    (∃ out, spmv ⟨1, [7, 7]⟩ (exAOver Int) ⟨3, [1, 1, 1]⟩ false = .ok out ∧ out.size = 2 ∧
        out.data[0]? = some 3 ∧ out.data[1]? = some 3) ∧
      (∃ out, spmv ⟨1, [7, 7]⟩ (exAOver Int) ⟨2, [1, 1]⟩ true = .ok out ∧ out.size = 3 ∧
        out.data[0]? = some 1 ∧ out.data[1]? = some 3 ∧ out.data[2]? = some 2) :=
  ⟨by decide, spmv_fixed_example ⟨1, [7, 7]⟩ (by decide)⟩

end FixedExample

/-! ## Byte layout written by `storeCSR` -/

section Layout

/-- C12 (amended). Stored byte layout: for every in-memory CSR matrix `M` with element
width `w = sizeof(T)`, the stream written by `storeCSR` is the 9 magic bytes
`48 6F 6C 61 01 43 53 52 01`, then the `p` padding bytes the compiler puts between
`magic[9]` and the first 8-byte member of the header record, then the four 8-byte
unsigned integers `w`, `rows`, `cols`, `nnz` (a header of `41 + p` bytes), immediately
followed by `nnz * w` value bytes, `4 * nnz` column-index bytes and `4 * (rows + 1)`
row-offset bytes; the values segment starts at byte offset `41 + p` and the total length
is `41 + p + nnz * (w + 4) + 4 * (rows + 1)`. -/
theorem storeCSR_layout {T : Type} [ObjRepr T] (padBytes : List Nat) (M : CSR T)
    (hd : M.data.length = M.nnz) (hc : M.col_ids.length = M.nnz)
    (hr : M.row_offsets.length = M.rows + 1) (hrep : M.Representable (ObjRepr.size T)) :
    ∃ bytes, storeCSR padBytes M true = .ok bytes ∧
      bytes = Magic ++ padBytes ++ leBytes 8 (ObjRepr.size T) ++ leBytes 8 M.rows
        ++ leBytes 8 M.cols ++ leBytes 8 M.nnz ++ M.data.flatMap ObjRepr.toBytes
        ++ M.col_ids.flatMap (leBytes 4) ++ M.row_offsets.flatMap (leBytes 4) ∧
      (M.data.flatMap ObjRepr.toBytes).length = M.nnz * ObjRepr.size T ∧
      (M.col_ids.flatMap (leBytes 4)).length = 4 * M.nnz ∧
      (M.row_offsets.flatMap (leBytes 4)).length = 4 * (M.rows + 1) ∧
      (bytes.drop (41 + padBytes.length)).take (M.nnz * ObjRepr.size T)
        = M.data.flatMap ObjRepr.toBytes ∧
      bytes.length = 41 + padBytes.length + M.nnz * (ObjRepr.size T + 4) + 4 * (M.rows + 1) := by
  have hb1 := hrep.data_bytes
  have hb2 := hrep.col_ids_bytes
  have hb3 := hrep.row_offsets_bytes
  have n1 : M.nnz * ObjRepr.size T % 2 ^ 64 = M.data.length * ObjRepr.size T := by
    rw [hd] at hb1 ⊢
    exact Nat.mod_eq_of_lt hb1
  have n2 : M.nnz * 4 % 2 ^ 64 = M.col_ids.length * 4 := by
    rw [hc] at hb2 ⊢
    exact Nat.mod_eq_of_lt hb2
  have n0 : (M.rows + 1) % 2 ^ 64 = M.rows + 1 := by
    rw [hr] at hb3
    exact Nat.mod_eq_of_lt (by omega)
  have n3 : (M.rows + 1) % 2 ^ 64 * 4 % 2 ^ 64 = M.row_offsets.length * 4 := by
    rw [n0]
    rw [hr] at hb3 ⊢
    exact Nat.mod_eq_of_lt hb3
  have henc4 : ∀ x, (leBytes 4 x).length = 4 := leBytes_length 4
  have l1 : (M.data.flatMap ObjRepr.toBytes).length = M.nnz * ObjRepr.size T := by
    rw [length_flatMap_const _ _ ObjRepr.toBytes_length, hd]
  have l2 : (M.col_ids.flatMap (leBytes 4)).length = 4 * M.nnz := by
    rw [length_flatMap_const _ _ henc4, hc, Nat.mul_comm]
  have l3 : (M.row_offsets.flatMap (leBytes 4)).length = 4 * (M.rows + 1) := by
    rw [length_flatMap_const _ _ henc4, hr, Nat.mul_comm]
  have hmag := CSRIOHeader.ofCSR_magic (ObjRepr.size T) M
  have hstore : storeCSR padBytes M true = .ok
      (Magic ++ padBytes ++ leBytes 8 (ObjRepr.size T) ++ leBytes 8 M.rows
        ++ leBytes 8 M.cols ++ leBytes 8 M.nnz ++ M.data.flatMap ObjRepr.toBytes
        ++ M.col_ids.flatMap (leBytes 4) ++ M.row_offsets.flatMap (leBytes 4)) := by
    simp only [storeCSR, n1, n2, n3, writeArray_exact _ _ ObjRepr.toBytes_length,
      writeArray_exact _ _ henc4, CSRIOHeader.toBytes, hmag]
    rfl
  have hhead : (Magic ++ padBytes ++ leBytes 8 (ObjRepr.size T) ++ leBytes 8 M.rows
      ++ leBytes 8 M.cols ++ leBytes 8 M.nnz).length = 41 + padBytes.length := by
    simp only [List.length_append, leBytes_length, Magic_length]
    omega
  refine ⟨_, hstore, rfl, l1, l2, l3, ?_, ?_⟩
  · rw [List.append_assoc, List.append_assoc, List.drop_left' hhead, List.take_left' l1]
  · rw [List.length_append, List.length_append, List.length_append, hhead, l1, l2, l3]
    ring

/-- Witness for C12 (amended): the theorem applied to the §8 matrix with 4-byte elements
and the seven padding bytes of the x86-64 layout. -/
theorem storeCSR_layout_witness :
    exW.Representable 4 ∧
    ∃ bytes, storeCSR pad7 exW true = .ok bytes ∧
      bytes = Magic ++ pad7 ++ leBytes 8 4 ++ leBytes 8 exW.rows
        ++ leBytes 8 exW.cols ++ leBytes 8 exW.nnz ++ exW.data.flatMap ObjRepr.toBytes
        ++ exW.col_ids.flatMap (leBytes 4) ++ exW.row_offsets.flatMap (leBytes 4) ∧
      (exW.data.flatMap ObjRepr.toBytes).length = exW.nnz * 4 ∧
      (exW.col_ids.flatMap (leBytes 4)).length = 4 * exW.nnz ∧
      (exW.row_offsets.flatMap (leBytes 4)).length = 4 * (exW.rows + 1) ∧
      (bytes.drop (41 + pad7.length)).take (exW.nnz * 4) = exW.data.flatMap ObjRepr.toBytes ∧
      bytes.length = 41 + pad7.length + exW.nnz * (4 + 4) + 4 * (exW.rows + 1) :=
  ⟨exW_representable, storeCSR_layout pad7 exW rfl rfl rfl exW_representable⟩

/-- Counterexample to C12 as stated.  Under the natural 8-byte alignment of `uint64_t`
the header record has 7 padding bytes after `magic[9]`; for the §8 matrix with 4-byte
elements the stream is then 84 bytes long, not `41 + 3 * (4 + 4) + 4 * 3 = 77`, the
bytes at offsets 9 to 16 are padding followed by the first byte of the element size
instead of the element size, and the values segment starts at offset 48, not 41. -/
theorem storeCSR_layout_counterexample :
    ∃ bytes, storeCSR pad7 exW true = .ok bytes ∧
      bytes.length = 84 ∧
      bytes.length ≠ 41 + exW.nnz * (4 + 4) + 4 * (exW.rows + 1) ∧
      (bytes.drop 9).take 8 ≠ leBytes 8 4 ∧
      (bytes.drop 41).take (exW.nnz * 4) ≠ exW.data.flatMap ObjRepr.toBytes ∧
      (bytes.drop 48).take (exW.nnz * 4) = exW.data.flatMap ObjRepr.toBytes := by
  refine ⟨_, (by decide : storeCSR pad7 exW true = .ok
    (Magic ++ pad7 ++ leBytes 8 4 ++ leBytes 8 exW.rows ++ leBytes 8 exW.cols ++
      leBytes 8 exW.nnz ++ exW.data.flatMap ObjRepr.toBytes ++
      exW.col_ids.flatMap (leBytes 4) ++ exW.row_offsets.flatMap (leBytes 4))), ?_⟩
  decide

end Layout


/-! ## More facts about `convert` -/

section ConvertMore
variable {T : Type}

/-- The copy loop never changes the shape fields. -/
theorem copyLoop_shape (entries : List (Entry T)) :
    ∀ (n i : Nat) (res res1 : CSR T), copyLoop entries n i res = some res1 →
      res1.rows = res.rows ∧ res1.cols = res.cols ∧ res1.nnz = res.nnz := by
  intro n
  induction n with
  | zero =>
    intro i res res1 h
    simp only [copyLoop, Option.some.injEq] at h
    rw [h]
    exact ⟨rfl, rfl, rfl⟩
  | succ n ih =>
    intro i res res1 h
    rw [copyLoop] at h
    split at h
    · split at h
      · have h2 := ih _ _ _ h
        exact h2
      · cases h
    · cases h

/-- Whenever `convert` returns a matrix, on any input, it has the shape of the input. -/
theorem convert_shape_of_ok [Zero T] (sort : List (Entry T) → List (Entry T)) (coo : COO T)
    (res : CSR T) (h : convert sort coo = .ok res) :
    res.rows = coo.rows ∧ res.cols = coo.cols ∧ res.nnz = coo.nnz := by
  unfold convert at h
  split at h
  · cases h
  · simp only at h
    split at h
    · cases h
    · split at h
      · cases h
      · rename_i hcopy
        split at h
        · cases h
        · split at h
          · cases h
          · cases h
            exact copyLoop_shape _ _ _ _ _ hcopy

/-- C16 (amended). Shape preservation: for every COO matrix with three sequences of
length `nnz`, row ids below `rows` and `rows + 1` representable in `size_t`, `convert`
returns a CSR matrix with `rows = coo.rows`, `cols = coo.cols` and `nnz = coo.nnz`
(duplicate triplets are each counted; `nnz` may be any value). -/
theorem convert_preserves_shape [Zero T] (sort : List (Entry T) → List (Entry T))
    (hs : IsStdSort sort) (coo : COO T) (hwf : coo.WellFormed)
    (hrow : ∀ r ∈ coo.row_ids, r < coo.rows) (hrows : coo.rows + 1 < 2 ^ 64) :
    ∃ res, convert sort coo = .ok res ∧
      res.rows = coo.rows ∧ res.cols = coo.cols ∧ res.nnz = coo.nnz :=
  ⟨_, convert_eq sort (fun l => (hs l).1) coo hwf hrow hrows, rfl, rfl, rfl⟩

/-- Witness for C16 (amended): the theorem applied to the sample COO matrix, which has a
duplicate position. -/
theorem convert_preserves_shape_witness :
    exCOO.rows + 1 < 2 ^ 64 ∧
    ∃ res, convert insertionStdSort exCOO = .ok res ∧
      res.rows = exCOO.rows ∧ res.cols = exCOO.cols ∧ res.nnz = exCOO.nnz :=
  ⟨by decide, convert_preserves_shape insertionStdSort insertionStdSort_isStdSort exCOO
    exCOO_wellFormed (by decide) (by decide)⟩

theorem convert_exBadRowCOO : convert insertionStdSort exBadRowCOO = .ub := by
  decide

/-- Counterexample to C16 as stated, in two COO matrices.  A 1×1 matrix whose only triplet
has row id 3: the counting pass increments `row_offsets[3]` in an array of two slots.
A matrix with no triplet and `rows = 2^64 - 1`: the offset array has no slot.  In both
cases `convert` runs into undefined behaviour and produces no matrix. -/
theorem convert_preserves_shape_counterexample :
    (exBadRowCOO.WellFormed ∧ convert insertionStdSort exBadRowCOO = .ub ∧
      ¬ ∃ res, convert insertionStdSort exBadRowCOO = .ok res ∧ res.rows = exBadRowCOO.rows ∧
        res.cols = exBadRowCOO.cols ∧ res.nnz = exBadRowCOO.nnz) ∧
    (maxRowsCOO.WellFormed ∧ convert insertionStdSort maxRowsCOO = .ub ∧
      ¬ ∃ res, convert insertionStdSort maxRowsCOO = .ok res ∧ res.rows = maxRowsCOO.rows ∧
        res.cols = maxRowsCOO.cols ∧ res.nnz = maxRowsCOO.nnz) := by
  refine ⟨⟨⟨rfl, rfl, rfl⟩, convert_exBadRowCOO, ?_⟩,
    ⟨maxRowsCOO_wellFormed, convert_maxRowsCOO, ?_⟩⟩
  · rintro ⟨res, h, _⟩
    rw [convert_exBadRowCOO] at h
    exact Outcome.noConfusion h
  · rintro ⟨res, h, _⟩
    rw [convert_maxRowsCOO] at h
    exact Outcome.noConfusion h

theorem COO.WellFormed.mem_triplets_of_row_mem {coo : COO T} (h : coo.WellFormed) {r : Nat}
    (hr : r ∈ coo.row_ids) : ∃ e ∈ coo.triplets, e.r = r := by
  obtain ⟨i, hi⟩ := List.mem_iff_getElem?.mp hr
  have hlt : i < coo.nnz := by
    rw [← h.row_ids_length]
    exact (List.getElem?_eq_some_iff.mp hi).1
  obtain ⟨r1, c, v, h1, _, _, h4⟩ := h.triplets_getElem? hlt
  rw [hi] at h1
  cases h1
  exact ⟨_, List.mem_iff_getElem?.mpr ⟨i, h4⟩, rfl⟩

/-- A rearrangement ordered by `operator<` is unique when no two entries share their
(row, column) pair. -/
theorem sorted_unique {l1 l2 : List (Entry T)} (hp : l1.Perm l2)
    (h1 : l1.Pairwise Entry.le) (h2 : l2.Pairwise Entry.le)
    (hnd : l1.Pairwise (fun a b => ¬ (a.r = b.r ∧ a.c = b.c))) : l1 = l2 := by
  have hsymm : ∀ {x y : Entry T}, ¬ (x.r = y.r ∧ x.c = y.c) → ¬ (y.r = x.r ∧ y.c = x.c) :=
    fun h hh => h ⟨hh.1.symm, hh.2.symm⟩
  have hnd2 : l2.Pairwise (fun a b => ¬ (a.r = b.r ∧ a.c = b.c)) :=
    (hp.pairwise_iff hsymm).mp hnd
  haveI : IsAntisymm (Entry T) (fun a b => a.r < b.r ∨ (a.r = b.r ∧ a.c < b.c)) :=
    ⟨fun a b hab hba => by exfalso; omega⟩
  have strict : ∀ {a b : Entry T}, Entry.le a b ∧ ¬ (a.r = b.r ∧ a.c = b.c) →
      a.r < b.r ∨ (a.r = b.r ∧ a.c < b.c) := by
    intro a b ⟨hle, hne⟩
    rw [Entry.le_iff] at hle
    omega
  exact List.eq_of_perm_of_sorted hp ((h1.and hnd).imp strict) ((h2.and hnd2).imp strict)

/-- C13 (amended). Canonical form: for every two COO matrices with the same `rows` and
`cols` whose triplet lists are rearrangements of each other, with `rows + 1`
representable in `size_t`, row ids below `rows` and no two triplets sharing the same
(row, column) pair, `convert` returns a matrix for both and the two matrices are equal,
whichever admissible `std::sort` each call uses. -/
theorem convert_canonical [Zero T] (sort1 sort2 : List (Entry T) → List (Entry T))
    (hs1 : IsStdSort sort1) (hs2 : IsStdSort sort2) (coo1 coo2 : COO T)
    (hwf1 : coo1.WellFormed) (hwf2 : coo2.WellFormed)
    (hr : coo1.rows = coo2.rows) (hc : coo1.cols = coo2.cols)
    (hperm : coo1.triplets.Perm coo2.triplets)
    (hrow : ∀ r ∈ coo1.row_ids, r < coo1.rows)
    (hnd : coo1.triplets.Pairwise (fun a b => ¬ (a.r = b.r ∧ a.c = b.c)))
    (hrows : coo1.rows + 1 < 2 ^ 64) :
    ∃ res, convert sort1 coo1 = .ok res ∧ convert sort2 coo2 = .ok res := by
  have hrow2 : ∀ r ∈ coo2.row_ids, r < coo2.rows := by
    intro r hr2
    obtain ⟨e, he, rfl⟩ := hwf2.mem_triplets_of_row_mem hr2
    rw [← hr]
    exact hrow _ (COO.row_mem_of_mem_triplets (hperm.mem_iff.mpr he))
  have hnnz : coo1.nnz = coo2.nnz := by
    rw [← hwf1.triplets_length, ← hwf2.triplets_length]
    exact hperm.length_eq
  have hsorted : sort1 coo1.triplets = sort2 coo2.triplets :=
    sorted_unique ((hs1 _).1.trans (hperm.trans (hs2 _).1.symm)) (hs1 _).2 (hs2 _).2
      (((hs1 coo1.triplets).1.pairwise_iff
        (fun {x y} (h : ¬ (x.r = y.r ∧ x.c = y.c)) hh => h ⟨hh.1.symm, hh.2.symm⟩)).mpr hnd)
  refine ⟨_, convert_eq sort1 (fun l => (hs1 l).1) coo1 hwf1 hrow hrows, ?_⟩
  rw [convert_eq sort2 (fun l => (hs2 l).1) coo2 hwf2 hrow2 (by rw [← hr]; exact hrows),
    hsorted, hr, hc, hnnz]

theorem exCOO1_wellFormed : exCOO1.WellFormed := ⟨rfl, rfl, rfl⟩

theorem exCOO2_wellFormed : exCOO2.WellFormed := ⟨rfl, rfl, rfl⟩

/-- Witness for C13 (amended): the theorem applied to the §8 matrix given as triplets in
two different orders. -/
theorem convert_canonical_witness :
    (exCOO1.triplets.Perm exCOO2.triplets ∧ exCOO1.rows + 1 < 2 ^ 64) ∧
    ∃ res, convert insertionStdSort exCOO1 = .ok res ∧
      convert insertionStdSort exCOO2 = .ok res :=
  ⟨by decide, convert_canonical insertionStdSort insertionStdSort insertionStdSort_isStdSort
    insertionStdSort_isStdSort exCOO1 exCOO2 exCOO1_wellFormed exCOO2_wellFormed rfl rfl
    (by decide) (by decide) (by decide) (by decide)⟩

/-- Counterexample to C13 as stated: the COO matrix with no triplet and
`rows = 2^64 - 1` meets every hypothesis of the claim when taken as both inputs (its
triplet list is a rearrangement of itself, no row id is out of range, no position is
repeated), yet `convert` returns no matrix for it. -/
theorem convert_canonical_counterexample :
    (maxRowsCOO.WellFormed ∧ maxRowsCOO.triplets.Perm maxRowsCOO.triplets ∧
      (∀ r ∈ maxRowsCOO.row_ids, r < maxRowsCOO.rows) ∧
      maxRowsCOO.triplets.Pairwise (fun a b => ¬ (a.r = b.r ∧ a.c = b.c))) ∧
    ¬ ∃ res, convert insertionStdSort maxRowsCOO = .ok res ∧
      convert insertionStdSort maxRowsCOO = .ok res := by
  refine ⟨⟨maxRowsCOO_wellFormed, List.Perm.refl _, fun _ h => absurd h (List.not_mem_nil _),
    List.Pairwise.nil⟩, ?_⟩
  rintro ⟨res, h, _⟩
  rw [convert_maxRowsCOO] at h
  exact Outcome.noConfusion h

/-- As long as no row count can reach `2^32`, the checked copy loop and the copy loop
of the source do the same. -/
theorem copyLoopNoWrap_eq (entries : List (Entry T)) :
    ∀ (n i : Nat) (res : CSR T),
      (∀ j k, res.row_offsets[j]? = some k →
        k + ((entries.drop i).take n).countP (fun e => e.r = j) < 2 ^ 32) →
      copyLoopNoWrap entries n i res = copyLoop entries n i res := by
  intro n
  induction n with
  | zero => intro i res _; rfl
  | succ n ih =>
    intro i res hb
    rw [copyLoopNoWrap, copyLoop]
    cases he : entries[i]? with
    | none => rfl
    | some e =>
      obtain ⟨hi, hget⟩ := List.getElem?_eq_some_iff.mp he
      have hsl : (entries.drop i).take (n + 1) = e :: (entries.drop (i + 1)).take n := by
        rw [List.drop_eq_getElem_cons hi, List.take_succ_cons, hget]
      simp only
      cases hd : writeAt res.data i e.v with
      | none => rfl
      | some d =>
        cases hc : writeAt res.col_ids i e.c with
        | none => rfl
        | some c =>
          cases hk : res.row_offsets[e.r]? with
          | none => rfl
          | some k =>
            have hbk := hb e.r k hk
            rw [hsl, List.countP_cons] at hbk
            simp only [decide_True, if_true] at hbk
            have hlt : k + 1 < 2 ^ 32 := by omega
            simp only [hlt, if_true, Nat.mod_eq_of_lt hlt]
            apply ih
            intro j k2 hj
            have hbj := hb j
            rw [hsl, List.countP_cons] at hbj
            simp only at hj
            by_cases hjr : e.r = j
            · subst hjr
              rw [List.getElem?_set_eq_of_lt _ (List.getElem?_eq_some_iff.mp hk).1] at hj
              cases hj
              have := hbj k hk
              simp only [decide_True, if_true] at this
              omega
            · rw [List.getElem?_set_ne hjr] at hj
              have := hbj k2 hj
              simp only [hjr, decide_False, Bool.false_eq_true, if_false, Nat.add_zero] at this
              exact this

/-- As long as the running offset cannot reach `2^32`, the checked prefix-sum loop and
the prefix-sum loop of the source do the same. -/
theorem prefixLoopNoWrap_eq :
    ∀ (n i off : Nat) (ro : List Nat), off + ((ro.drop i).take n).sum < 2 ^ 32 →
      prefixLoopNoWrap n i off ro = prefixLoop n i off ro := by
  intro n
  induction n with
  | zero => intro i off ro _; rfl
  | succ n ih =>
    intro i off ro hb
    rw [prefixLoopNoWrap, prefixLoop]
    cases hk : ro[i]? with
    | none => rfl
    | some k =>
      obtain ⟨hi, hget⟩ := List.getElem?_eq_some_iff.mp hk
      rw [List.drop_eq_getElem_cons hi, List.take_succ_cons, hget, List.sum_cons] at hb
      have hlt : off + k < 2 ^ 32 := by omega
      simp only [hlt, if_true, Nat.mod_eq_of_lt hlt]
      apply ih
      rw [List.drop_set_of_lt _ _ (show i < i + 1 by omega)]
      omega

/-- The row counts of rows `0 .. n-1` add up to the number of entries in rows below `n`. -/
theorem sum_row_counts (l : List (Entry T)) (n : Nat) :
    ((List.range n).map (fun j => l.countP (fun e => e.r = j))).sum
      = l.countP (fun e => e.r < n) := by
  induction n with
  | zero => simp
  | succ n ih =>
    rw [List.range_succ, List.map_append, List.sum_append, ih, countP_row_succ]
    simp

/-- State after the counting pass of `convert`: slot `j` of the offset array holds the
number of sorted entries in row `j`, reduced modulo `2^32`. -/
theorem copyLoop_counts [Zero T] (sort : List (Entry T) → List (Entry T))
    (hperm : ∀ l, (sort l).Perm l) (coo : COO T)
    (hwf : coo.WellFormed) (hrow : ∀ r ∈ coo.row_ids, r < coo.rows) :
    ∃ res1, copyLoop (sort coo.triplets) coo.nnz 0
        (⟨coo.rows, coo.cols, coo.nnz, List.replicate coo.nnz 0, List.replicate coo.nnz 0,
          List.replicate (coo.rows + 1) 0⟩ : CSR T) = some res1 ∧
      res1.row_offsets.length = coo.rows + 1 ∧
      ∀ j, j < coo.rows + 1 → res1.row_offsets[j]? =
        some ((sort coo.triplets).countP (fun e => e.r = j) % 2 ^ 32) := by
  have hlen : (sort coo.triplets).length = coo.nnz :=
    (hperm _).length_eq.trans hwf.triplets_length
  obtain ⟨res1, k1, _, _, _, _, _, k7⟩ := copyLoop_spec (sort coo.triplets) coo.nnz 0
    (⟨coo.rows, coo.cols, coo.nnz, List.replicate coo.nnz 0, List.replicate coo.nnz 0,
      List.replicate (coo.rows + 1) 0⟩ : CSR T)
    (by omega) (by simp) (by simp)
    (fun e he => by
      have := hrow _ (COO.row_mem_of_mem_triplets ((hperm _).mem_iff.mp he))
      simp only [List.length_replicate]
      omega)
    (fun k hk => by
      rw [List.eq_of_mem_replicate hk]
      decide)
  have hro : ∀ j, j < coo.rows + 1 → res1.row_offsets[j]? =
      some ((sort coo.triplets).countP (fun e => e.r = j) % 2 ^ 32) := by
    intro j hj
    rw [k7 j]
    simp [List.getElem?_replicate, hj, ← hlen]
  refine ⟨res1, k1, ?_, hro⟩
  by_contra hne
  rcases Nat.lt_or_gt_of_ne hne with h | h
  · have h1 := hro res1.row_offsets.length h
    rw [List.getElem?_eq_none (Nat.le_refl _)] at h1
    exact Option.noConfusion h1
  · have h1 := k7 (coo.rows + 1)
    rw [List.getElem?_eq_getElem h] at h1
    simp [List.getElem?_replicate] at h1

/-- C20 (amended). `convert` stays in bounds and its 32-bit offsets never wrap: for every
COO matrix whose three sequences have length `nnz`, with `rows + 1` representable in
`size_t`, row ids below `rows` and `nnz < 2^32`, `alloc` provides arrays of lengths
`nnz`, `nnz` and `rows + 1`, the last one all zero, and the run of `convert` in which
every array access and every 32-bit increment and addition is checked returns normally,
with the same matrix as `convert` itself. -/
theorem convert_in_bounds_no_wrap [Zero T] (sort : List (Entry T) → List (Entry T))
    (hs : IsStdSort sort) (coo : COO T) (hwf : coo.WellFormed)
    (hrow : ∀ r ∈ coo.row_ids, r < coo.rows)
    (hrows : coo.rows + 1 < 2 ^ 64) (hnnz : coo.nnz < 2 ^ 32) :
    ((CSR.alloc coo.rows coo.cols coo.nnz : CSR T).data.length = coo.nnz ∧
      (CSR.alloc coo.rows coo.cols coo.nnz : CSR T).col_ids.length = coo.nnz ∧
      (CSR.alloc coo.rows coo.cols coo.nnz : CSR T).row_offsets
        = List.replicate (coo.rows + 1) 0) ∧
    ∃ res, convertNoWrap sort coo = .ok res ∧ convert sort coo = .ok res := by
  have hperm := fun l => (hs l).1
  have hmod : (coo.rows + 1) % 2 ^ 64 = coo.rows + 1 := Nat.mod_eq_of_lt hrows
  have hlen : (sort coo.triplets).length = coo.nnz :=
    (hperm _).length_eq.trans hwf.triplets_length
  refine ⟨⟨by simp [CSR.alloc], by simp [CSR.alloc], by simp only [CSR.alloc, hmod]⟩, ?_⟩
  obtain ⟨res1, c1, c2, c3⟩ := copyLoop_counts sort hperm coo hwf hrow
  have hcount : ∀ j, (sort coo.triplets).countP (fun e => e.r = j) < 2 ^ 32 := by
    intro j
    have := List.countP_le_length (fun e : Entry T => decide (e.r = j)) (l := sort coo.triplets)
    omega
  have e1 : copyLoopNoWrap (sort coo.triplets) coo.nnz 0
      (⟨coo.rows, coo.cols, coo.nnz, List.replicate coo.nnz 0, List.replicate coo.nnz 0,
        List.replicate (coo.rows + 1) 0⟩ : CSR T) = some res1 := by
    rw [copyLoopNoWrap_eq _ _ _ _ (fun j k hk => by
      have hk0 : k = 0 := List.eq_of_mem_replicate (List.mem_iff_getElem?.mpr ⟨j, hk⟩)
      have := List.countP_le_length (fun e : Entry T => decide (e.r = j))
        (l := ((sort coo.triplets).drop 0).take coo.nnz)
      simp only [List.length_take, List.length_drop] at this
      omega), c1]
  have htake : res1.row_offsets.take coo.rows
      = (List.range coo.rows).map (fun j => (sort coo.triplets).countP (fun e => e.r = j)) := by
    apply List.ext_getElem?
    intro j
    rw [List.getElem?_map]
    by_cases hj : j < coo.rows
    · rw [List.getElem?_take_of_lt hj, c3 j (by omega), List.getElem?_range hj,
        Nat.mod_eq_of_lt (hcount j)]
      rfl
    · rw [List.getElem?_eq_none (by simp only [List.length_take]; omega),
        List.getElem?_eq_none (by simp only [List.length_range]; omega)]
      rfl
  have e2 : prefixLoopNoWrap coo.rows 0 0 res1.row_offsets
      = prefixLoop coo.rows 0 0 res1.row_offsets := by
    apply prefixLoopNoWrap_eq
    rw [List.drop_zero, htake, sum_row_counts]
    have := List.countP_le_length (fun e : Entry T => decide (e.r < coo.rows))
      (l := sort coo.triplets)
    omega
  have hconv := convert_eq_small sort hperm coo hwf hrow hrows hnnz
  refine ⟨_, ?_, hconv⟩
  rw [← hconv]
  have hfill : fillN (List.replicate (coo.rows + 1) 0) 0 0
      = some (List.replicate (coo.rows + 1) 0) := by
    simp [fillN]
  simp only [convertNoWrap, convert, gatherLoop_all coo hwf, CSR.alloc, hmod, hfill, e1, c1, e2]

/-- Witness for C20 (amended): the theorem applied to the sample COO matrix. -/
theorem convert_in_bounds_no_wrap_witness :
    (exCOO.rows + 1 < 2 ^ 64 ∧ exCOO.nnz < 2 ^ 32) ∧
    ((CSR.alloc exCOO.rows exCOO.cols exCOO.nnz : CSR Int).data.length = exCOO.nnz ∧
      (CSR.alloc exCOO.rows exCOO.cols exCOO.nnz : CSR Int).col_ids.length = exCOO.nnz ∧
      (CSR.alloc exCOO.rows exCOO.cols exCOO.nnz : CSR Int).row_offsets
        = List.replicate (exCOO.rows + 1) 0) ∧
    ∃ res, convertNoWrap insertionStdSort exCOO = .ok res ∧
      convert insertionStdSort exCOO = .ok res :=
  ⟨by decide, convert_in_bounds_no_wrap insertionStdSort insertionStdSort_isStdSort exCOO
    exCOO_wellFormed (by decide) (by decide) (by decide)⟩

/-- Counterexample to C20 as stated: the COO matrix with no triplet and
`rows = 2^64 - 1` has three sequences of length `nnz = 0 < 2^32` and no row id out of
range, but `alloc` gives `row_offsets` no slot instead of `rows + 1`, and the first read
`row_offsets[0]` of the prefix-sum loop is outside the array. -/
theorem convert_in_bounds_no_wrap_counterexample :
    (maxRowsCOO.WellFormed ∧ (∀ r ∈ maxRowsCOO.row_ids, r < maxRowsCOO.rows) ∧
      maxRowsCOO.nnz < 2 ^ 32) ∧
    (CSR.alloc maxRowsCOO.rows maxRowsCOO.cols maxRowsCOO.nnz : CSR Int).row_offsets.length = 0 ∧
    (CSR.alloc maxRowsCOO.rows maxRowsCOO.cols maxRowsCOO.nnz : CSR Int).row_offsets.length
      ≠ maxRowsCOO.rows + 1 ∧
    convert insertionStdSort maxRowsCOO = .ub := by
  refine ⟨⟨maxRowsCOO_wellFormed, fun _ h => absurd h (List.not_mem_nil _), by decide⟩,
    by decide, by decide, convert_maxRowsCOO⟩

/-- The matrix described by the closed form of `convert` satisfies the §3 invariants. -/
theorem convertResult_valid (sorted : List (Entry T)) (coo : COO T) (hwf : coo.WellFormed)
    (hperm : sorted.Perm coo.triplets)
    (hrow : ∀ r ∈ coo.row_ids, r < coo.rows) (hcol : ∀ c ∈ coo.col_ids, c < coo.cols) :
    (⟨coo.rows, coo.cols, coo.nnz, sorted.map Entry.v, sorted.map Entry.c,
      (List.range (coo.rows + 1)).map
        (fun j => coo.triplets.countP (fun e => e.r < j))⟩ : CSR T).Valid := by
  have hlen : sorted.length = coo.nnz := hperm.length_eq.trans hwf.triplets_length
  refine ⟨by simp [hlen], by simp [hlen], by simp, ?_, ?_, ?_, ?_⟩
  · intro c hc
    simp only [List.mem_map] at hc
    obtain ⟨e, he, rfl⟩ := hc
    exact hcol _ (COO.col_mem_of_mem_triplets (hperm.mem_iff.mp he))
  · simp only
    rw [List.pairwise_map]
    refine List.Pairwise.imp ?_ (List.pairwise_lt_range (coo.rows + 1))
    intro a b hab
    apply List.countP_mono_left
    intro e _ he
    simp only [decide_eq_true_eq] at he ⊢
    omega
  · simp only
    rw [getElem?_offsets _ _ 0 (by omega)]
    simp
  · simp only
    rw [getElem?_offsets _ _ coo.rows (by omega), ← hwf.triplets_length,
      List.countP_eq_length.mpr]
    intro e he
    simpa using hrow _ (COO.row_mem_of_mem_triplets he)

/-- In a valid matrix the column index stored at offset `k` of row `r` is below `cols`. -/
theorem CSR.Valid.col_getD_lt {m : CSR T} (hm : m.Valid) {r k : Nat} (hr : r < m.rows)
    (hk : k < m.row_offsets.getD (r + 1) 0 - m.row_offsets.getD r 0) :
    m.col_ids.getD (m.row_offsets.getD r 0 + k) 0 < m.cols := by
  obtain ⟨lo, hlo⟩ := hm.offset_some (show r ≤ m.rows by omega)
  obtain ⟨hi, hhi⟩ := hm.offset_some (show r + 1 ≤ m.rows by omega)
  have hnnz : hi ≤ m.nnz := hm.offset_le_nnz hhi
  rw [getD_of_getElem? 0 hlo, getD_of_getElem? 0 hhi] at hk
  rw [getD_of_getElem? 0 hlo]
  have hlt : lo + k < m.col_ids.length := by rw [hm.col_ids_length]; omega
  rw [List.getD_eq_getElem _ _ hlt]
  exact hm.col_bound _ (List.getElem_mem hlt)

end ConvertMore

/-! ## `convert` followed by `spmv`, and the transpose relation -/

section EndToEnd
variable {T : Type} [CommRing T]

/-- The row fold of `spmv` over the offsets `s .. s+n-1` of arrays that were copied from a
list of entries is the fold over those entries. -/
theorem foldl_slice (l : List (Entry T)) (x : List T) :
    ∀ (n s : Nat) (a : T), s + n ≤ l.length →
      (List.range' s n).foldl (fun acc e =>
          acc + (l.map Entry.v).getD e 0 * x.getD ((l.map Entry.c).getD e 0) 0) a
        = ((l.drop s).take n).foldl (fun acc e => acc + e.v * x.getD e.c 0) a := by
  intro n
  induction n with
  | zero => intro s a _; simp
  | succ n ih =>
    intro s a h
    have hs : s < l.length := by omega
    have e1 : (l.map Entry.v).getD s 0 = l[s].v := by
      rw [List.getD_eq_getElem _ _ (by simpa using hs), List.getElem_map]
    have e2 : (l.map Entry.c).getD s 0 = l[s].c := by
      rw [List.getD_eq_getElem _ _ (by simpa using hs), List.getElem_map]
    rw [List.range'_succ, List.foldl_cons, List.drop_eq_getElem_cons hs, List.take_succ_cons,
      List.foldl_cons, ih (s + 1) _ (by omega), e1, e2]

theorem foldl_add_eq_sum_map {α : Type} (h : α → T) (l : List α) :
    l.foldl (fun acc e => acc + h e) 0 = (l.map h).sum := by
  rw [List.sum_eq_foldl, List.foldl_map]

/-- C17 (amended). Converting then multiplying computes the COO matrix-vector product:
over a commutative ring of elements, for every COO matrix with three sequences of length
`nnz`, `rows + 1` representable in `size_t`, `nnz < 2^32`, row ids below `rows` and
column ids below `cols`, every input `x` of size `cols` and every output vector (dense
vectors in the sense of §3), `convert` returns a matrix and `spmv` on it, non-transposed,
returns an output of size `rows` with, for every row `r`, `output[r]` equal to the sum
over all triplets `(r, c, v)` with that row id of `v * x[c]`; duplicates add up. -/
theorem convert_then_spmv (sort : List (Entry T) → List (Entry T)) (hs : IsStdSort sort)
    (coo : COO T) (x res : DenseVector T) (hwf : coo.WellFormed)
    (hrow : ∀ r ∈ coo.row_ids, r < coo.rows) (hcol : ∀ c ∈ coo.col_ids, c < coo.cols)
    (hrows : coo.rows + 1 < 2 ^ 64) (hnnz : coo.nnz < 2 ^ 32)
    (hx : x.Valid) (hres : res.Valid) (hsize : x.size = coo.cols) :
    ∃ csr out, convert sort coo = .ok csr ∧ spmv res csr x false = .ok out ∧
      out.size = coo.rows ∧
      ∀ r, r < coo.rows → out.data[r]? = some
        (((coo.triplets.filter (fun e => e.r = r)).map
          (fun e => e.v * x.data.getD e.c 0)).sum) := by
  have hperm := fun l => (hs l).1
  have hx1 : x.size ≤ x.data.length := hx
  have hlen : (sort coo.triplets).length = coo.nnz :=
    (hperm _).length_eq.trans hwf.triplets_length
  have hvalid := convertResult_valid (sort coo.triplets) coo hwf (hperm _) hrow hcol
  obtain ⟨out, h1, _, _, h4⟩ := rowsLoop_spec _ x hvalid
    (fun c hc => by have := hvalid.col_bound c hc; simp only at this; omega) coo.rows 0
    (if res.size < coo.rows then List.replicate coo.rows (0 : T) else res.data) (by simp)
    (resize_length res hres coo.rows)
  refine ⟨_, ⟨coo.rows, out⟩, convert_eq_small sort hperm coo hwf hrow hrows hnnz, ?_, rfl, ?_⟩
  · simp [spmv, hsize, h1]
  · intro r hr
    rw [h4 r (Nat.zero_le r) (by omega)]
    congr 1
    have hlo := getD_of_getElem? 0 (getElem?_offsets coo.triplets (coo.rows + 1) r (by omega))
    have hhi := getD_of_getElem? 0
      (getElem?_offsets coo.triplets (coo.rows + 1) (r + 1) (by omega))
    have hsl := slice_eq_filter (sort coo.triplets) ((hs coo.triplets).2.imp Entry.le_row) r
    have hfl : ((sort coo.triplets).filter (fun e => decide (e.r = r))).length
        = (sort coo.triplets).countP (fun e => decide (e.r = r)) :=
      (List.countP_eq_length_filter _ _).symm
    rw [← hsl] at hfl
    simp only [List.length_take, List.length_drop] at hfl
    have hle := List.countP_le_length (fun e : Entry T => decide (e.r < r))
      (l := sort coo.triplets)
    unfold rowSumSpec
    simp only
    rw [hlo, hhi, countP_row_succ, Nat.add_sub_cancel_left,
      ← (hperm coo.triplets).countP_eq, ← (hperm coo.triplets).countP_eq,
      foldl_slice _ _ _ _ _ (by omega), hsl, foldl_add_eq_sum_map]
    exact (((hperm coo.triplets).filter _).map _).sum_eq

/-- Witness for C17 (amended): the theorem applied to the sample COO matrix, which has a
duplicate position, with input `[1, 2, 3, 4]`. -/
theorem convert_then_spmv_witness :
    (exCOO.rows + 1 < 2 ^ 64 ∧ exCOO.nnz < 2 ^ 32 ∧
      DenseVector.Valid (⟨4, [1, 2, 3, 4]⟩ : DenseVector Int)) ∧
    ∃ csr out, convert insertionStdSort exCOO = .ok csr ∧
      spmv ⟨0, []⟩ csr ⟨4, [1, 2, 3, 4]⟩ false = .ok out ∧ out.size = exCOO.rows ∧
      ∀ r, r < exCOO.rows → out.data[r]? = some
        (((exCOO.triplets.filter (fun e => e.r = r)).map
          (fun e => e.v * (DenseVector.mk 4 [1, 2, 3, (4 : Int)]).data.getD e.c 0)).sum) :=
  ⟨by decide, convert_then_spmv insertionStdSort insertionStdSort_isStdSort exCOO
    ⟨4, [1, 2, 3, 4]⟩ ⟨0, []⟩ exCOO_wellFormed (by decide) (by decide) (by decide) (by decide)
    (by decide) (by decide) rfl⟩

theorem onesCOO_wellFormed (n : Nat) : (onesCOO n).WellFormed :=
  ⟨by simp [onesCOO], by simp [onesCOO], by simp [onesCOO]⟩

theorem onesCOO_triplets (n : Nat) :
    (onesCOO n).triplets = List.replicate n ⟨0, 0, 1⟩ := by
  simp [COO.triplets, onesCOO, List.zip_replicate', List.map_replicate]

theorem onesCOO_rows (n : Nat) : ∀ r ∈ (onesCOO n).row_ids, r < (onesCOO n).rows := by
  intro r hr
  simp only [onesCOO] at hr ⊢
  rw [List.eq_of_mem_replicate hr]
  decide

theorem onesCOO_cols (n : Nat) : ∀ c ∈ (onesCOO n).col_ids, c < (onesCOO n).cols := by
  intro c hc
  simp only [onesCOO] at hc ⊢
  rw [List.eq_of_mem_replicate hc]
  decide

/-- On `n` copies of the triplet `(0, 0, 1)` the only row count, `n`, is stored modulo
`2^32`. -/
theorem convert_onesCOO (n : Nat) :
    convert insertionStdSort (onesCOO n) =
      .ok ⟨1, 1, n, List.replicate n 1, List.replicate n 0, [0, n % 2 ^ 32]⟩ := by
  have hperm : ∀ l : List (Entry Int), (insertionStdSort l).Perm l :=
    fun l => (insertionStdSort_isStdSort l).1
  have hsort : insertionStdSort (onesCOO n).triplets = List.replicate n ⟨0, 0, 1⟩ := by
    rw [onesCOO_triplets]
    exact List.perm_replicate.mp (hperm _)
  rw [convert_eq insertionStdSort hperm (onesCOO n) (onesCOO_wellFormed n) (onesCOO_rows n)
    (by simp only [onesCOO]; decide), hsort]
  simp [onesCOO, List.range_succ, List.countP_replicate, List.map_replicate]

/-- When `n` is a multiple of `2^32`, the product computed from `onesCOO n` and the input
`[1]` is `0`, while the triplets of row 0 contribute `n`. -/
theorem onesCOO_product_lost (n : Nat) (hn : n % 2 ^ 32 = 0) :
    ∃ csr out, convert insertionStdSort (onesCOO n) = .ok csr ∧
      spmv ⟨0, []⟩ csr ⟨1, [1]⟩ false = .ok out ∧ out.data[0]? = some 0 ∧
      (((onesCOO n).triplets.filter (fun e => e.r = 0)).map
        (fun e => e.v * (DenseVector.mk 1 [(1 : Int)]).data.getD e.c 0)).sum = (n : Int) := by
  refine ⟨_, ⟨1, [0]⟩, convert_onesCOO n, ?_, rfl, ?_⟩
  · have hn2 : n % 4294967296 = 0 := hn
    simp [spmv, rowsLoop, rowLoop, writeAt, hn2]
  · rw [onesCOO_triplets]
    simp [List.filter_replicate, List.map_replicate, List.sum_replicate]

/-- Counterexample to C17 as stated, in two inputs that meet its hypotheses.  With `2^32`
copies of the triplet `(0, 0, 1)` and the input `[1]`, the offsets of row 0 wrap to
`0, 0`, so `output[0]` is `0` although the triplets of row 0 add up to `2^32`.  With no
triplet and `rows = 2^64 - 1` there is no matrix to multiply. -/
theorem convert_then_spmv_counterexample :
    ((onesCOO (2 ^ 32)).WellFormed ∧
      (∀ r ∈ (onesCOO (2 ^ 32)).row_ids, r < (onesCOO (2 ^ 32)).rows) ∧
      (∀ c ∈ (onesCOO (2 ^ 32)).col_ids, c < (onesCOO (2 ^ 32)).cols) ∧
      (DenseVector.mk 1 [(1 : Int)]).size = (onesCOO (2 ^ 32)).cols ∧
      (∃ csr out, convert insertionStdSort (onesCOO (2 ^ 32)) = .ok csr ∧
        spmv ⟨0, []⟩ csr ⟨1, [1]⟩ false = .ok out ∧ out.data[0]? = some 0 ∧
        (((onesCOO (2 ^ 32)).triplets.filter (fun e => e.r = 0)).map
          (fun e => e.v * (DenseVector.mk 1 [(1 : Int)]).data.getD e.c 0)).sum
            = ((2 ^ 32 : Nat) : Int)) ∧
      ((2 ^ 32 : Nat) : Int) ≠ 0) ∧
    (maxRowsCOO.WellFormed ∧ (∀ r ∈ maxRowsCOO.row_ids, r < maxRowsCOO.rows) ∧
      (∀ c ∈ maxRowsCOO.col_ids, c < maxRowsCOO.cols) ∧
      ¬ ∃ csr, convert insertionStdSort maxRowsCOO = .ok csr) :=
  ⟨⟨onesCOO_wellFormed (2 ^ 32), onesCOO_rows (2 ^ 32), onesCOO_cols (2 ^ 32), rfl,
      onesCOO_product_lost (2 ^ 32) (Nat.mod_self _), by norm_num⟩,
    maxRowsCOO_wellFormed, fun _ h => absurd h (List.not_mem_nil _),
    fun _ h => absurd h (List.not_mem_nil _), maxRowsCOO_no_result⟩

/-- A left fold that adds `f e` for the offsets `e = s .. s+n-1` is a finite sum. -/
theorem foldl_add_eq_sum (f : Nat → T) :
    ∀ (n s : Nat) (a : T),
      (List.range' s n).foldl (fun acc e => acc + f e) a
        = a + ∑ k ∈ Finset.range n, f (s + k) := by
  intro n
  induction n with
  | zero => intro s a; simp
  | succ n ih =>
    intro s a
    rw [List.range'_succ, List.foldl_cons, ih (s + 1) (a + f s), Finset.sum_range_succ']
    have hc : ∀ k, f (s + 1 + k) = f (s + (k + 1)) := fun k => by
      rw [Nat.add_assoc, Nat.add_comm 1 k]
    simp only [hc, Nat.add_zero]
    ring

theorem rowSumSpec_eq_sum (m : CSR T) (x : DenseVector T) (r : Nat) :
    rowSumSpec m x r = ∑ k ∈ Finset.range
        (m.row_offsets.getD (r + 1) 0 - m.row_offsets.getD r 0),
      m.data.getD (m.row_offsets.getD r 0 + k) 0
        * x.data.getD (m.col_ids.getD (m.row_offsets.getD r 0 + k) 0) 0 := by
  unfold rowSumSpec
  rw [foldl_add_eq_sum (fun e => m.data.getD e 0 * x.data.getD (m.col_ids.getD e 0) 0), zero_add]

theorem colSumSpec_eq_sum (m : CSR T) (y : DenseVector T) (c : Nat) :
    colSumSpec m y c = ∑ r ∈ Finset.range m.rows, ∑ k ∈ Finset.range
        (m.row_offsets.getD (r + 1) 0 - m.row_offsets.getD r 0),
      if m.col_ids.getD (m.row_offsets.getD r 0 + k) 0 = c
        then m.data.getD (m.row_offsets.getD r 0 + k) 0 * y.data.getD r 0 else 0 := by
  unfold colSumSpec
  have hin : ∀ r : Nat, (fun (acc : T) (e : Nat) =>
      if m.col_ids.getD e 0 = c then acc + m.data.getD e 0 * y.data.getD r 0 else acc)
      = (fun acc e => acc +
        (if m.col_ids.getD e 0 = c then m.data.getD e 0 * y.data.getD r 0 else 0)) := by
    intro r
    funext acc e
    split <;> simp
  simp only [hin]
  simp only [foldl_add_eq_sum (fun e =>
    if m.col_ids.getD e 0 = c then m.data.getD e 0 * y.data.getD _ 0 else 0)]
  rw [List.range_eq_range', foldl_add_eq_sum, zero_add]
  simp only [Nat.zero_add]

theorem dot_eq_sum (a b : List T) (n : Nat) :
    dot a b n = ∑ i ∈ Finset.range n, a.getD i 0 * b.getD i 0 := by
  unfold dot
  rw [List.range_eq_range', foldl_add_eq_sum (fun i => a.getD i 0 * b.getD i 0), zero_add]
  simp only [Nat.zero_add]

/-- C18. The transposed mode is the transpose of the non-transposed mode: over a
commutative ring of elements, for every valid CSR matrix `m`, every `x` of size `m.cols`
and every `y` of size `m.rows` (and any output vectors; all dense vectors in the sense
of §3), both calls return normally, the output of `spmv(m, x, false)` has size `m.rows`
and holds the row sum of `x` in each of its first `m.rows` elements, the output of
`spmv(m, y, true)` has size `m.cols` and holds the column sum of `y` in each of its first
`m.cols` elements, all four buffers hold every element the two dot products read, and the
dot product of `y` with the first output equals the dot product of the second output
with `x`. -/
theorem spmv_transpose_adjoint (res1 res2 : DenseVector T) (m : CSR T) (x y : DenseVector T)
    (hm : m.Valid) (hx : x.Valid) (hy : y.Valid) (hr1 : res1.Valid) (hr2 : res2.Valid)
    (hxs : x.size = m.cols) (hys : y.size = m.rows) :
    ∃ o1 o2, spmv res1 m x false = .ok o1 ∧ spmv res2 m y true = .ok o2 ∧
      o1.size = m.rows ∧ o2.size = m.cols ∧
      m.rows ≤ o1.data.length ∧ m.cols ≤ o2.data.length ∧
      m.rows ≤ y.data.length ∧ m.cols ≤ x.data.length ∧
      (∀ r, r < m.rows → o1.data[r]? = some (rowSumSpec m x r)) ∧
      (∀ c, c < m.cols → o2.data[c]? = some (colSumSpec m y c)) ∧
      dot y.data o1.data m.rows = dot o2.data x.data m.cols := by
  have hx1 : x.size ≤ x.data.length := hx
  have hy1 : y.size ≤ y.data.length := hy
  obtain ⟨o1, a1, a2, _, a4⟩ := rowsLoop_spec m x hm
    (fun c hc => by have := hm.col_bound c hc; omega) m.rows 0
    (if res1.size < m.rows then List.replicate m.rows (0 : T) else res1.data) (by omega)
    (resize_length res1 hr1 m.rows)
  obtain ⟨buf0, f1, f2, f3⟩ := fillN_spec
    (if res2.size < m.cols then List.replicate m.cols (0 : T) else res2.data) m.cols 0
    (resize_length res2 hr2 m.cols)
  obtain ⟨o2, b1, b2, b3⟩ := scatterRows_spec m y hm (by omega) m.rows 0 buf0 (by omega)
    (by rw [f2]; exact resize_length res2 hr2 m.cols)
  have hrow : ∀ r, r < m.rows → o1.getD r 0 = rowSumSpec m x r := fun r hr =>
    getD_of_getElem? 0 (a4 r (Nat.zero_le r) (by omega))
  have hcol : ∀ c, c < m.cols → o2.getD c 0 = colSumSpec m y c := fun c hc =>
    getD_of_getElem? 0 (by rw [b3 c 0 (f3 c hc), colSumSpec, List.range_eq_range'])
  have hl1 : m.rows ≤ o1.length := by
    rw [a2]
    exact resize_length res1 hr1 m.rows
  have hl2 : m.cols ≤ o2.length := by
    rw [b2, f2]
    exact resize_length res2 hr2 m.cols
  refine ⟨⟨m.rows, o1⟩, ⟨m.cols, o2⟩, by simp [spmv, hxs, a1], by simp [spmv, hys, f1, b1],
    rfl, rfl, hl1, hl2, by omega, by omega,
    fun r hr => a4 r (Nat.zero_le r) (by omega),
    fun c hc => by rw [b3 c 0 (f3 c hc), colSumSpec, List.range_eq_range'], ?_⟩
  simp only
  have e1 : ∑ r ∈ Finset.range m.rows, y.data.getD r 0 * o1.getD r 0
      = ∑ r ∈ Finset.range m.rows, y.data.getD r 0 * rowSumSpec m x r :=
    Finset.sum_congr rfl (fun r hr => by rw [hrow r (Finset.mem_range.mp hr)])
  have e2 : ∑ c ∈ Finset.range m.cols, o2.getD c 0 * x.data.getD c 0
      = ∑ c ∈ Finset.range m.cols, colSumSpec m y c * x.data.getD c 0 :=
    Finset.sum_congr rfl (fun c hc => by rw [hcol c (Finset.mem_range.mp hc)])
  rw [dot_eq_sum, dot_eq_sum, e1, e2]
  simp only [rowSumSpec_eq_sum, colSumSpec_eq_sum, Finset.sum_mul, Finset.mul_sum]
  rw [Finset.sum_comm]
  apply Finset.sum_congr rfl
  intro r hr
  rw [Finset.sum_comm]
  apply Finset.sum_congr rfl
  intro k hk
  have hlt := hm.col_getD_lt (Finset.mem_range.mp hr) (Finset.mem_range.mp hk)
  simp only [ite_mul, zero_mul]
  rw [Finset.sum_ite_eq, if_pos (Finset.mem_range.mpr hlt)]
  ring

/-- Witness for C18: the theorem applied to the §8 matrix with `x = [1, 2, 3]` and
`y = [4, 5]`. -/
theorem spmv_transpose_adjoint_witness :
    (DenseVector.Valid (⟨3, [1, 2, 3]⟩ : DenseVector Int) ∧
      DenseVector.Valid (⟨2, [4, 5]⟩ : DenseVector Int)) ∧
    ∃ o1 o2, spmv ⟨0, []⟩ exA ⟨3, [1, 2, 3]⟩ false = .ok o1 ∧
      spmv ⟨0, []⟩ exA ⟨2, [4, 5]⟩ true = .ok o2 ∧
      o1.size = exA.rows ∧ o2.size = exA.cols ∧
      exA.rows ≤ o1.data.length ∧ exA.cols ≤ o2.data.length ∧
      exA.rows ≤ (DenseVector.mk 2 [4, (5 : Int)]).data.length ∧
      exA.cols ≤ (DenseVector.mk 3 [1, 2, (3 : Int)]).data.length ∧
      (∀ r, r < exA.rows → o1.data[r]? = some (rowSumSpec exA ⟨3, [1, 2, 3]⟩ r)) ∧
      (∀ c, c < exA.cols → o2.data[c]? = some (colSumSpec exA ⟨2, [4, 5]⟩ c)) ∧
      dot (DenseVector.mk 2 [4, (5 : Int)]).data o1.data exA.rows
        = dot o2.data (DenseVector.mk 3 [1, 2, (3 : Int)]).data exA.cols :=
  ⟨by decide, spmv_transpose_adjoint ⟨0, []⟩ ⟨0, []⟩ exA ⟨3, [1, 2, 3]⟩ ⟨2, [4, 5]⟩ exA_valid
    (by decide) (by decide) (by decide) (by decide) rfl rfl⟩

end EndToEnd

end Hola
